import Mathlib

/-!
# ONC console control: a shallow embedding of `ONC_ConsoleControl.h`

The header implements a serial command console: a line editor
(`getSerialInput`, `catchEscapeSequence`), a history of earlier lines
(`incrementBufferHistory`, `printHistoryBuffer`), a tokenizer (`getToken`) and
a command table with a dispatcher (`findAndCheckCommandIndex`,
`getParametersFromInput`, `runSerialCommands`).

Conventions of the embedding.

* A `char` is a natural number (its byte value); an `int` is an `Int`. No
  integer of the program leaves the range of a 16-bit `int`, so no wrap-around
  is modelled.
* A C array is a `List` of its declared length. Every indexed access goes
  through `rd` / `wr`, which fail with a `Fault` when the index is outside the
  array, the behaviour C leaves undefined.
* The serial interface is a record of the current time in milliseconds, the
  bytes still to arrive (each with its arrival time) and the bytes written so
  far. `delay` advances the time; nothing else takes time.
* A local array declared without initialiser takes its contents from the
  `garbage` field of the console.
* Control that reaches the closing brace of a function declared with a value
  to return, without a `return` statement, fails with the fault `noReturn`:
  C++ leaves the behaviour undefined from there on.
-/

namespace ConsoleControl

/-! ## Configuration macros (the defaults of the header) -/

def MAX_COMMANDS : Nat := 10
def MAX_PARAMETERS : Nat := 6
def MAX_PARAMETER_LENGTH : Nat := 15
def INPUT_BUFFER_SIZE : Nat := 50
def COMMAND_HISTORY_LENGTH : Nat := 5
/-- Carriage return. -/
def ENTER : Nat := 13
def BACKSPACE : Nat := 8
def ESCAPE : Nat := 27
def DELETE : Nat := 127
def LINE_FEED : Nat := 10
/-- The character `>`. -/
def ENTRY_PREFIX : Nat := 62
/-- The character `DELIMITER[0]`, a comma. -/
def DELIMITER0 : Nat := 44
def ESC_CODE_MS : Nat := 2
def MAX_ESC_CODE_LENGTH : Nat := 2
def CONSOLE_CONTROL_TIMEOUT_MS : Nat := 30000

/-! ## Memory -/

/-- Undefined behaviour the embedding detects, and exhaustion of loop fuel:
an array read or written outside its bounds, and the end of a value-returning
function reached without a `return` statement. -/
inductive Fault where
  | read (index : Int)
  | write (index : Int)
  | noReturn
  | fuel
  deriving DecidableEq, Repr

deriving instance DecidableEq for Except

/-- Read `a[i]`. -/
def rd {α : Type} (a : List α) (i : Int) : Except Fault α :=
  if i < 0 then .error (.read i)
  else match a[i.toNat]? with
    | some v => .ok v
    | none => .error (.read i)

/-- Write `a[i] = v`. -/
def wr {α : Type} (a : List α) (i : Int) (v : α) : Except Fault (List α) :=
  if 0 ≤ i ∧ i.toNat < a.length then .ok (a.set i.toNat v) else .error (.write i)

/-- The bytes of a string literal. -/
def str (s : String) : List Nat := s.toList.map Char.toNat

/-- The characters `print` sends for a NUL-terminated `char` array: those before
the first NUL. Running off the array is a fault. -/
def cstr (a : List Nat) : Except Fault (List Nat) :=
  if a.contains 0 then .ok (a.takeWhile (fun b => b != 0)) else .error (.read a.length)

/-- Whether `strcmp(a, name) == 0`, for a `char` array `a` (read from index
`i` on) and a string `name` given by its characters before the terminator. -/
def strcmpEq : List Nat → List Nat → Nat → Except Fault Bool
  | [], _, i => .error (.read i)
  | b :: _, [], _ => .ok (b == 0)
  | b :: bs, n :: ns, i => if b = n ∧ b ≠ 0 then strcmpEq bs ns (i + 1) else .ok false

/-- A local array of `n` chars declared without initialiser. -/
def uninit (garbage : Nat → Nat) (n : Nat) : List Nat := (List.range n).map garbage

/-! ## The serial interface -/

structure Serial where
  /-- Milliseconds elapsed. -/
  now : Nat
  /-- Bytes not yet read, in order of arrival, each with its arrival time. -/
  rx : List (Nat × Nat)
  /-- Bytes written so far. -/
  tx : List Nat
  deriving DecidableEq, Repr

namespace Serial

/-- The call `SERIAL_INTERFACE.available()`. -/
def available (s : Serial) : Bool :=
  match s.rx with
  | [] => false
  | (t, _) :: _ => decide (t ≤ s.now)

/-- The call `SERIAL_INTERFACE.read()`, converted to `char`; every call of the
program is guarded by `available()`. With nothing to read the Arduino call
returns -1, the char 255. -/
def read (s : Serial) : Nat × Serial :=
  match s.rx with
  | [] => (255, s)
  | (_, b) :: rest => (b, { s with rx := rest })

/-- The call `SERIAL_INTERFACE.print` of a character or a string. -/
def print (s : Serial) (bytes : List Nat) : Serial := { s with tx := s.tx ++ bytes }

/-- The call `SERIAL_INTERFACE.println`. -/
def println (s : Serial) (bytes : List Nat) : Serial := s.print (bytes ++ [13, 10])

/-- The decimal digits `print` sends for an `int`. -/
def decimal (v : Int) : List Nat :=
  if v < 0 then 45 :: (Nat.toDigits 10 v.natAbs).map Char.toNat
  else (Nat.toDigits 10 v.toNat).map Char.toNat

/-- The call `SERIAL_INTERFACE.print` of an `int`. -/
def printInt (s : Serial) (v : Int) : Serial := s.print (decimal v)

/-- The call `delay(ms)`. -/
def delay (s : Serial) (ms : Nat) : Serial := { s with now := s.now + ms }

end Serial

/-! ## Data types and globals -/

/-- The parameter array `char [MAX_PARAMETERS][MAX_PARAMETER_LENGTH]`. -/
abbrev Parameters := List (List Nat)

/-- The `struct Command`. Strings are given by their characters before the
terminator. The handler is external code: it is modelled by the bytes it
writes to the serial interface for a given parameter array. -/
structure Command where
  name : List Nat
  description : List Nat
  use : List Nat
  maxParameters : Nat
  minParameters : Nat
  function : Parameters → List Nat

/-- The globals of the header, the serial interface, and a record of the
handler calls made so far (index in `commands` and the parameter array). -/
structure Console where
  commands : List Command
  commandNum : Int
  historyBuffers : List (List Nat)
  inputEnds : List Int
  inputBuffer : List Nat
  serial : Serial
  calls : List (Int × Parameters)
  garbage : Nat → Nat

/-! ## The tokenizer -/

/-- The scanning loop of `getToken`,
`for (; i < INPUT_BUFFER_SIZE-1 && input[i] != 0; i++)`: the first argument
is the number of values `i` may still take below `INPUT_BUFFER_SIZE-1`. The
result is `i`, `start` and `tokenNum` when the loop is left. -/
def getToken.scan (input : List Nat) : Nat → Nat → Nat → Int → Except Fault (Nat × Nat × Int)
  | 0, i, start, tokenNum => .ok (i, start, tokenNum)
  | k + 1, i, start, tokenNum => do
    let c ← rd input i
    if c = 0 then return (i, start, tokenNum)
    let p ← rd input ((i : Int) - 1)
    if c = DELIMITER0 ∧ p ≠ DELIMITER0 then
      if tokenNum = 0 then return (i, start, tokenNum)
      else getToken.scan input k (i + 1) start (tokenNum - 1)
    else if c ≠ DELIMITER0 ∧ p = DELIMITER0 then
      getToken.scan input k (i + 1) i tokenNum
    else
      getToken.scan input k (i + 1) start tokenNum

/-- The copying loop of `getToken`,
`for (; j < i-start && j < MAX_PARAMETER_LENGTH; j++) token[j] = input[j+start]`:
the first argument is the number of iterations left. The result is `j` and
the token array when the loop is left. -/
def getToken.copy (input : List Nat) (start : Nat) :
    Nat → Nat → List Nat → Except Fault (Nat × List Nat)
  | 0, j, token => .ok (j, token)
  | n + 1, j, token => do
    let v ← rd input ((j : Int) + start)
    let token ← wr token j v
    getToken.copy input start n (j + 1) token

/-- The function `getToken(token, input, tokenNum)`; the result is the array
`token` afterwards. -/
def getToken (token input : List Nat) (tokenNum : Int) : Except Fault (List Nat) := do
  if tokenNum < 0 then return token
  let c0 ← rd input 0
  if c0 = 0 then
    wr token 0 0
  else
    let (i, start, tokenNum) ← getToken.scan input (INPUT_BUFFER_SIZE - 1 - 1) 1 0 tokenNum
    if tokenNum > 0 then
      wr token 0 0
    else
      let (j, token) ← getToken.copy input start (min (i - start) MAX_PARAMETER_LENGTH) 0 token
      wr token j 0

/-! ## The command table -/

/-- The function `registerCommand`. -/
def registerCommand (c : Console) (command : Command) : Except Fault Console := do
  if c.commandNum < MAX_COMMANDS then
    let commands ← wr c.commands c.commandNum command
    return { c with commands := commands, commandNum := c.commandNum + 1 }
  else
    let s := c.serial.println
      (str "Out of space for commands. Change MAX_COMMANDS or register less commands.")
    return { c with serial := s }

/-- The loop of `findAndCheckCommandIndex`,
`for (; commandIndex < commandNum && strcmp(command, commands[commandIndex].name) != 0; commandIndex++);`
the first argument is the number of values `commandIndex` may still take
below `commandNum`. -/
def findAndCheckCommandIndex.loop (commands : List Command) (command : List Nat) :
    Nat → Int → Except Fault Int
  | 0, commandIndex => .ok commandIndex
  | k + 1, commandIndex => do
    let entry ← rd commands commandIndex
    if (← strcmpEq command entry.name 0) then return commandIndex
    else findAndCheckCommandIndex.loop commands command k (commandIndex + 1)

/-- The function `findAndCheckCommandIndex(command)`. -/
def findAndCheckCommandIndex (c : Console) (command : List Nat) :
    Except Fault (Console × Int) := do
  let commandIndex ← findAndCheckCommandIndex.loop c.commands command c.commandNum.toNat 0
  if commandIndex = c.commandNum then
    let s := c.serial.print [39]
    let s := s.print (← cstr command)
    let s := s.println
      (str "' is not a command. You can use the '@help' command to list all possible commands.")
    return ({ c with serial := s }, commandIndex)
  else
    return (c, commandIndex)

/-! ## The history -/

/-- The loop of `bufferCopy`; the first argument is the number of iterations
left. -/
def bufferCopy.loop (buffer2 : List Nat) : Nat → Nat → List Nat → Except Fault (List Nat)
  | 0, _, buffer1 => .ok buffer1
  | k + 1, i, buffer1 => do
    let v ← rd buffer2 i
    let buffer1 ← wr buffer1 i v
    bufferCopy.loop buffer2 k (i + 1) buffer1

/-- The function `bufferCopy(buffer1, buffer2)`; the result is `buffer1`
afterwards. -/
def bufferCopy (buffer1 buffer2 : List Nat) : Except Fault (List Nat) :=
  bufferCopy.loop buffer2 INPUT_BUFFER_SIZE 0 buffer1

/-- The loop of `incrementBufferHistory`,
`for (int i = COMMAND_HISTORY_LENGTH; i > 0; i--)`: the first argument is `i`. -/
def incrementBufferHistory.loop :
    Nat → List (List Nat) → List Int → Except Fault (List (List Nat) × List Int)
  | 0, historyBuffers, inputEnds => .ok (historyBuffers, inputEnds)
  | k + 1, historyBuffers, inputEnds => do
    let i : Int := ((k + 1 : Nat) : Int)
    let dst ← rd historyBuffers i
    let src ← rd historyBuffers (i - 1)
    let historyBuffers ← wr historyBuffers i (← bufferCopy dst src)
    let inputEnds ← wr inputEnds i (← rd inputEnds (i - 1))
    incrementBufferHistory.loop k historyBuffers inputEnds

/-- The function `incrementBufferHistory(historyIndex)`. -/
def incrementBufferHistory (c : Console) (historyIndex : Int) : Except Fault Console := do
  let slot0 ← rd c.historyBuffers 0
  let historyBuffers ← wr c.historyBuffers 0 (← bufferCopy slot0 c.inputBuffer)
  let inputEnds ← wr c.inputEnds 0 (← rd c.inputEnds historyIndex)
  let (historyBuffers, inputEnds) ←
    incrementBufferHistory.loop COMMAND_HISTORY_LENGTH historyBuffers inputEnds
  return { c with historyBuffers := historyBuffers, inputEnds := inputEnds }

/-- The printing loop of `printHistoryBuffer`,
`for (int i = 0; i < inputEnds[historyIndex]; i++)`: the first argument is
the number of iterations left. -/
def printHistoryBuffer.loop (buffer : List Nat) : Nat → Nat → Serial → Except Fault Serial
  | 0, _, s => .ok s
  | k + 1, i, s => do
    let v ← rd buffer i
    printHistoryBuffer.loop buffer k (i + 1) (s.print [v])

/-- The function `printHistoryBuffer(historyIndex, inputIndex)`; the result is
the console and `inputIndex` afterwards. -/
def printHistoryBuffer (c : Console) (historyIndex : Int) : Except Fault (Console × Int) := do
  let s := c.serial.print [27, 91, 50, 75, 13]
  let s := s.print [ENTRY_PREFIX]
  let s ← printHistoryBuffer.loop (← rd c.historyBuffers historyIndex)
    (← rd c.inputEnds historyIndex).toNat 0 s
  return ({ c with serial := s }, ← rd c.inputEnds historyIndex)

/-! ## Escape sequences -/

/-- The reading loop of `catchEscapeSequence`,
`for (int escapeIndex = 0; escapeIndex < MAX_ESC_CODE_LENGTH && SERIAL_INTERFACE.available(); escapeIndex++)`:
the first argument is the number of values `escapeIndex` may still take. -/
def catchEscapeSequence.readLoop :
    Nat → Nat → List Nat → Serial → Except Fault (List Nat × Serial)
  | 0, _, escapeSequence, s => .ok (escapeSequence, s)
  | k + 1, escapeIndex, escapeSequence, s =>
    if s.available then do
      let escapeSequence ← wr escapeSequence escapeIndex s.read.1
      catchEscapeSequence.readLoop k (escapeIndex + 1) escapeSequence (s.read.2.delay ESC_CODE_MS)
    else .ok (escapeSequence, s)

/-- The draining loop of `catchEscapeSequence`,
`while (SERIAL_INTERFACE.available()) { read(); delay(ESC_CODE_MS); }`: the
first argument bounds the number of iterations by the number of bytes still
to arrive. -/
def catchEscapeSequence.drain : Nat → Serial → Serial
  | 0, s => s
  | k + 1, s =>
    if s.available then catchEscapeSequence.drain k (s.read.2.delay ESC_CODE_MS) else s

/-- The part of `catchEscapeSequence` under the comment "parse escape
sequences", for the array `escapeSequence` the reading loop has left. -/
def catchEscapeSequence.parse (c : Console) (escapeSequence : List Nat)
    (historyIndex inputIndex : Int) (allowHistory : Bool) :
    Except Fault (Console × Int × Int) := do
  if (← rd escapeSequence 0) = 91 then
    let e1 ← rd escapeSequence 1
    let right ← (if e1 = 67 then do
      let len ← rd c.inputEnds historyIndex
      pure (decide (inputIndex ≠ len)) else pure false)
    if right then
      -- "[C" (move cursor right)
      let s := c.serial.print [27, 91, 67]
      let inputIndex := inputIndex + 1
      let len ← rd c.inputEnds historyIndex
      let inputEnds ← wr c.inputEnds historyIndex (max len inputIndex)
      return ({ c with serial := s, inputEnds := inputEnds }, historyIndex, inputIndex)
    else if e1 = 68 ∧ inputIndex > 0 then
      -- "[D" (move cursor left)
      let s := c.serial.print [27, 91, 68]
      return ({ c with serial := s }, historyIndex, inputIndex - 1)
    else if e1 = 65 ∧ allowHistory = true ∧ historyIndex < COMMAND_HISTORY_LENGTH then
      -- "[A" (up arrow, recall further back in history)
      let historyBuffers ← (if historyIndex = 0 then do
        let slot0 ← rd c.historyBuffers 0
        wr c.historyBuffers 0 (← bufferCopy slot0 c.inputBuffer) else pure c.historyBuffers)
      let c := { c with historyBuffers := historyBuffers }
      let historyIndex := historyIndex + 1
      let (c, inputIndex) ← printHistoryBuffer c historyIndex
      let inputBuffer ← bufferCopy c.inputBuffer (← rd c.historyBuffers historyIndex)
      return ({ c with inputBuffer := inputBuffer }, historyIndex, inputIndex)
    else if e1 = 66 ∧ allowHistory = true ∧ historyIndex > 0 then
      -- "[B" (down arrow, recall less far back in history)
      let historyIndex := historyIndex - 1
      let (c, inputIndex) ← printHistoryBuffer c historyIndex
      let inputBuffer ← bufferCopy c.inputBuffer (← rd c.historyBuffers historyIndex)
      return ({ c with inputBuffer := inputBuffer }, historyIndex, inputIndex)
    else
      return (c, historyIndex, inputIndex)
  else
    return (c, historyIndex, inputIndex)

/-- The statements of `catchEscapeSequence(historyIndex, inputIndex, allowHistory)`
from the opening brace to the closing one; the result is the console,
`historyIndex` and `inputIndex` when control reaches the closing brace. The
array `escapeSequence` is declared without initialiser. -/
def catchEscapeSequence.body (c : Console) (historyIndex inputIndex : Int)
    (allowHistory : Bool) : Except Fault (Console × Int × Int) := do
  let (escapeSequence, s) ← catchEscapeSequence.readLoop MAX_ESC_CODE_LENGTH 0
    (uninit c.garbage MAX_ESC_CODE_LENGTH) c.serial
  let s := catchEscapeSequence.drain s.rx.length s
  catchEscapeSequence.parse { c with serial := s } escapeSequence historyIndex inputIndex
    allowHistory

/-- The function `bool catchEscapeSequence(historyIndex, inputIndex, allowHistory)`.
It is declared to return a `bool` and holds no `return` statement: every call
that gets through its statements reaches the closing brace of a
value-returning function, which is the fault `noReturn`. No call returns a
console to the caller. -/
def catchEscapeSequence (c : Console) (historyIndex inputIndex : Int) (allowHistory : Bool) :
    Except Fault (Console × Int × Int) := do
  let _ ← catchEscapeSequence.body c historyIndex inputIndex allowHistory
  .error .noReturn

/-! ## The line editor -/

/-- The console together with the parameter `historyIndex` and the locals of
`getSerialInput`. -/
structure LoopState where
  con : Console
  historyIndex : Int
  inputIndex : Int
  finished : Bool
  exit : Bool
  timeoutCounter : Nat

/-- The loop of the BACKSPACE case,
`for (int i = inputIndex; i < inputEnds[historyIndex]; i++)`: the first
argument is the number of iterations left. -/
def getSerialInput.shiftLeft :
    Nat → Int → List Nat → Serial → Except Fault (List Nat × Serial)
  | 0, _, inputBuffer, s => .ok (inputBuffer, s)
  | k + 1, i, inputBuffer, s => do
    let inputBuffer ← wr inputBuffer (i - 1) (← rd inputBuffer i)
    let s := s.print [← rd inputBuffer i]
    getSerialInput.shiftLeft k (i + 1) inputBuffer s

/-- The first loop of the default case,
`for (int i = inputEnds[historyIndex]; i > inputIndex; i--) inputBuffer[i] = inputBuffer[i-1]`:
the first argument is the number of iterations left. -/
def getSerialInput.shiftRight : Nat → Int → List Nat → Except Fault (List Nat)
  | 0, _, inputBuffer => .ok inputBuffer
  | k + 1, i, inputBuffer => do
    let inputBuffer ← wr inputBuffer i (← rd inputBuffer (i - 1))
    getSerialInput.shiftRight k (i - 1) inputBuffer

/-- The second loop of the default case,
`for (int i = inputIndex+1; i < inputEnds[historyIndex]; i++) print(inputBuffer[i])`:
the first argument is the number of iterations left. -/
def getSerialInput.echo (inputBuffer : List Nat) : Nat → Int → Serial → Except Fault Serial
  | 0, _, s => .ok s
  | k + 1, i, s => do
    getSerialInput.echo inputBuffer k (i + 1) (s.print [← rd inputBuffer i])

/-- The cases `BACKSPACE` and `DELETE` of the switch. -/
def getSerialInput.caseBackspace (st : LoopState) : Except Fault LoopState := do
  if st.inputIndex > 0 then
    let len ← rd st.con.inputEnds st.historyIndex
    let (inputBuffer, s) ← (if st.inputIndex = len then
        pure (st.con.inputBuffer, st.con.serial.print [8, 32, 8])
      else do
        let s := st.con.serial.print [8]
        let (inputBuffer, s) ← getSerialInput.shiftLeft (len - st.inputIndex).toNat
          st.inputIndex st.con.inputBuffer s
        let s := s.print [32, 27, 91]
        let s := s.printInt (len - st.inputIndex + 1)
        let s := s.print [68]
        pure (inputBuffer, s))
    let inputEnds ← wr st.con.inputEnds st.historyIndex (len - 1)
    return { st with
      con := { st.con with inputBuffer := inputBuffer, serial := s, inputEnds := inputEnds }
      inputIndex := st.inputIndex - 1 }
  else
    return st

/-- The default case of the switch. -/
def getSerialInput.caseDefault (st : LoopState) (inputChar : Nat) : Except Fault LoopState := do
  let s := st.con.serial.print [inputChar]
  let inputEnds ← wr st.con.inputEnds st.historyIndex ((← rd st.con.inputEnds st.historyIndex) + 1)
  let len ← rd inputEnds st.historyIndex
  let (inputBuffer, s) ← (if st.inputIndex < len - 1 then do
      let inputBuffer ← getSerialInput.shiftRight (len - st.inputIndex).toNat len st.con.inputBuffer
      let s ← getSerialInput.echo inputBuffer (len - (st.inputIndex + 1)).toNat (st.inputIndex + 1) s
      let s := s.print [27, 91]
      let s := s.printInt (len - st.inputIndex - 1)
      let s := s.print [68]
      pure (inputBuffer, s)
    else pure (st.con.inputBuffer, s))
  let inputBuffer ← wr inputBuffer st.inputIndex inputChar
  return { st with
    con := { st.con with inputBuffer := inputBuffer, serial := s, inputEnds := inputEnds }
    inputIndex := st.inputIndex + 1 }

/-- The statement `switch (inputChar)`. A lone ESCAPE sets `exit` and falls
through the ENTER case; an ESCAPE with a byte behind it calls
`catchEscapeSequence`, and the `break` after the call is reached only if the
call returns. -/
def getSerialInput.switch (allowHistory : Bool) (st : LoopState) (inputChar : Nat) :
    Except Fault LoopState := do
  if inputChar = ESCAPE then
    let st := { st with con := { st.con with serial := st.con.serial.delay ESC_CODE_MS } }
    if st.con.serial.available then
      let (con, historyIndex, inputIndex) ←
        catchEscapeSequence st.con st.historyIndex st.inputIndex allowHistory
      return { st with con := con, historyIndex := historyIndex, inputIndex := inputIndex }
    else
      return { st with exit := true, finished := true }
  else if inputChar = ENTER then
    return { st with finished := true }
  else if inputChar = LINE_FEED then
    return st
  else if inputChar = BACKSPACE ∨ inputChar = DELETE then
    getSerialInput.caseBackspace st
  else
    getSerialInput.caseDefault st inputChar

/-- One evaluation of the loop condition of `getSerialInput` followed, when it
holds, by one execution of the loop body. The flag of the result tells
whether the loop goes on. -/
def getSerialInput.step (allowHistory : Bool) (st : LoopState) :
    Except Fault (LoopState × Bool) := do
  let len ← rd st.con.inputEnds st.historyIndex
  if len < (INPUT_BUFFER_SIZE : Int) - 1 ∧ st.finished = false then
    if st.con.serial.available = false then
      if st.timeoutCounter < CONSOLE_CONTROL_TIMEOUT_MS then
        return ({ st with
          timeoutCounter := st.timeoutCounter + 1
          con := { st.con with serial := st.con.serial.delay 1 } }, true)
      else
        return ({ st with exit := true }, false)
    else
      let st := { st with timeoutCounter := 0 }
      let inputChar := st.con.serial.read.1
      let st := { st with con := { st.con with serial := st.con.serial.read.2 } }
      return (← getSerialInput.switch allowHistory st inputChar, true)
  else
    return (st, false)

/-- The loop of `getSerialInput`, run for at most the given number of
iterations. -/
def getSerialInput.loop (allowHistory : Bool) : Nat → LoopState → Except Fault LoopState
  | 0, _ => .error .fuel
  | fuel + 1, st => do
    let (st, running) ← getSerialInput.step allowHistory st
    if running then getSerialInput.loop allowHistory fuel st else return st

/-- The locals of `getSerialInput` at the head of its loop. -/
def getSerialInput.init (c : Console) (historyIndex : Int) : Except Fault LoopState := do
  let inputEnds ← wr c.inputEnds 0 0
  return { con := { c with inputEnds := inputEnds }, historyIndex := historyIndex,
           inputIndex := 0, finished := false, exit := false, timeoutCounter := 0 }

/-- A number of iterations the loop of `getSerialInput` cannot exceed: every
iteration reads a byte or counts a millisecond of silence. -/
def getSerialInput.bound (c : Console) : Nat :=
  (c.serial.rx.length + 1) * (CONSOLE_CONTROL_TIMEOUT_MS + 1)

/-- The function `getSerialInput(historyIndex, allowHistory, timeout)`; the
result is the console, `historyIndex` and the returned `exit`. The parameter
`timeout` is not used by the body. -/
def getSerialInput (c : Console) (historyIndex : Int) (allowHistory _timeout : Bool) :
    Except Fault (Console × Int × Bool) := do
  let st ← getSerialInput.init c historyIndex
  let st ← getSerialInput.loop allowHistory (getSerialInput.bound c) st
  let inputBuffer ← wr st.con.inputBuffer (← rd st.con.inputEnds st.historyIndex) 0
  return ({ st.con with inputBuffer := inputBuffer }, st.historyIndex, st.exit)

/-! ## The dispatcher -/

/-- The loop of `getParametersFromInput`,
`for (; parameterIndex < commands[commandIndex].maxParameters; parameterIndex++)`:
the first argument is the number of iterations left. -/
def getParametersFromInput.loop (c : Console) (commandIndex : Int) :
    Nat → Nat → Parameters → Except Fault (Console × Parameters × Bool)
  | 0, _, parameters => .ok (c, parameters, true)
  | k + 1, parameterIndex, parameters => do
    let row ← rd parameters parameterIndex
    let row ← getToken row c.inputBuffer ((parameterIndex : Int) + 1)
    let parameters ← wr parameters parameterIndex row
    let first ← rd (← rd parameters parameterIndex) 0
    let entry ← rd c.commands commandIndex
    if first = 0 ∧ parameterIndex < entry.minParameters then
      let s := c.serial.println (str "Too few parameters!")
      let s := s.print (str "Correct format: ")
      let s := s.println entry.use
      return ({ c with serial := s }, parameters, false)
    else
      getParametersFromInput.loop c commandIndex k (parameterIndex + 1) parameters

/-- The function `getParametersFromInput(parameters, commandIndex)`; the
result is the console, the parameter array and the returned flag. -/
def getParametersFromInput (c : Console) (parameters : Parameters) (commandIndex : Int) :
    Except Fault (Console × Parameters × Bool) := do
  let entry ← rd c.commands commandIndex
  getParametersFromInput.loop c commandIndex entry.maxParameters 0 parameters

/-- The part of the body of the loop of `runSerialCommands` that follows the
test of `exit`: the command is identified, the history is shifted and the
command is run. -/
def runSerialCommands.dispatch (c : Console) (historyIndex : Int) : Except Fault Console := do
  let command ← getToken (uninit c.garbage MAX_PARAMETER_LENGTH) c.inputBuffer 0
  let (c, commandIndex) ← findAndCheckCommandIndex c command
  if commandIndex ≠ c.commandNum then
    let parameters := List.replicate MAX_PARAMETERS (uninit c.garbage MAX_PARAMETER_LENGTH)
    let c ← incrementBufferHistory c historyIndex
    let (c, parameters, enough) ← getParametersFromInput c parameters commandIndex
    if enough then
      let entry ← rd c.commands commandIndex
      return { c with
        serial := c.serial.print (entry.function parameters)
        calls := c.calls ++ [(commandIndex, parameters)] }
    else
      return c
  else
    incrementBufferHistory c historyIndex

/-- The loop `while (!exit)` of `runSerialCommands`, run for at most the given
number of iterations; `historyIndex` is 0 at the head of every iteration. -/
def runSerialCommands.loop : Nat → Console → Except Fault Console
  | 0, _ => .error .fuel
  | fuel + 1, c => do
    let c := { c with serial := c.serial.print [ENTRY_PREFIX] }
    let (c, historyIndex, exit) ← getSerialInput c 0 true true
    let c := { c with serial := c.serial.println [] }
    if exit then return c
    else
      let c ← runSerialCommands.dispatch c historyIndex
      runSerialCommands.loop fuel c

/-- The function `runSerialCommands()`. Every iteration of its loop but the
last reads a byte, which bounds the number of iterations. -/
def runSerialCommands (c : Console) : Except Fault Console :=
  if c.serial.available = false then .ok c
  else runSerialCommands.loop (c.serial.rx.length + 1) c

/-- The state of the loop of `getSerialInput` after at most the given number
of evaluations of `getSerialInput.step`. -/
def getSerialInput.run (allowHistory : Bool) : Nat → LoopState → Except Fault LoopState
  | 0, st => .ok st
  | n + 1, st => do
    let (st, running) ← getSerialInput.step allowHistory st
    if running then getSerialInput.run allowHistory n st else return st

/-! ## Notions used in the statements -/

/-- The arrays of the console have their declared lengths. -/
def Console.Sized (c : Console) : Prop :=
  c.commands.length = MAX_COMMANDS ∧
  c.historyBuffers.length = COMMAND_HISTORY_LENGTH + 1 ∧
  (∀ b ∈ c.historyBuffers, b.length = INPUT_BUFFER_SIZE) ∧
  c.inputEnds.length = COMMAND_HISTORY_LENGTH + 1 ∧
  c.inputBuffer.length = INPUT_BUFFER_SIZE

instance (c : Console) : Decidable c.Sized := by
  unfold Console.Sized; infer_instance

/-- A byte the switch of `getSerialInput` sends to its default case. -/
def Printable (x : Nat) : Prop :=
  x ≠ ESCAPE ∧ x ≠ ENTER ∧ x ≠ LINE_FEED ∧ x ≠ BACKSPACE ∧ x ≠ DELETE

instance (x : Nat) : Decidable (Printable x) := by
  unfold Printable; infer_instance

/-- Every recorded length lies in `[0, INPUT_BUFFER_SIZE-1]`. -/
def Console.EndsInRange (c : Console) : Prop :=
  ∀ e ∈ c.inputEnds, 0 ≤ e ∧ e ≤ (INPUT_BUFFER_SIZE : Int) - 1

instance (c : Console) : Decidable c.EndsInRange := by
  unfold Console.EndsInRange; infer_instance

/-- The invariant of the edit buffer: `0 <= cursor <= length <= capacity-1`,
the cursor being `inputIndex` and the length `inputEnds[historyIndex]`. -/
def LoopState.EditInv (st : LoopState) : Prop :=
  ∃ len, rd st.con.inputEnds st.historyIndex = .ok len ∧
    0 ≤ st.inputIndex ∧ st.inputIndex ≤ len ∧ len ≤ (INPUT_BUFFER_SIZE : Int) - 1

/-- No silence of more than `CONSOLE_CONTROL_TIMEOUT_MS` milliseconds: each
byte arrives at most that long after the time `now` at which the byte before
it was read (or at which reading began). -/
def ArrivesInTime : Nat → List (Nat × Nat) → Prop
  | _, [] => True
  | now, (t, _) :: rest => t ≤ now + CONSOLE_CONTROL_TIMEOUT_MS ∧ ArrivesInTime (max now t) rest

instance : (now : Nat) → (rx : List (Nat × Nat)) → Decidable (ArrivesInTime now rx)
  | _, [] => isTrue trivial
  | now, (t, _) :: rest =>
    have : Decidable (ArrivesInTime (max now t) rest) := instDecidableArrivesInTime _ rest
    by unfold ArrivesInTime; infer_instance

/-- The tokens of a line in the words of the specification: the maximal runs
of characters other than the delimiter. -/
def tokens (line : List Nat) : List (List Nat) :=
  (line.splitOn DELIMITER0).filter (fun run => run ≠ [])

/-- The line a NUL-terminated `char` array holds: the characters before the
first NUL. -/
def lineOf (input : List Nat) : List Nat := input.takeWhile (fun b => b != 0)

/-- The command `echo` with `min=1, max=1`, which writes its parameter back. -/
def echoCommand : Command :=
  ⟨str "echo", str "writes its parameter back", str "echo,[<text>]", 1, 1,
    fun parameters => (parameters.getD 0 []).takeWhile (fun b => b != 0)⟩

/-- A command `pair` taking one or two parameters, which writes nothing. -/
def pairCommand : Command :=
  ⟨str "pair", str "takes one or two parameters", str "pair,[<a>],(<b>)", 2, 1, fun _ => []⟩

/-- A console for examples: no command but `echo`, empty history, and three
characters typed. -/
def exampleConsole : Console where
  commands := echoCommand :: List.replicate 9 ⟨[], [], [], 0, 0, fun _ => []⟩
  commandNum := 1
  historyBuffers := List.replicate 6 (List.replicate 50 0)
  inputEnds := [3, 0, 0, 0, 0, 0]
  inputBuffer := str "abc" ++ List.replicate 47 0
  serial := ⟨0, [], []⟩
  calls := []
  garbage := fun _ => 7

/-- The example console in the loop of `getSerialInput`, the cursor after the
first character. -/
def exampleState : LoopState where
  con := exampleConsole
  historyIndex := 0
  inputIndex := 1
  finished := false
  exit := false
  timeoutCounter := 0

/-- The arrays are sized, the recorded lengths are in range, `historyIndex` `h`
is in `[0, COMMAND_HISTORY_LENGTH]` and the cursor `ci` is in `[0, length]`. -/
def Console.EditOk (c : Console) (h ci : Int) : Prop :=
  c.Sized ∧ c.EndsInRange ∧ 0 ≤ h ∧ h ≤ COMMAND_HISTORY_LENGTH ∧ 0 ≤ ci ∧
    ∃ len, c.inputEnds[h.toNat]? = some len ∧ ci ≤ len

/-- The command table, the record of handler calls and the garbage of `c'`
are those of `c`. -/
def Console.Frame (c' c : Console) : Prop :=
  c'.commands = c.commands ∧ c'.commandNum = c.commandNum ∧ c'.calls = c.calls ∧
    c'.garbage = c.garbage

/-- The invariant of the loop of `getSerialInput`. -/
def LoopState.Inv (st : LoopState) : Prop :=
  st.con.EditOk st.historyIndex st.inputIndex ∧ st.timeoutCounter ≤ CONSOLE_CONTROL_TIMEOUT_MS

/-- A quantity every iteration of the loop of `getSerialInput` decreases. -/
def LoopState.measure (st : LoopState) : Nat :=
  st.con.serial.rx.length * (CONSOLE_CONTROL_TIMEOUT_MS + 1) +
    (CONSOLE_CONTROL_TIMEOUT_MS - st.timeoutCounter)

/-- The state after `d` milliseconds of silence. -/
def LoopState.waited (st : LoopState) (d : Nat) : LoopState :=
  { st with
    timeoutCounter := st.timeoutCounter + d
    con := { st.con with serial := st.con.serial.delay d } }

/-- The example console with the bytes `h`, `i` and ENTER arriving at 0, 10
and 20 milliseconds. -/
def exampleTyping : Console :=
  { exampleConsole with serial := ⟨0, [(0, 104), (10, 105), (20, 13)], []⟩ }

/-- The tokens of a list of characters, the run in progress being `cur`. -/
def runsFrom : List Nat → List Nat → List (List Nat)
  | [], cur => if cur = [] then [] else [cur]
  | c :: cs, cur =>
    if c = DELIMITER0 then (if cur = [] then runsFrom cs [] else cur :: runsFrom cs [])
    else runsFrom cs (cur ++ [c])

/-- A `char [INPUT_BUFFER_SIZE]` array holding the given string, its terminator
and NULs after it. -/
def lineBuffer (s : String) : List Nat := str s ++ List.replicate (INPUT_BUFFER_SIZE - s.length) 0

/-- The token array of the examples. -/
def exampleToken : List Nat := List.replicate MAX_PARAMETER_LENGTH 7

/-- The example console holding the given finalized line. -/
def exampleDispatch (s : String) : Console :=
  { exampleConsole with inputBuffer := lineBuffer s, inputEnds := [s.length, 0, 0, 0, 0, 0] }

/-- A console whose only command is `pair`, holding the finalized line
`pair,hi,`. -/
def examplePair : Console :=
  { exampleDispatch "pair,hi," with
    commands := pairCommand :: List.replicate 9 ⟨[], [], [], 0, 0, fun _ => []⟩ }

/-- The example console with `bogus` and ENTER waiting to be read. -/
def exampleBogus : Console :=
  { exampleConsole with serial := ⟨0, (str "bogus\r").map (fun b => (0, b)), []⟩ }

/-- The example console once `bogus` and ENTER have been read at the prompt. -/
def exampleBogusRead : Console :=
  { exampleConsole with
    inputBuffer := lineBuffer "bogus"
    inputEnds := [5, 0, 0, 0, 0, 0]
    serial := ⟨0, [], str ">bogus"⟩ }

/-- The rest of a call of `getSerialInput` from the head of its loop in state
`st`: the loop, run for at most the given number of iterations, the write of
the terminator and the `return`. -/
def getSerialInput.resume (allowHistory : Bool) (fuel : Nat) (st : LoopState) :
    Except Fault (Console × Int × Bool) := do
  let st ← getSerialInput.loop allowHistory fuel st
  let inputBuffer ← wr st.con.inputBuffer (← rd st.con.inputEnds st.historyIndex) 0
  return ({ st.con with inputBuffer := inputBuffer }, st.historyIndex, st.exit)

/-- The example state with the cursor at `inputIndex` and the given bytes to
arrive. -/
def exampleAt (inputIndex : Int) (rx : List (Nat × Nat)) : LoopState :=
  { exampleState with
    inputIndex := inputIndex
    con := { exampleConsole with serial := ⟨0, rx, []⟩ } }

/-- The example state with a line of `INPUT_BUFFER_SIZE-1` characters and a
byte `x` waiting to be read. -/
def exampleLineFull : LoopState :=
  { exampleState with
    con := { exampleConsole with
      inputEnds := [49, 0, 0, 0, 0, 0]
      serial := ⟨0, [(0, 120)], []⟩ } }

/-- The example console with fifty bytes `a` waiting to be read and no ENTER. -/
def exampleFull : Console :=
  { exampleConsole with serial := ⟨0, List.replicate 50 (0, 97), []⟩ }

/-- The example console with the single byte `[` waiting to be read, the
memory of the local arrays holding `D`, as a cursor-left sequence handled
before leaves it. -/
def exampleStale : Console :=
  { exampleConsole with serial := ⟨0, [(0, 91)], []⟩, garbage := fun _ => 68 }

/-- The example console with the line `abc` in the history, and the bytes
ESCAPE `[` `A` arriving at once, `x` after 10 and ENTER after 20
milliseconds. -/
def exampleRecall : Console :=
  { exampleConsole with
    historyBuffers := lineBuffer "abc" :: lineBuffer "abc" :: List.replicate 4 (List.replicate 50 0)
    inputEnds := [3, 3, 0, 0, 0, 0]
    serial := ⟨0, [(0, 27), (0, 91), (0, 65), (10, 120), (20, 13)], []⟩ }

/-- Further pushes into the history: before each one the line to push is put
in `inputBuffer`, and `incrementBufferHistory` is called with the given
`historyIndex`. -/
def pushLines : List (List Nat × Int) → Console → Except Fault Console
  | [], c => .ok c
  | (line, historyIndex) :: more, c => do
    let c ← incrementBufferHistory { c with inputBuffer := line } historyIndex
    pushLines more c

/-- The time at which the last of the given bytes is read, when reading
starts at `now` and every byte is read as soon as it has arrived. -/
def lastRead (now : Nat) (rx : List (Nat × Nat)) : Nat :=
  rx.foldl (fun n p => max n p.1) now

/-- The example console with the bytes of `echo,hi` and ENTER waiting, then
ESCAPE and `[` arriving after 100, `A` after 101 and ENTER after 200
milliseconds. -/
def exampleSession : Console :=
  { exampleConsole with
    serial := ⟨0, (str "echo,hi\r").map (fun b => (0, b)) ++
      [(100, 27), (100, 91), (101, 65), (200, 13)], []⟩ }

/-- The example session once `echo,hi` has been read and dispatched. -/
def exampleSessionDispatched : Console :=
  { exampleConsole with
    historyBuffers :=
      lineBuffer "echo,hi" :: lineBuffer "echo,hi" :: List.replicate 4 (List.replicate 50 0)
    inputEnds := [7, 7, 0, 0, 0, 0]
    inputBuffer := lineBuffer "echo,hi"
    serial := ⟨0, [(100, 27), (100, 91), (101, 65), (200, 13)], str ">echo,hi\r\nhi"⟩
    calls := [(0, (str "hi" ++ 0 :: List.replicate 12 7) :: List.replicate 5 exampleToken)] }

/-- The example console, editing the line `abc`, with the line `xy` in slot 1
of the history and the bytes `[` `A` waiting to be read. -/
def exampleOlder : Console :=
  { exampleConsole with
    historyBuffers :=
      List.replicate 50 0 :: lineBuffer "xy" :: List.replicate 4 (List.replicate 50 0)
    inputEnds := [3, 2, 0, 0, 0, 0]
    serial := ⟨0, [(0, 91), (0, 65)], []⟩ }

/-- The example console with the bytes `a`, ESCAPE, `[` and `D` waiting to be
read. -/
def exampleLeft : Console :=
  { exampleConsole with serial := ⟨0, [(0, 97), (0, 27), (0, 91), (0, 68)], []⟩ }

/-- The example console with a name of twenty characters `a` and ENTER waiting
to be read. -/
def exampleLongName : Console :=
  { exampleConsole with
    serial := ⟨0, (str "aaaaaaaaaaaaaaaaaaaa\r").map (fun b => (0, b)), []⟩ }

/-- What a terminal has read of an escape sequence: nothing, the ESCAPE byte,
or ESCAPE `[` and the digits of a count. -/
inductive Terminal.Mode where
  | ground
  | escape
  | csi (k : Nat)
  deriving DecidableEq, Repr

/-- The terminal in the words of the specification: a row of characters, the
part of the line of the screen after the prompt, and a column. The field
`lefts` records the counts of the cursor-left escapes obeyed so far. -/
structure Terminal where
  row : List Nat
  column : Nat
  mode : Terminal.Mode
  lefts : List Nat
  deriving DecidableEq, Repr

/-- A printable byte is written at the column, which moves right; cells never
written are blank. -/
def Terminal.put (t : Terminal) (b : Nat) : Terminal :=
  { t with
    row := t.row.take t.column ++ List.replicate (t.column - t.row.length) 32 ++ [b] ++
      t.row.drop (t.column + 1)
    column := t.column + 1 }

/-- The terminal obeys one byte: a backspace moves the column left, ESCAPE `[`
`k` `D` with `k` in decimal moves it left by `k`, any other escape sequence
is dropped, any other byte is printed. -/
def Terminal.step (t : Terminal) (b : Nat) : Terminal :=
  match t.mode with
  | .ground =>
    if b = 8 then { t with column := t.column - 1 }
    else if b = 27 then { t with mode := .escape }
    else t.put b
  | .escape => if b = 91 then { t with mode := .csi 0 } else { t with mode := .ground }
  | .csi k =>
    if 48 ≤ b ∧ b ≤ 57 then { t with mode := .csi (10 * k + (b - 48)) }
    else if b = 68 then
      { t with column := t.column - k, mode := .ground, lefts := t.lefts ++ [k] }
    else { t with mode := .ground }

/-- The terminal obeys the bytes written to it. -/
def Terminal.feed (t : Terminal) (bytes : List Nat) : Terminal := bytes.foldl Terminal.step t

/-- The row shows the line `ln`, blank after it, the column is at `cursor`,
and no escape sequence is pending. A line that can be shown holds no
backspace and no ESCAPE byte. -/
def Terminal.Shows (t : Terminal) (ln : List Nat) (cursor : Nat) : Prop :=
  t.mode = .ground ∧ t.column = cursor ∧ t.row.take ln.length = ln ∧
    (∀ b ∈ t.row.drop ln.length, b = 32) ∧ ∀ b ∈ ln, b ≠ 8 ∧ b ≠ 27

instance (t : Terminal) (ln : List Nat) (cursor : Nat) : Decidable (t.Shows ln cursor) := by
  unfold Terminal.Shows; infer_instance

/-- The number a list of decimal digits stands for. -/
def digitsValue (ds : List Nat) : Nat := ds.foldl (fun a d => 10 * a + (d - 48)) 0

/-- A terminal showing the line `abc` of the example state, the column after
the first character. -/
def exampleTerminal : Terminal := ⟨str "abc", 1, .ground, []⟩

/-! ## Memory and serial lemmas -/

theorem rd_ok {α : Type} (a : List α) (i : Nat) (h : i < a.length) :
    rd a (i : Int) = .ok a[i] := by
  simp [rd, h]

theorem rd_of_getElem? {α : Type} (a : List α) (i : Nat) (v : α) (h : a[i]? = some v) :
    rd a (i : Int) = .ok v := by
  simp [rd, h]

theorem wr_ok {α : Type} (a : List α) (i : Nat) (v : α) (h : i < a.length) :
    wr a (i : Int) v = .ok (a.set i v) := by
  simp [wr, h]

theorem Serial.print_print (s : Serial) (a b : List Nat) :
    (s.print a).print b = s.print (a ++ b) := by
  simp [Serial.print]

theorem Serial.print_nil (s : Serial) : s.print [] = s := by
  simp [Serial.print]

/-! ## The loops of the line editor -/

theorem shiftRight_ok (k hi : Nat) (b : List Nat) (hk : k ≤ hi) (hhi : hi < b.length) :
    ∃ b', getSerialInput.shiftRight k (hi : Int) b = .ok b' ∧ b'.length = b.length ∧
      ∀ x, b'[x]? = if hi - k < x ∧ x ≤ hi then b[x - 1]? else b[x]? := by
  induction k generalizing hi b with
  | zero =>
    refine ⟨b, rfl, rfl, fun x => ?_⟩
    rw [if_neg (by omega)]
  | succ k ih =>
    obtain ⟨m, rfl⟩ : ∃ m, hi = m + 1 := ⟨hi - 1, by omega⟩
    have h1 : ((m + 1 : Nat) : Int) - 1 = (m : Int) := by omega
    have hm : m < b.length := by omega
    obtain ⟨b', e, hl, hx⟩ := ih m (b.set (m + 1) b[m]) (by omega) (by simpa using hm)
    refine ⟨b', ?_, by simpa using hl, fun x => ?_⟩
    · simp only [getSerialInput.shiftRight, h1, rd_ok b m hm, wr_ok b (m + 1) _ hhi, bind,
        Except.bind]
      exact e
    · rw [hx]
      simp only [List.getElem?_set]
      split_ifs <;> first | rfl | (exfalso; omega) | (subst_vars; simp [hm])

theorem echo_ok (b : List Nat) (k i : Nat) (s : Serial) (h : i + k ≤ b.length) :
    getSerialInput.echo b k (i : Int) s = .ok (s.print ((b.drop i).take k)) := by
  induction k generalizing i s with
  | zero => simp [getSerialInput.echo, Serial.print_nil]
  | succ k ih =>
    have hi : i < b.length := by omega
    have h1 : (i : Int) + 1 = ((i + 1 : Nat) : Int) := by omega
    simp only [getSerialInput.echo, rd_ok b i hi, bind, Except.bind, h1]
    rw [ih (i + 1) _ (by omega), Serial.print_print]
    congr 2
    rw [List.drop_eq_getElem_cons hi, List.take_succ_cons]
    simp

theorem shiftLeft_ok (k i : Nat) (b : List Nat) (s : Serial) (hi : 1 ≤ i)
    (hk : i + k ≤ b.length) :
    ∃ b', getSerialInput.shiftLeft k (i : Int) b s = .ok (b', s.print ((b.drop i).take k)) ∧
      b'.length = b.length ∧
      ∀ x, b'[x]? = if i - 1 ≤ x ∧ x < i - 1 + k then b[x + 1]? else b[x]? := by
  induction k generalizing i b s with
  | zero =>
    refine ⟨b, by simp [getSerialInput.shiftLeft, Serial.print_nil], rfl, fun x => ?_⟩
    rw [if_neg (by omega)]
  | succ k ih =>
    obtain ⟨m, rfl⟩ : ∃ m, i = m + 1 := ⟨i - 1, by omega⟩
    have h1 : ((m + 1 : Nat) : Int) - 1 = (m : Int) := by omega
    have h2 : ((m + 1 : Nat) : Int) + 1 = ((m + 1 + 1 : Nat) : Int) := by omega
    have hm : m < b.length := by omega
    have hm1 : m + 1 < b.length := by omega
    have hm2 : m + 1 < (b.set m b[m + 1]).length := by simpa using hm1
    obtain ⟨b', e, hl, hx⟩ := ih (m + 1 + 1) (b.set m b[m + 1])
      ((s.print [b[m + 1]])) (by omega) (by simp; omega)
    refine ⟨b', ?_, by simpa using hl, fun x => ?_⟩
    · simp only [getSerialInput.shiftLeft, h1, h2, rd_ok b (m + 1) hm1, wr_ok b m _ hm, bind,
        Except.bind, rd_ok _ (m + 1) hm2]
      rw [List.getElem_set_ne (by omega), e, Serial.print_print,
        List.drop_set_of_lt _ _ (by omega), List.drop_eq_getElem_cons hm1, List.take_succ_cons]
      simp
    · rw [hx]
      simp only [List.getElem?_set]
      split_ifs <;> first | rfl | (exfalso; omega) | (subst_vars; simp [hm1])

theorem caseDefault_ok (st : LoopState) (h n c x : Nat)
    (hh : st.historyIndex = h) (hlen : st.con.inputEnds[h]? = some (n : Int))
    (hn : n + 1 < st.con.inputBuffer.length) (hc : st.inputIndex = c) (hcn : c ≤ n) :
    ∃ b' out, getSerialInput.caseDefault st x = .ok { st with
        con := { st.con with
          inputBuffer := b'
          serial := st.con.serial.print out
          inputEnds := st.con.inputEnds.set h ((n : Int) + 1) }
        inputIndex := (c : Int) + 1 } ∧
      b'.length = st.con.inputBuffer.length ∧
      ∀ i, b'[i]? = if i = c then some x
        else if c < n ∧ c < i ∧ i ≤ n + 1 then st.con.inputBuffer[i - 1]?
        else st.con.inputBuffer[i]? := by
  have hhl : h < st.con.inputEnds.length := by
    by_contra hcon
    rw [List.getElem?_eq_none (by omega)] at hlen
    cases hlen
  have e1 : (st.con.inputEnds.set h ((n : Int) + 1))[h]? = some ((n : Int) + 1) := by
    simp [hhl]
  have hcl : c < st.con.inputBuffer.length := by omega
  unfold getSerialInput.caseDefault
  simp only [hh, hc, rd_of_getElem? _ _ _ hlen, wr_ok _ _ _ hhl, bind, Except.bind,
    rd_of_getElem? _ _ _ e1, pure, Except.pure]
  by_cases hlt : c < n
  · have c1 : (c : Int) < (n : Int) + 1 - 1 := by omega
    have t1 : ((n : Int) + 1 - (c : Int)).toNat = n + 1 - c := by omega
    have t2 : ((n : Int) + 1 - ((c : Int) + 1)).toNat = n - c := by omega
    have t3 : (n : Int) + 1 = ((n + 1 : Nat) : Int) := by omega
    have t4 : (c : Int) + 1 = ((c + 1 : Nat) : Int) := by omega
    obtain ⟨b1, eb, hl1, hx1⟩ := shiftRight_ok (n + 1 - c) (n + 1) st.con.inputBuffer
      (by omega) hn
    rw [if_pos c1, t1, t2]
    simp only [t3, eb, t4]
    rw [echo_ok b1 (n - c) (c + 1) _ (by omega)]
    simp only [wr_ok b1 c x (by omega), Serial.printInt, Serial.print_print]
    refine ⟨b1.set c x, _, rfl, by simpa using hl1, fun i => ?_⟩
    simp only [List.getElem?_set, hx1]
    split_ifs <;> first | rfl | (exfalso; omega)
  · have c1 : ¬ ((c : Int) < (n : Int) + 1 - 1) := by omega
    rw [if_neg c1]
    simp only [wr_ok _ c x hcl]
    refine ⟨st.con.inputBuffer.set c x, _, rfl, by simp, fun i => ?_⟩
    simp only [List.getElem?_set]
    split_ifs <;> first | rfl | (exfalso; omega)

theorem caseBackspace_zero (st : LoopState) (hc : st.inputIndex = 0) :
    getSerialInput.caseBackspace st = .ok st := by
  simp [getSerialInput.caseBackspace, hc, pure, Except.pure]

theorem caseBackspace_ok (st : LoopState) (h n c : Nat)
    (hh : st.historyIndex = h) (hlen : st.con.inputEnds[h]? = some (n : Int))
    (hn : n ≤ st.con.inputBuffer.length) (hc : st.inputIndex = c) (hc0 : 0 < c) (hcn : c ≤ n) :
    ∃ b' out, getSerialInput.caseBackspace st = .ok { st with
        con := { st.con with
          inputBuffer := b'
          serial := st.con.serial.print out
          inputEnds := st.con.inputEnds.set h ((n : Int) - 1) }
        inputIndex := (c : Int) - 1 } ∧
      b'.length = st.con.inputBuffer.length ∧
      ∀ i, b'[i]? = if c - 1 ≤ i ∧ i < n - 1 then st.con.inputBuffer[i + 1]?
        else st.con.inputBuffer[i]? := by
  have hhl : h < st.con.inputEnds.length := by
    by_contra hcon
    rw [List.getElem?_eq_none (by omega)] at hlen
    cases hlen
  have hpos : (c : Int) > 0 := by omega
  unfold getSerialInput.caseBackspace
  simp only [hh, hc, rd_of_getElem? _ _ _ hlen, wr_ok _ _ _ hhl, bind, Except.bind,
    pure, Except.pure, if_pos hpos]
  by_cases hlt : c = n
  · subst hlt
    refine ⟨st.con.inputBuffer, [8, 32, 8], by simp, rfl, fun i => ?_⟩
    rw [if_neg (by omega)]
  · have c1 : ¬ ((c : Int) = (n : Int)) := by omega
    have t1 : ((n : Int) - (c : Int)).toNat = n - c := by omega
    obtain ⟨b1, eb, hl1, hx1⟩ := shiftLeft_ok (n - c) c st.con.inputBuffer
      (st.con.serial.print [8]) hc0 (by omega)
    rw [if_neg c1, t1]
    simp only [eb, Serial.printInt, Serial.print_print]
    refine ⟨b1, _, rfl, hl1, fun i => ?_⟩
    rw [hx1]
    split_ifs <;> first | rfl | (exfalso; omega)

/-! ## History and escape sequences -/

theorem bufferCopy_loop_ok (buffer2 : List Nat) (k i : Nat) (buffer1 : List Nat)
    (h1 : i + k ≤ buffer1.length) (h2 : i + k ≤ buffer2.length) :
    ∃ b', bufferCopy.loop buffer2 k i buffer1 = .ok b' ∧ b'.length = buffer1.length ∧
      ∀ x, b'[x]? = if i ≤ x ∧ x < i + k then buffer2[x]? else buffer1[x]? := by
  induction k generalizing i buffer1 with
  | zero =>
    refine ⟨buffer1, rfl, rfl, fun x => ?_⟩
    rw [if_neg (by omega)]
  | succ k ih =>
    have hi1 : i < buffer1.length := by omega
    have hi2 : i < buffer2.length := by omega
    obtain ⟨b', e, hl, hx⟩ := ih (i + 1) (buffer1.set i buffer2[i]) (by simp; omega) (by omega)
    refine ⟨b', ?_, by simpa using hl, fun x => ?_⟩
    · simp only [bufferCopy.loop, rd_ok _ i hi2, wr_ok _ i _ hi1, bind, Except.bind]
      exact e
    · rw [hx]
      simp only [List.getElem?_set]
      split_ifs <;> first | rfl | (exfalso; omega) | (subst_vars; simp [hi2])

theorem bufferCopy_ok (buffer1 buffer2 : List Nat) (h1 : buffer1.length = INPUT_BUFFER_SIZE)
    (h2 : buffer2.length = INPUT_BUFFER_SIZE) : bufferCopy buffer1 buffer2 = .ok buffer2 := by
  obtain ⟨b', e, hl, hx⟩ := bufferCopy_loop_ok buffer2 INPUT_BUFFER_SIZE 0 buffer1
    (by omega) (by omega)
  rw [bufferCopy, e]
  congr 1
  apply List.ext_getElem?
  intro x
  rw [hx]
  split_ifs with hc
  · rfl
  · rw [List.getElem?_eq_none (by omega), List.getElem?_eq_none (by omega)]

theorem printHistoryBuffer_loop_ok (b : List Nat) (k i : Nat) (s : Serial)
    (h : i + k ≤ b.length) :
    printHistoryBuffer.loop b k i s = .ok (s.print ((b.drop i).take k)) := by
  induction k generalizing i s with
  | zero => simp [printHistoryBuffer.loop, Serial.print_nil]
  | succ k ih =>
    have hi : i < b.length := by omega
    simp only [printHistoryBuffer.loop, rd_ok b i hi, bind, Except.bind]
    rw [ih (i + 1) _ (by omega), Serial.print_print, List.drop_eq_getElem_cons hi,
      List.take_succ_cons]
    simp

theorem printHistoryBuffer_ok (c : Console) (h e : Nat) (row : List Nat)
    (hrow : c.historyBuffers[h]? = some row) (hlen : c.inputEnds[h]? = some (e : Int))
    (he : e ≤ row.length) :
    printHistoryBuffer c (h : Int) =
      .ok ({ c with serial := c.serial.print ([27, 91, 50, 75, 13, ENTRY_PREFIX] ++ row.take e) },
        (e : Int)) := by
  simp only [printHistoryBuffer, rd_of_getElem? _ _ _ hrow, rd_of_getElem? _ _ _ hlen, bind,
    Except.bind, Int.toNat_ofNat, printHistoryBuffer_loop_ok row e 0 _ (by omega), pure,
    Except.pure, Serial.print_print]
  simp

theorem readLoop_ok (k escapeIndex : Nat) (es : List Nat) (s : Serial)
    (h : escapeIndex + k ≤ es.length) :
    ∃ es' s', catchEscapeSequence.readLoop k escapeIndex es s = .ok (es', s') ∧
      es'.length = es.length ∧ s'.tx = s.tx ∧ s'.rx.length ≤ s.rx.length := by
  induction k generalizing escapeIndex es s with
  | zero => exact ⟨es, s, rfl, rfl, rfl, le_refl _⟩
  | succ k ih =>
    unfold catchEscapeSequence.readLoop
    by_cases ha : s.available = true
    · obtain ⟨es', s', e, hl, htx, hrx⟩ := ih (escapeIndex + 1) (es.set escapeIndex s.read.1)
        (s.read.2.delay ESC_CODE_MS) (by simp; omega)
      refine ⟨es', s', ?_, by simpa using hl, ?_, ?_⟩
      · simp only [ha, if_true, wr_ok es escapeIndex _ (by omega), bind, Except.bind]
        exact e
      · rw [htx]
        simp only [Serial.delay, Serial.read]
        split <;> rfl
      · refine le_trans hrx ?_
        simp only [Serial.delay, Serial.read]
        split <;> rename_i hr <;> simp [hr]
    · exact ⟨es, s, by simp [ha], rfl, rfl, le_refl _⟩

theorem drain_ok (k : Nat) (s : Serial) :
    (catchEscapeSequence.drain k s).tx = s.tx ∧
      (catchEscapeSequence.drain k s).rx.length ≤ s.rx.length := by
  induction k generalizing s with
  | zero => exact ⟨rfl, le_refl _⟩
  | succ k ih =>
    unfold catchEscapeSequence.drain
    by_cases ha : s.available = true
    · simp only [ha, if_true]
      obtain ⟨h1, h2⟩ := ih (s.read.2.delay ESC_CODE_MS)
      refine ⟨?_, ?_⟩
      · rw [h1]
        simp only [Serial.delay, Serial.read]
        split <;> rfl
      · refine le_trans h2 ?_
        simp only [Serial.delay, Serial.read]
        split <;> rename_i hr <;> simp [hr]
    · simp [ha]

theorem Console.EndsInRange.get {c : Console} (he : c.EndsInRange) {h : Nat} {len : Int}
    (hl : c.inputEnds[h]? = some len) : 0 ≤ len ∧ len ≤ (INPUT_BUFFER_SIZE : Int) - 1 :=
  he len (List.getElem?_mem hl)

theorem Console.EndsInRange.set {c : Console} (he : c.EndsInRange) (h : Nat) (v : Int)
    (hv : 0 ≤ v ∧ v ≤ (INPUT_BUFFER_SIZE : Int) - 1) (c' : Console)
    (hc : c'.inputEnds = c.inputEnds.set h v) : c'.EndsInRange := by
  intro e hmem
  rw [hc] at hmem
  rcases List.mem_or_eq_of_mem_set hmem with h1 | h1
  · exact he e h1
  · rw [h1]; exact hv

theorem Console.Sized.row {c : Console} (hs : c.Sized) {k : Nat}
    (hk : k ≤ COMMAND_HISTORY_LENGTH) :
    ∃ row, c.historyBuffers[k]? = some row ∧ row.length = INPUT_BUFFER_SIZE := by
  obtain ⟨_, s2, s3, _, _⟩ := hs
  have hk' : k < c.historyBuffers.length := by omega
  exact ⟨c.historyBuffers[k], List.getElem?_eq_getElem hk', s3 _ (List.getElem_mem _)⟩

theorem Console.EndsInRange.entry {c : Console} (hs : c.Sized) (he : c.EndsInRange) {k : Nat}
    (hk : k ≤ COMMAND_HISTORY_LENGTH) :
    ∃ en : Nat, c.inputEnds[k]? = some (en : Int) ∧ en ≤ INPUT_BUFFER_SIZE - 1 := by
  obtain ⟨_, _, _, s4, _⟩ := hs
  have hk' : k < c.inputEnds.length := by omega
  have hr := he.get (List.getElem?_eq_getElem hk')
  obtain ⟨en, hen⟩ := Int.eq_ofNat_of_zero_le hr.1
  refine ⟨en, by rw [List.getElem?_eq_getElem hk', hen], ?_⟩
  have := hr.2
  simp only [INPUT_BUFFER_SIZE] at this ⊢
  omega

theorem recall_inv (c : Console) (k : Nat) (hs : c.Sized) (he : c.EndsInRange)
    (hk : k ≤ COMMAND_HISTORY_LENGTH) :
    ∃ row en out, c.historyBuffers[k]? = some row ∧ c.inputEnds[k]? = some (en : Int) ∧
      printHistoryBuffer c (k : Int) = .ok ({ c with serial := c.serial.print out }, (en : Int)) ∧
      bufferCopy c.inputBuffer row = .ok row ∧
      ({ c with serial := c.serial.print out, inputBuffer := row } : Console).EditOk k en := by
  obtain ⟨row, hrow, hrl⟩ := hs.row hk
  obtain ⟨en, hen, hle⟩ := he.entry hs hk
  have hs' := hs
  obtain ⟨s1, s2, s3, s4, s5⟩ := hs
  refine ⟨row, en, _, hrow, hen, printHistoryBuffer_ok c k en row hrow hen (by omega),
    bufferCopy_ok _ _ s5 hrl, ⟨s1, s2, s3, s4, hrl⟩, he, by omega, by exact_mod_cast hk,
    by omega, (en : Int), by simpa using hen, le_refl _⟩

theorem parse_inv (c : Console) (es : List Nat) (h ci : Int) (a : Bool)
    (hes : es.length = 2) (hI : c.EditOk h ci) :
    ∃ c' h' ci', catchEscapeSequence.parse c es h ci a = .ok (c', h', ci') ∧
      c'.EditOk h' ci' ∧ c'.serial.rx = c.serial.rx ∧ c'.serial.now = c.serial.now ∧ c'.Frame c := by
  obtain ⟨hs, he, hh0, hh5, hc0, len, hlen, hcl⟩ := hI
  obtain ⟨hn, rfl⟩ := Int.eq_ofNat_of_zero_le hh0
  obtain ⟨cn, rfl⟩ := Int.eq_ofNat_of_zero_le hc0
  simp only [Int.toNat_ofNat] at hlen
  have hr := he.get hlen
  obtain ⟨n, rfl⟩ := Int.eq_ofNat_of_zero_le hr.1
  obtain ⟨e0, e1, rfl⟩ : ∃ e0 e1, es = [e0, e1] := by
    match es, hes with
    | [x, y], _ => exact ⟨x, y, rfl⟩
  have r0 : rd [e0, e1] 0 = .ok e0 := by simp [rd]
  have r1 : rd [e0, e1] 1 = .ok e1 := by simp [rd]
  have hok : c.EditOk (hn : Int) (cn : Int) := ⟨hs, he, hh0, hh5, hc0, _, by simpa using hlen, hcl⟩
  have hhl : hn < c.inputEnds.length := by
    by_contra hcon
    rw [List.getElem?_eq_none (by omega)] at hlen
    cases hlen
  have hh5' : hn ≤ COMMAND_HISTORY_LENGTH := by exact_mod_cast hh5
  unfold catchEscapeSequence.parse
  simp only [r0, r1, bind, Except.bind, pure, Except.pure]
  by_cases h91 : e0 = 91
  swap
  · exact ⟨c, _, _, by simp [h91], hok, rfl, rfl, ⟨rfl, rfl, rfl, rfl⟩⟩
  simp only [h91, if_true]
  by_cases h67 : e1 = 67
  · subst h67
    simp only [if_true, rd_of_getElem? _ _ _ hlen]
    by_cases hcn : cn = n
    · subst hcn
      exact ⟨c, _, _, by simp, hok, rfl, rfl, ⟨rfl, rfl, rfl, rfl⟩⟩
    · have hne : ¬ ((cn : Int) = (n : Int)) := by omega
      have hmax : max (n : Int) ((cn : Int) + 1) = (n : Int) := by omega
      have hd : decide ((cn : Int) ≠ (n : Int)) = true := by simpa using hne
      simp only [hd, if_true, wr_ok _ _ _ hhl, hmax]
      obtain ⟨s1, s2, s3, s4, s5⟩ := hs
      refine ⟨_, _, _, rfl, ⟨⟨s1, s2, s3, by simpa using s4, s5⟩, ?_, hh0, hh5, by omega,
        (n : Int), ?_, by omega⟩, rfl, rfl, ⟨rfl, rfl, rfl, rfl⟩⟩
      · exact he.set hn n hr _ rfl
      · simp [hhl]
  simp only [h67, if_false, Bool.false_eq_true]
  by_cases h68 : e1 = 68 ∧ (cn : Int) > 0
  · rw [if_pos h68]
    exact ⟨_, _, _, rfl, ⟨hs, he, hh0, hh5, by omega, (n : Int), by simpa using hlen, by omega⟩,
      rfl, rfl, ⟨rfl, rfl, rfl, rfl⟩⟩
  rw [if_neg h68]
  by_cases h65 : e1 = 65 ∧ a = true ∧ (hn : Int) < COMMAND_HISTORY_LENGTH
  · rw [if_pos h65]
    have hk : hn + 1 ≤ COMMAND_HISTORY_LENGTH := by omega
    have t1 : (hn : Int) + 1 = ((hn + 1 : Nat) : Int) := by omega
    have hs' := hs
    obtain ⟨s1, s2, s3, s4, s5⟩ := hs'
    by_cases h0 : hn = 0
    · have hz : (hn : Int) = 0 := by omega
      obtain ⟨slot0, hslot, hsl⟩ := hs.row (Nat.zero_le _)
      have hs1 : ({ c with historyBuffers := c.historyBuffers.set 0 c.inputBuffer } :
          Console).Sized := by
        refine ⟨s1, by simpa using s2, ?_, s4, s5⟩
        intro b hb
        rcases List.mem_or_eq_of_mem_set hb with hb | hb
        · exact s3 b hb
        · rw [hb]; exact s5
      obtain ⟨row, en, out, hrow, hen, hp, hb, hE⟩ := recall_inv _ (hn + 1) hs1 he hk
      have r0 : rd c.historyBuffers 0 = .ok slot0 := rd_of_getElem? _ 0 _ hslot
      have w0 : wr c.historyBuffers 0 c.inputBuffer = .ok (c.historyBuffers.set 0 c.inputBuffer) :=
        wr_ok _ 0 _ (show 0 < c.historyBuffers.length by omega)
      rw [if_pos hz]
      simp only [r0, bufferCopy_ok _ _ hsl s5, w0, t1, hp, rd_of_getElem? _ _ _ hrow, hb]
      exact ⟨_, _, _, rfl, hE, rfl, rfl, ⟨rfl, rfl, rfl, rfl⟩⟩
    · have hne : ¬ ((hn : Int) = 0) := by omega
      obtain ⟨row, en, out, hrow, hen, hp, hb, hE⟩ := recall_inv c (hn + 1) hs he hk
      simp only [hne, if_false, t1]
      have hp' : printHistoryBuffer
          { commands := c.commands, commandNum := c.commandNum,
            historyBuffers := c.historyBuffers, inputEnds := c.inputEnds,
            inputBuffer := c.inputBuffer, serial := c.serial, calls := c.calls,
            garbage := c.garbage } ((hn + 1 : Nat) : Int) = _ := hp
      simp only [hp', rd_of_getElem? _ _ _ hrow, hb]
      exact ⟨_, _, _, rfl, hE, rfl, rfl, ⟨rfl, rfl, rfl, rfl⟩⟩
  rw [if_neg h65]
  by_cases h66 : e1 = 66 ∧ a = true ∧ (hn : Int) > 0
  · rw [if_pos h66]
    have hk : hn - 1 ≤ COMMAND_HISTORY_LENGTH := by omega
    have t1 : (hn : Int) - 1 = ((hn - 1 : Nat) : Int) := by omega
    obtain ⟨row, en, out, hrow, hen, hp, hb, hE⟩ := recall_inv c (hn - 1) hs he hk
    simp only [t1, hp, rd_of_getElem? _ _ _ hrow, hb]
    exact ⟨_, _, _, rfl, hE, rfl, rfl, ⟨rfl, rfl, rfl, rfl⟩⟩
  rw [if_neg h66]
  exact ⟨c, _, _, rfl, hok, rfl, rfl, ⟨rfl, rfl, rfl, rfl⟩⟩

theorem Console.EditOk.serial {c : Console} {h ci : Int} (hI : c.EditOk h ci) (s : Serial) :
    ({ c with serial := s } : Console).EditOk h ci := hI

theorem Serial.read_rx_le (s : Serial) : s.read.2.rx.length ≤ s.rx.length := by
  simp only [Serial.read]
  split <;> rename_i hr <;> simp [hr]

theorem Serial.read_rx_lt (s : Serial) (ha : s.available = true) :
    s.read.2.rx.length < s.rx.length := by
  simp only [Serial.read, Serial.available] at *
  split <;> rename_i hr
  · rw [hr] at ha; cases ha
  · simp [hr]

/-- The statements of `catchEscapeSequence` keep the arrays sized, the lengths
in range and the cursor within the line, and reach the closing brace. -/
theorem catchEscapeSequence_body_inv (c : Console) (h ci : Int) (a : Bool)
    (hI : c.EditOk h ci) :
    ∃ c' h' ci', catchEscapeSequence.body c h ci a = .ok (c', h', ci') ∧
      c'.EditOk h' ci' ∧ c'.serial.rx.length ≤ c.serial.rx.length ∧ c'.Frame c := by
  obtain ⟨es, s1, e1, hl, _, hrx1⟩ := readLoop_ok MAX_ESC_CODE_LENGTH 0
    (uninit c.garbage MAX_ESC_CODE_LENGTH) c.serial (by simp [uninit])
  have hes : es.length = 2 := by rw [hl]; simp [uninit, MAX_ESC_CODE_LENGTH]
  obtain ⟨c', h', ci', e2, hI', hrx, _, hfr⟩ := parse_inv
    { c with serial := catchEscapeSequence.drain s1.rx.length s1 } es h ci a hes (hI.serial _)
  refine ⟨c', h', ci', ?_, hI', ?_, hfr⟩
  · simp only [catchEscapeSequence.body, e1, bind, Except.bind]
    exact e2
  · rw [hrx]
    exact le_trans (drain_ok _ _).2 hrx1

/-- No call of `catchEscapeSequence` returns to its caller. -/
theorem catchEscapeSequence_error (c : Console) (h ci : Int) (a : Bool) :
    ∃ f, catchEscapeSequence c h ci a = .error f := by
  unfold catchEscapeSequence
  cases catchEscapeSequence.body c h ci a with
  | error f => exact ⟨f, rfl⟩
  | ok r => exact ⟨.noReturn, rfl⟩

/-- From an edit state the statements of `catchEscapeSequence` commit no
fault, so the call ends at the closing brace, without a value to return. -/
theorem catchEscapeSequence_noReturn (c : Console) (h ci : Int) (a : Bool)
    (hI : c.EditOk h ci) : catchEscapeSequence c h ci a = .error .noReturn := by
  obtain ⟨c', h', ci', e, _⟩ := catchEscapeSequence_body_inv c h ci a hI
  simp only [catchEscapeSequence, e, bind, Except.bind]

/-- The switch of `getSerialInput` on an ESCAPE byte followed by a byte that
has arrived within `ESC_CODE_MS`: the call of `catchEscapeSequence` ends the
run in a fault. -/
theorem switch_escape_error (a : Bool) (st : LoopState)
    (hav : (st.con.serial.delay ESC_CODE_MS).available = true) :
    ∃ f, getSerialInput.switch a st ESCAPE = .error f := by
  obtain ⟨f, e⟩ := catchEscapeSequence_error
    { st.con with serial := st.con.serial.delay ESC_CODE_MS } st.historyIndex st.inputIndex a
  refine ⟨f, ?_⟩
  unfold getSerialInput.switch
  simp only [if_true, hav, e, bind, Except.bind]

/-! ## Editing keystrokes -/

theorem switch_default (a : Bool) (st : LoopState) (x : Nat) (hx : Printable x) :
    getSerialInput.switch a st x = getSerialInput.caseDefault st x := by
  obtain ⟨h1, h2, h3, h4, h5⟩ := hx
  simp [getSerialInput.switch, h1, h2, h3, h4, h5]

theorem switch_backspace (a : Bool) (st : LoopState) (x : Nat)
    (hx : x = BACKSPACE ∨ x = DELETE) :
    getSerialInput.switch a st x = getSerialInput.caseBackspace st := by
  have h1 : x ≠ ESCAPE := by rcases hx with rfl | rfl <;> decide
  have h2 : x ≠ ENTER := by rcases hx with rfl | rfl <;> decide
  have h3 : x ≠ LINE_FEED := by rcases hx with rfl | rfl <;> decide
  simp [getSerialInput.switch, h1, h2, h3, hx]

/-! ## The invariant of the loop of `getSerialInput` -/

/-- One execution of the switch of `getSerialInput` keeps the invariant of
the loop, unless it calls `catchEscapeSequence`: then the run ends in the
fault `noReturn`. No access falls outside its array. -/
theorem switch_inv (a : Bool) (st : LoopState) (x : Nat) (hI : st.Inv)
    (hlt : ∀ len, st.con.inputEnds[st.historyIndex.toNat]? = some len →
      len < (INPUT_BUFFER_SIZE : Int) - 1) :
    (∃ st', getSerialInput.switch a st x = .ok st' ∧ st'.Inv ∧
      st'.con.serial.rx.length ≤ st.con.serial.rx.length ∧
      st'.timeoutCounter = st.timeoutCounter ∧ st'.con.Frame st.con) ∨
    getSerialInput.switch a st x = .error .noReturn := by
  obtain ⟨hE, hT⟩ := hI
  by_cases hesc : x = ESCAPE
  · by_cases hav : (st.con.serial.delay ESC_CODE_MS).available = true
    · right
      have e := catchEscapeSequence_noReturn
        { st.con with serial := st.con.serial.delay ESC_CODE_MS } st.historyIndex st.inputIndex a
        (hE.serial _)
      unfold getSerialInput.switch
      rw [if_pos hesc]
      simp only [hav, if_true, e, bind, Except.bind]
    · left
      unfold getSerialInput.switch
      rw [if_pos hesc]
      simp only [bind, Except.bind, pure, Except.pure]
      simp only [hav, if_false, Bool.false_eq_true]
      exact ⟨_, rfl, ⟨hE.serial _, hT⟩, le_refl _, rfl, ⟨rfl, rfl, rfl, rfl⟩⟩
  left
  by_cases hent : x = ENTER
  · refine ⟨{ st with finished := true }, ?_, ⟨hE, hT⟩, le_refl _, rfl, ⟨rfl, rfl, rfl, rfl⟩⟩
    unfold getSerialInput.switch
    rw [if_neg hesc, if_pos hent]
    rfl
  by_cases hlf : x = LINE_FEED
  · refine ⟨st, ?_, ⟨hE, hT⟩, le_refl _, rfl, ⟨rfl, rfl, rfl, rfl⟩⟩
    unfold getSerialInput.switch
    rw [if_neg hesc, if_neg hent, if_pos hlf]
    rfl
  obtain ⟨hs, he, hh0, hh5, hc0, len, hlen, hcl⟩ := hE
  obtain ⟨hn, hhn⟩ := Int.eq_ofNat_of_zero_le hh0
  obtain ⟨cn, hcn⟩ := Int.eq_ofNat_of_zero_le hc0
  have hlen' := hlen
  rw [hhn, Int.toNat_ofNat] at hlen'
  have hr := he.get hlen'
  obtain ⟨n, rfl⟩ := Int.eq_ofNat_of_zero_le hr.1
  have hlt' := hlt _ hlen
  have hs' := hs
  obtain ⟨s1, s2, s3, s4, s5⟩ := hs'
  have hcn' : cn ≤ n := by omega
  by_cases hbs : x = BACKSPACE ∨ x = DELETE
  · rw [switch_backspace a st x hbs]
    by_cases hc : cn = 0
    · subst hc
      exact ⟨st, caseBackspace_zero st (by simpa using hcn), ⟨⟨hs, he, hh0, hh5, hc0, _, hlen, hcl⟩,
        hT⟩, le_refl _, rfl, ⟨rfl, rfl, rfl, rfl⟩⟩
    · obtain ⟨b', out, e, hl, _⟩ := caseBackspace_ok st hn n cn hhn hlen'
        (by simp only [s5, INPUT_BUFFER_SIZE] at hlt' ⊢; omega) hcn (by omega) hcn'
      refine ⟨_, e, ⟨⟨⟨s1, s2, s3, by simpa using s4, by rw [hl]; exact s5⟩, ?_, hh0, hh5,
        (by show (0 : Int) ≤ (cn : Int) - 1; omega), (n : Int) - 1, ?_,
        (by show (cn : Int) - 1 ≤ (n : Int) - 1; omega)⟩, hT⟩, le_refl _, rfl, ⟨rfl, rfl, rfl, rfl⟩⟩
      · exact he.set hn _ (by omega) _ rfl
      · have : hn < st.con.inputEnds.length := by
          simp only [s4, COMMAND_HISTORY_LENGTH] at hh5 ⊢; omega
        simp [hhn, this]
  · have hp : Printable x := by
      simp only [not_or] at hbs
      exact ⟨hesc, hent, hlf, hbs.1, hbs.2⟩
    rw [switch_default a st x hp]
    obtain ⟨b', out, e, hl, _⟩ := caseDefault_ok st hn n cn x hhn hlen'
      (by simp only [s5, INPUT_BUFFER_SIZE] at hlt' ⊢; omega) hcn hcn'
    refine ⟨_, e, ⟨⟨⟨s1, s2, s3, by simpa using s4, by rw [hl]; exact s5⟩, ?_, hh0, hh5,
      (by show (0 : Int) ≤ (cn : Int) + 1; omega), (n : Int) + 1, ?_,
      (by show (cn : Int) + 1 ≤ (n : Int) + 1; omega)⟩, hT⟩, le_refl _, rfl, ⟨rfl, rfl, rfl, rfl⟩⟩
    · exact he.set hn _ (by omega) _ rfl
    · have : hn < st.con.inputEnds.length := by
        simp only [s4, COMMAND_HISTORY_LENGTH] at hh5 ⊢; omega
      simp [hhn, this]


theorem Console.Frame.trans {c'' c' c : Console} (h2 : c''.Frame c') (h1 : c'.Frame c) :
    c''.Frame c :=
  ⟨h2.1.trans h1.1, h2.2.1.trans h1.2.1, h2.2.2.1.trans h1.2.2.1, h2.2.2.2.trans h1.2.2.2⟩

/-- One iteration of the loop of `getSerialInput` keeps the invariant and
decreases the measure, unless it calls `catchEscapeSequence`. -/
theorem step_inv (a : Bool) (st : LoopState) (hI : st.Inv) :
    (∃ st' go, getSerialInput.step a st = .ok (st', go) ∧ st'.Inv ∧
      (go = true → st'.measure < st.measure) ∧ st'.con.Frame st.con) ∨
    getSerialInput.step a st = .error .noReturn := by
  have hI' := hI
  obtain ⟨⟨hs, he, hh0, hh5, hc0, len, hlen, hcl⟩, hT⟩ := hI'
  obtain ⟨hn, hhn⟩ := Int.eq_ofNat_of_zero_le hh0
  have hlen' := hlen
  rw [hhn, Int.toNat_ofNat] at hlen'
  have hrd : rd st.con.inputEnds st.historyIndex = .ok len := by
    rw [hhn]; exact rd_of_getElem? _ _ _ hlen'
  unfold getSerialInput.step
  simp only [hrd, bind, Except.bind, pure, Except.pure]
  by_cases hcond : len < (INPUT_BUFFER_SIZE : Int) - 1 ∧ st.finished = false
  swap
  · rw [if_neg hcond]
    exact Or.inl ⟨st, false, rfl, hI, by simp, ⟨rfl, rfl, rfl, rfl⟩⟩
  rw [if_pos hcond]
  by_cases hav : st.con.serial.available = false
  · rw [if_pos hav]
    by_cases ht : st.timeoutCounter < CONSOLE_CONTROL_TIMEOUT_MS
    · rw [if_pos ht]
      refine Or.inl ⟨_, true, rfl, ⟨⟨hs, he, hh0, hh5, hc0, len, hlen, hcl⟩, ?_⟩, fun _ => ?_,
        ⟨rfl, rfl, rfl, rfl⟩⟩
      · show st.timeoutCounter + 1 ≤ CONSOLE_CONTROL_TIMEOUT_MS
        omega
      · show st.con.serial.rx.length * (CONSOLE_CONTROL_TIMEOUT_MS + 1) +
          (CONSOLE_CONTROL_TIMEOUT_MS - (st.timeoutCounter + 1)) <
          st.con.serial.rx.length * (CONSOLE_CONTROL_TIMEOUT_MS + 1) +
          (CONSOLE_CONTROL_TIMEOUT_MS - st.timeoutCounter)
        omega
    · rw [if_neg ht]
      exact Or.inl ⟨_, false, rfl, ⟨⟨hs, he, hh0, hh5, hc0, len, hlen, hcl⟩, hT⟩, by simp,
        ⟨rfl, rfl, rfl, rfl⟩⟩
  · rw [if_neg hav]
    have hav' : st.con.serial.available = true := by simpa using hav
    have hlt := Serial.read_rx_lt _ hav'
    rcases switch_inv a
      { st with timeoutCounter := 0, con := { st.con with serial := st.con.serial.read.2 } }
      st.con.serial.read.1
      ⟨⟨hs, he, hh0, hh5, hc0, len, hlen, hcl⟩, Nat.zero_le _⟩
      (fun l hl => by
        have : l = len := by
          have h2 : st.con.inputEnds[st.historyIndex.toNat]? = some l := hl
          rw [hlen] at h2
          exact (Option.some.inj h2).symm
        rw [this]; exact hcond.1) with ⟨st', e, hI2, hrx, htc, hfr⟩ | e
    swap
    · right
      simp only [e]
    left
    simp only [e]
    refine ⟨st', true, rfl, hI2, fun _ => ?_, hfr⟩
    have h1 : st'.timeoutCounter = 0 := htc
    have h2 : st'.con.serial.rx.length ≤ st.con.serial.read.2.rx.length := hrx
    have h3 : st'.con.serial.rx.length + 1 ≤ st.con.serial.rx.length := by omega
    have h4 := Nat.mul_le_mul_right (CONSOLE_CONTROL_TIMEOUT_MS + 1) h3
    simp only [LoopState.measure, h1]
    have h5 : (st'.con.serial.rx.length + 1) * (CONSOLE_CONTROL_TIMEOUT_MS + 1) =
      st'.con.serial.rx.length * (CONSOLE_CONTROL_TIMEOUT_MS + 1) +
        (CONSOLE_CONTROL_TIMEOUT_MS + 1) := by ring
    omega

/-- After any number of iterations of the loop of `getSerialInput`, on any
input: either the state satisfies the invariant, or a call of
`catchEscapeSequence` has ended the run in the fault `noReturn`. No access
falls outside its array. -/
theorem run_inv (a : Bool) (n : Nat) (st : LoopState) (hI : st.Inv) :
    (∃ st', getSerialInput.run a n st = .ok st' ∧ st'.Inv ∧ st'.con.Frame st.con) ∨
    getSerialInput.run a n st = .error .noReturn := by
  induction n generalizing st with
  | zero => exact Or.inl ⟨st, rfl, hI, ⟨rfl, rfl, rfl, rfl⟩⟩
  | succ n ih =>
    rcases step_inv a st hI with ⟨st1, go, e, hI1, _, hfr⟩ | e
    swap
    · right
      simp only [getSerialInput.run, e, bind, Except.bind]
    simp only [getSerialInput.run, e, bind, Except.bind]
    cases go
    · exact Or.inl ⟨st1, rfl, hI1, hfr⟩
    · rcases ih st1 hI1 with ⟨st2, e2, hI2, hfr2⟩ | e2
      · exact Or.inl ⟨st2, by simpa using e2, hI2, hfr2.trans hfr⟩
      · exact Or.inr (by simpa using e2)

/-- The loop of `getSerialInput` ends within its fuel, on any input: either
in a state that satisfies the invariant, or in the fault `noReturn` of a call
of `catchEscapeSequence`. -/
theorem loop_total (a : Bool) (f : Nat) (st : LoopState) (hI : st.Inv)
    (hf : st.measure < f) :
    (∃ st', getSerialInput.loop a f st = .ok st' ∧ st'.Inv ∧ st'.con.Frame st.con) ∨
    getSerialInput.loop a f st = .error .noReturn := by
  induction f generalizing st with
  | zero => omega
  | succ f ih =>
    rcases step_inv a st hI with ⟨st1, go, e, hI1, hm, hfr⟩ | e
    swap
    · right
      simp only [getSerialInput.loop, e, bind, Except.bind]
    simp only [getSerialInput.loop, e, bind, Except.bind]
    cases go
    · exact Or.inl ⟨st1, rfl, hI1, hfr⟩
    · have := hm rfl
      rcases ih st1 hI1 (by omega) with ⟨st2, e2, hI2, hfr2⟩ | e2
      · exact Or.inl ⟨st2, by simpa using e2, hI2, hfr2.trans hfr⟩
      · exact Or.inr (by simpa using e2)

theorem loop_fuel (a : Bool) (f f' : Nat) (st r : LoopState)
    (h : getSerialInput.loop a f st = .ok r) :
    getSerialInput.loop a f' st = .ok r ∨ getSerialInput.loop a f' st = .error .fuel := by
  induction f generalizing f' st with
  | zero => cases h
  | succ f ih =>
    cases f' with
    | zero => exact Or.inr rfl
    | succ f' =>
      simp only [getSerialInput.loop, bind, Except.bind] at h ⊢
      cases hs : getSerialInput.step a st with
      | error e => rw [hs] at h; cases h
      | ok v =>
        obtain ⟨st1, go⟩ := v
        rw [hs] at h
        cases go
        · exact Or.inl (by simpa using h)
        · simp only [if_true] at h ⊢
          exact ih f' st1 h

theorem init_inv (c : Console) (h : Int) (hs : c.Sized) (he : c.EndsInRange)
    (hh : 0 ≤ h ∧ h ≤ COMMAND_HISTORY_LENGTH) :
    ∃ st0, getSerialInput.init c h = .ok st0 ∧ st0.Inv ∧
      st0.measure < getSerialInput.bound c ∧
      st0 = { con := { c with inputEnds := c.inputEnds.set 0 0 }, historyIndex := h,
              inputIndex := 0, finished := false, exit := false, timeoutCounter := 0 } := by
  have hs' := hs
  obtain ⟨s1, s2, s3, s4, s5⟩ := hs'
  have w0 : wr c.inputEnds 0 0 = .ok (c.inputEnds.set 0 0) :=
    wr_ok _ 0 _ (show 0 < c.inputEnds.length by omega)
  have he' : ({ c with inputEnds := c.inputEnds.set 0 0 } : Console).EndsInRange :=
    he.set 0 0 (by simp [INPUT_BUFFER_SIZE]) _ rfl
  obtain ⟨hn, rfl⟩ := Int.eq_ofNat_of_zero_le hh.1
  have hk : hn ≤ COMMAND_HISTORY_LENGTH := by exact_mod_cast hh.2
  obtain ⟨en, hen, _⟩ := he'.entry (c := { c with inputEnds := c.inputEnds.set 0 0 })
    ⟨s1, s2, s3, by simpa using s4, s5⟩ hk
  refine ⟨_, by simp only [getSerialInput.init, w0, bind, Except.bind]; rfl,
    ⟨⟨⟨s1, s2, s3, by simpa using s4, s5⟩, he', hh.1, hh.2, le_refl _, (en : Int),
      by simpa using hen, by show (0 : Int) ≤ en; omega⟩, Nat.zero_le _⟩, ?_, rfl⟩
  simp only [LoopState.measure, getSerialInput.bound]
  have : (c.serial.rx.length + 1) * (CONSOLE_CONTROL_TIMEOUT_MS + 1) =
      c.serial.rx.length * (CONSOLE_CONTROL_TIMEOUT_MS + 1) +
        (CONSOLE_CONTROL_TIMEOUT_MS + 1) := by ring
  omega

theorem LoopState.Inv.editInv {st : LoopState} (hI : st.Inv) : st.EditInv := by
  obtain ⟨⟨hs, he, hh0, hh5, hc0, len, hlen, hcl⟩, _⟩ := hI
  obtain ⟨hn, hhn⟩ := Int.eq_ofNat_of_zero_le hh0
  rw [hhn, Int.toNat_ofNat] at hlen
  exact ⟨len, by rw [hhn]; exact rd_of_getElem? _ _ _ hlen, hc0, hcl, (he.get hlen).2⟩

theorem final_write_ok (st : LoopState) (hI : st.Inv) :
    ∃ len : Nat, rd st.con.inputEnds st.historyIndex = .ok (len : Int) ∧
      len ≤ INPUT_BUFFER_SIZE - 1 ∧
      wr st.con.inputBuffer (len : Int) 0 = .ok (st.con.inputBuffer.set len 0) := by
  obtain ⟨len, h1, _, _, h4⟩ := hI.editInv
  obtain ⟨⟨hs, he, hh0, hh5, hc0, len', hlen, hcl⟩, _⟩ := hI
  obtain ⟨hn, hhn⟩ := Int.eq_ofNat_of_zero_le hh0
  rw [hhn, Int.toNat_ofNat] at hlen
  have h0 := (he.get hlen).1
  rw [hhn, rd_of_getElem? _ _ _ hlen] at h1
  cases h1
  obtain ⟨n, rfl⟩ := Int.eq_ofNat_of_zero_le h0
  obtain ⟨s1, s2, s3, s4, s5⟩ := hs
  have hb : n ≤ INPUT_BUFFER_SIZE - 1 := by
    simp only [INPUT_BUFFER_SIZE] at h4 ⊢; omega
  exact ⟨n, by rw [hhn]; exact rd_of_getElem? _ _ _ hlen, hb,
    wr_ok _ _ _ (by simp only [s5, INPUT_BUFFER_SIZE] at hb ⊢; omega)⟩

theorem caseDefault_line (st : LoopState) (h n c x : Nat)
    (hh : st.historyIndex = h) (hlen : st.con.inputEnds[h]? = some (n : Int))
    (hn : n + 1 < st.con.inputBuffer.length) (hc : st.inputIndex = c) (hcn : c ≤ n) :
    ∃ b' out, getSerialInput.caseDefault st x = .ok { st with
        con := { st.con with
          inputBuffer := b'
          serial := st.con.serial.print out
          inputEnds := st.con.inputEnds.set h ((n : Int) + 1) }
        inputIndex := (c : Int) + 1 } ∧
      b'.length = st.con.inputBuffer.length ∧
      b'.take (n + 1) =
        st.con.inputBuffer.take c ++ [x] ++ (st.con.inputBuffer.drop c).take (n - c) := by
  obtain ⟨b', out, e, hl, hb⟩ := caseDefault_ok st h n c x hh hlen hn hc hcn
  refine ⟨b', out, e, hl, ?_⟩
  apply List.ext_getElem?
  intro i
  simp only [List.getElem?_take, List.getElem?_append, List.length_take, List.getElem?_drop,
    List.length_append, List.length_singleton, hb]
  have hm : min c st.con.inputBuffer.length = c := by omega
  simp only [hm]
  by_cases h1 : i < c
  · simp [h1, show i < n + 1 by omega, show i ≠ c by omega, show ¬ (c < i) by omega,
      show i < c + 1 by omega]
  · by_cases h2 : i = c
    · subst h2
      simp [show i < n + 1 by omega]
    · by_cases h3 : i < n + 1
      · have e1 : c + (i - (c + 1)) = i - 1 := by omega
        simp [h1, h2, h3, show c < n by omega, show c < i by omega,
          show i ≤ n + 1 by omega, show ¬ (i < c + 1) by omega, show i - (c + 1) < n - c by omega,
          e1]
      · simp [h1, h2, h3, show ¬ (i < c + 1) by omega, show ¬ (i - (c + 1) < n - c) by omega]

/-- Claim C2: in an edit state whose line has length `n < INPUT_BUFFER_SIZE-1`
and whose cursor is `c <= n`, the switch of `getSerialInput` on a printable
byte `x` leaves the line `s[0..c) ++ [x] ++ s[c..n)`, the length `n+1` and the
cursor `c+1`. -/
theorem printable_byte_inserted_at_cursor (allowHistory : Bool) (st : LoopState)
    (h n c x : Nat)
    (hbuf : st.con.inputBuffer.length = INPUT_BUFFER_SIZE)
    (hh : st.historyIndex = h) (hlen : st.con.inputEnds[h]? = some (n : Int))
    (hn : n < INPUT_BUFFER_SIZE - 1) (hc : st.inputIndex = c) (hcn : c ≤ n)
    (hx : Printable x) :
    ∃ st', getSerialInput.switch allowHistory st x = .ok st' ∧
      st'.con.inputBuffer.take (n + 1) =
        st.con.inputBuffer.take c ++ [x] ++ (st.con.inputBuffer.drop c).take (n - c) ∧
      st'.con.inputEnds[h]? = some ((n : Int) + 1) ∧
      st'.inputIndex = (c : Int) + 1 ∧
      st'.historyIndex = h := by
  have hn' : n + 1 < st.con.inputBuffer.length := by rw [hbuf]; exact Nat.add_lt_of_lt_sub hn
  obtain ⟨b', out, e, _, hb⟩ := caseDefault_line st h n c x hh hlen hn' hc hcn
  have hhl : h < st.con.inputEnds.length := by
    by_contra hcon
    rw [List.getElem?_eq_none (by omega)] at hlen
    cases hlen
  exact ⟨_, (switch_default allowHistory st x hx).trans e, hb, by simp [hhl], rfl, hh⟩

theorem printable_byte_inserted_at_cursor_witness :
    ∃ st', getSerialInput.switch true exampleState 120 = .ok st' ∧
      st'.con.inputBuffer.take (3 + 1) =
        exampleState.con.inputBuffer.take 1 ++ [120] ++
          (exampleState.con.inputBuffer.drop 1).take (3 - 1) ∧
      st'.con.inputEnds[0]? = some (((3 : Nat) : Int) + 1) ∧
      st'.inputIndex = ((1 : Nat) : Int) + 1 ∧
      st'.historyIndex = (0 : Nat) :=
  printable_byte_inserted_at_cursor true exampleState 0 3 1 120 (by decide) (by decide)
    (by decide) (by decide) (by decide) (by decide) (by decide)

/-- Claim C3: in an edit state whose line has length `n` and whose cursor is
`c <= n`, the switch of `getSerialInput` on a BACKSPACE or DELETE byte returns
the state unchanged (nothing is written to the serial interface) when
`c = 0`, and when `c > 0` leaves the line `s[0..c-1) ++ s[c..n)`, the length
`n-1` and the cursor `c-1`. -/
theorem backspace_removes_left_of_cursor (allowHistory : Bool) (st : LoopState)
    (h n c x : Nat)
    (hbuf : st.con.inputBuffer.length = INPUT_BUFFER_SIZE)
    (hh : st.historyIndex = h) (hlen : st.con.inputEnds[h]? = some (n : Int))
    (hn : n ≤ INPUT_BUFFER_SIZE - 1) (hc : st.inputIndex = c) (hcn : c ≤ n)
    (hx : x = BACKSPACE ∨ x = DELETE) :
    (c = 0 → getSerialInput.switch allowHistory st x = .ok st) ∧
    (0 < c → ∃ st', getSerialInput.switch allowHistory st x = .ok st' ∧
      st'.con.inputBuffer.take (n - 1) =
        st.con.inputBuffer.take (c - 1) ++ (st.con.inputBuffer.drop c).take (n - c) ∧
      st'.con.inputEnds[h]? = some ((n : Int) - 1) ∧
      st'.inputIndex = (c : Int) - 1 ∧
      st'.historyIndex = h) := by
  rw [switch_backspace allowHistory st x hx]
  have hn' : n ≤ st.con.inputBuffer.length := by
    rw [hbuf]; exact le_trans hn (Nat.sub_le _ _)
  constructor
  · intro h0
    subst h0
    exact caseBackspace_zero st (by simpa using hc)
  · intro h0
    obtain ⟨b', out, e, hl, hb⟩ := caseBackspace_ok st h n c hh hlen hn' hc h0 hcn
    have hhl : h < st.con.inputEnds.length := by
      by_contra hcon
      rw [List.getElem?_eq_none (by omega)] at hlen
      cases hlen
    refine ⟨_, e, ?_, by simp [hhl], rfl, hh⟩
    apply List.ext_getElem?
    intro i
    simp only [List.getElem?_take, List.getElem?_append, List.length_take, List.getElem?_drop, hb]
    have hm : min (c - 1) st.con.inputBuffer.length = c - 1 := by omega
    simp only [hm]
    by_cases h1 : i < c - 1
    · simp [h1, show i < n - 1 by omega, show ¬ (c - 1 ≤ i) by omega]
    · by_cases h3 : i < n - 1
      · have e1 : c + (i - (c - 1)) = i + 1 := by omega
        simp [h1, h3, show c - 1 ≤ i by omega, show i - (c - 1) < n - c by omega, e1]
      · simp [h1, h3, show ¬ (i - (c - 1) < n - c) by omega]

theorem backspace_removes_left_of_cursor_witness :
    (1 = 0 → getSerialInput.switch true exampleState BACKSPACE = .ok exampleState) ∧
    (0 < 1 → ∃ st', getSerialInput.switch true exampleState BACKSPACE = .ok st' ∧
      st'.con.inputBuffer.take (3 - 1) =
        exampleState.con.inputBuffer.take (1 - 1) ++
          (exampleState.con.inputBuffer.drop 1).take (3 - 1) ∧
      st'.con.inputEnds[0]? = some (((3 : Nat) : Int) - 1) ∧
      st'.inputIndex = ((1 : Nat) : Int) - 1 ∧
      st'.historyIndex = (0 : Nat)) :=
  backspace_removes_left_of_cursor true exampleState 0 3 1 BACKSPACE (by decide) (by decide)
    (by decide) (by decide) (by decide) (by decide) (by decide)

set_option maxRecDepth 1000000 in
/-- Claim C4 fails on an input that holds an escape sequence. The bytes `a`,
ESCAPE, `[`, `D` are waiting, the arrays have their declared sizes and every
recorded length is in range. After one iteration of the loop of
`getSerialInput` the cursor and the length are 1. The second iteration reads
ESCAPE and calls `catchEscapeSequence`, a function declared `bool` that holds
no `return` statement: control reaches its closing brace, the behaviour is
undefined from there on, and neither the invariant nor the bounds of the
writes that follow are guaranteed. The run and the call of `getSerialInput`
end in the fault `noReturn`. -/
theorem escape_sequence_ends_in_fault :
    exampleLeft.Sized ∧ exampleLeft.EndsInRange ∧
    ((getSerialInput.init exampleLeft 0).bind (getSerialInput.run true 1)).map
        (fun st => (st.inputIndex, st.con.inputEnds[0]?, st.con.serial.rx)) =
      .ok (1, some 1, [(0, 27), (0, 91), (0, 68)]) ∧
    ((getSerialInput.init exampleLeft 0).bind (getSerialInput.run true 2)).map
        (fun st => st.inputIndex) = .error .noReturn ∧
    (getSerialInput exampleLeft 0 true true).map (fun r => r.2.2) = .error .noReturn := by
  refine ⟨?_, ?_, ?_, ?_, ?_⟩ <;> decide

/-! ## Typing a line -/

theorem loop_mono (a : Bool) (f f' : Nat) (st r : LoopState)
    (h : getSerialInput.loop a f st = .ok r) (hf : f ≤ f') :
    getSerialInput.loop a f' st = .ok r := by
  induction f generalizing f' st with
  | zero => cases h
  | succ f ih =>
    obtain ⟨g, rfl⟩ : ∃ g, f' = g + 1 := ⟨f' - 1, by omega⟩
    simp only [getSerialInput.loop, bind, Except.bind] at h ⊢
    cases hs : getSerialInput.step a st with
    | error e => rw [hs] at h; cases h
    | ok v =>
      obtain ⟨st1, go⟩ := v
      rw [hs] at h
      cases go
      · simpa using h
      · simp only [if_true] at h ⊢
        exact ih g st1 h (by omega)

theorem loop_wait (a : Bool) (d : Nat) (st : LoopState) (f t b : Nat) (r' : List (Nat × Nat))
    (len : Int)
    (hrx : st.con.serial.rx = (t, b) :: r')
    (hd : ∀ i < d, st.con.serial.now + i < t)
    (hT : st.timeoutCounter + d ≤ CONSOLE_CONTROL_TIMEOUT_MS)
    (hrd : rd st.con.inputEnds st.historyIndex = .ok len)
    (hlen : len < (INPUT_BUFFER_SIZE : Int) - 1) (hfin : st.finished = false) :
    getSerialInput.loop a (f + d) st = getSerialInput.loop a f (st.waited d) := by
  induction d generalizing st with
  | zero => rfl
  | succ d ih =>
    have h0 := hd 0 (by omega)
    have hav : st.con.serial.available = false := by
      simp only [Serial.available, hrx]
      simpa using h0
    have hstep : getSerialInput.step a st = .ok (st.waited 1, true) := by
      unfold getSerialInput.step
      simp only [hrd, bind, Except.bind, pure, Except.pure]
      rw [if_pos ⟨hlen, hfin⟩, if_pos hav, if_pos (by omega)]
      rfl
    have e1 : f + (d + 1) = (f + d) + 1 := by omega
    rw [e1, getSerialInput.loop]
    simp only [hstep, bind, Except.bind, if_true]
    rw [ih (st.waited 1) hrx (fun i hi => by
        have := hd (i + 1) (by omega)
        simp only [LoopState.waited, Serial.delay]
        omega)
      (by simp only [LoopState.waited]; omega) hrd hfin]
    congr 1
    simp only [LoopState.waited, Serial.delay]
    congr 1
    · congr 2
      omega
    · omega

theorem step_available (a : Bool) (st : LoopState) (len : Int)
    (hrd : rd st.con.inputEnds st.historyIndex = .ok len)
    (hlen : len < (INPUT_BUFFER_SIZE : Int) - 1) (hfin : st.finished = false)
    (hav : st.con.serial.available = true) :
    getSerialInput.step a st =
      (getSerialInput.switch a
        { st with timeoutCounter := 0, con := { st.con with serial := st.con.serial.read.2 } }
        st.con.serial.read.1).bind (fun r => .ok (r, true)) := by
  unfold getSerialInput.step
  simp only [hrd, bind, Except.bind, pure, Except.pure]
  rw [if_pos ⟨hlen, hfin⟩, if_neg (by simp [hav])]

theorem step_finished (a : Bool) (st : LoopState) (len : Int)
    (hrd : rd st.con.inputEnds st.historyIndex = .ok len) (hfin : st.finished = true) :
    getSerialInput.step a st = .ok (st, false) := by
  unfold getSerialInput.step
  simp only [hrd, bind, Except.bind, pure, Except.pure]
  rw [if_neg (by simp [hfin])]


theorem Serial.read_cons (s : Serial) (t b : Nat) (r : List (Nat × Nat))
    (h : s.rx = (t, b) :: r) : s.read = (b, { s with rx := r }) := by
  simp [Serial.read, h]

theorem Serial.available_cons (s : Serial) (t b : Nat) (r : List (Nat × Nat))
    (h : s.rx = (t, b) :: r) (ht : t ≤ s.now) : s.available = true := by
  simp [Serial.available, h, ht]

theorem switch_enter (a : Bool) (st : LoopState) :
    getSerialInput.switch a st ENTER = .ok { st with finished := true } := by
  unfold getSerialInput.switch
  rw [if_neg (by decide), if_pos rfl]
  rfl

/-- The loop of `getSerialInput` from a state whose next byte arrives in time:
the silence before it is waited out and the byte is handed to the switch. -/
theorem loop_next_byte (a : Bool) (st : LoopState) (f t b : Nat) (r' : List (Nat × Nat))
    (len : Int)
    (hrx : st.con.serial.rx = (t, b) :: r')
    (ht : t ≤ st.con.serial.now + CONSOLE_CONTROL_TIMEOUT_MS)
    (hT : st.timeoutCounter = 0)
    (hrd : rd st.con.inputEnds st.historyIndex = .ok len)
    (hlen : len < (INPUT_BUFFER_SIZE : Int) - 1) (hfin : st.finished = false) :
    getSerialInput.loop a (f + 1 + (t - st.con.serial.now)) st =
      (getSerialInput.switch a
        { st with
          timeoutCounter := 0
          con := { st.con with
            serial := { st.con.serial with now := max st.con.serial.now t, rx := r' } } }
        b).bind (fun r => getSerialInput.loop a f r) := by
  rw [loop_wait a (t - st.con.serial.now) st (f + 1) t b r' len hrx (fun i hi => by omega)
    (by omega) hrd hlen hfin]
  have hav : (st.waited (t - st.con.serial.now)).con.serial.available = true :=
    Serial.available_cons _ t b r' hrx (by simp only [LoopState.waited, Serial.delay]; omega)
  rw [getSerialInput.loop, step_available a (st.waited (t - st.con.serial.now)) len hrd hlen hfin hav]
  have hr : (st.waited (t - st.con.serial.now)).con.serial.read =
      (b, { (st.waited (t - st.con.serial.now)).con.serial with rx := r' }) :=
    Serial.read_cons _ t b r' hrx
  simp only [hr]
  have hmax : st.con.serial.now + (t - st.con.serial.now) = max st.con.serial.now t := by
    omega
  simp only [LoopState.waited, Serial.delay, hmax]
  cases getSerialInput.switch a _ b <;> rfl


theorem loop_finished (a : Bool) (f : Nat) (st : LoopState) (len : Int)
    (hrd : rd st.con.inputEnds st.historyIndex = .ok len) (hfin : st.finished = true) :
    getSerialInput.loop a (f + 1) st = .ok st := by
  rw [getSerialInput.loop, step_finished a st len hrd hfin]
  rfl

theorem typing_loop (a : Bool) (tE : Nat) (rest typed : List (Nat × Nat)) :
    ∀ (st : LoopState) (k : Nat),
      st.historyIndex = 0 → st.inputIndex = (k : Int) →
      st.con.inputEnds[0]? = some (k : Int) →
      st.finished = false → st.exit = false → st.timeoutCounter = 0 →
      st.con.inputBuffer.length = INPUT_BUFFER_SIZE →
      st.con.serial.rx = typed ++ (tE, ENTER) :: rest →
      k + typed.length ≤ INPUT_BUFFER_SIZE - 2 →
      (∀ p ∈ typed, Printable p.2) →
      ArrivesInTime st.con.serial.now (typed ++ [(tE, ENTER)]) →
      ∃ f r, getSerialInput.loop a f st = .ok r ∧
        f ≤ (typed.length + 1) * (CONSOLE_CONTROL_TIMEOUT_MS + 1) + 1 ∧
        r.exit = false ∧ r.historyIndex = 0 ∧
        r.con.inputEnds[0]? = some ((k + typed.length : Nat) : Int) ∧
        r.con.inputBuffer.length = INPUT_BUFFER_SIZE ∧
        r.con.inputBuffer.take (k + typed.length) =
          st.con.inputBuffer.take k ++ typed.map Prod.snd ∧
        r.con.serial.rx = rest ∧
        r.con.serial.now = lastRead st.con.serial.now (typed ++ [(tE, ENTER)]) := by
  induction typed with
  | nil =>
    intro st k hh hc hlen hfin hex hT hbuf hrx hk _ harr
    have hrd : rd st.con.inputEnds st.historyIndex = .ok (k : Int) := by
      rw [hh]; exact rd_of_getElem? _ 0 _ hlen
    have hk' : (k : Int) < (INPUT_BUFFER_SIZE : Int) - 1 := by
      simp only [INPUT_BUFFER_SIZE, List.length_nil] at hk ⊢; omega
    have h1 := loop_next_byte a st 1 tE ENTER rest k hrx harr.1 hT hrd hk' hfin
    rw [switch_enter] at h1
    refine ⟨_, _, h1.trans (loop_finished a 0 _ (k : Int) hrd rfl), ?_, hex, hh,
      by simpa using hlen, hbuf, by simp, rfl, rfl⟩
    · have := harr.1
      simp only [CONSOLE_CONTROL_TIMEOUT_MS, List.length_nil] at this ⊢
      omega
  | cons p typed ih =>
    intro st k hh hc hlen hfin hex hT hbuf hrx hk hp harr
    obtain ⟨t, x⟩ := p
    have hrd : rd st.con.inputEnds st.historyIndex = .ok (k : Int) := by
      rw [hh]; exact rd_of_getElem? _ 0 _ hlen
    have hk' : (k : Int) < (INPUT_BUFFER_SIZE : Int) - 1 := by
      simp only [INPUT_BUFFER_SIZE, List.length_cons] at hk ⊢; omega
    have hx : Printable x := hp (t, x) (List.mem_cons_self _ _)
    have hl0 : 0 < st.con.inputEnds.length := by
      by_contra hcon
      rw [List.getElem?_eq_none (by omega)] at hlen
      cases hlen
    have key : ∃ st3, getSerialInput.caseDefault
        { st with
          timeoutCounter := 0
          con := { st.con with
            serial := { st.con.serial with
              now := max st.con.serial.now t
              rx := typed ++ (tE, ENTER) :: rest } } } x = .ok st3 ∧
        st3.historyIndex = 0 ∧ st3.inputIndex = ((k + 1 : Nat) : Int) ∧
        st3.con.inputEnds[0]? = some ((k + 1 : Nat) : Int) ∧
        st3.finished = false ∧ st3.exit = false ∧ st3.timeoutCounter = 0 ∧
        st3.con.inputBuffer.length = INPUT_BUFFER_SIZE ∧
        st3.con.serial.rx = typed ++ (tE, ENTER) :: rest ∧
        st3.con.serial.now = max st.con.serial.now t ∧
        st3.con.inputBuffer.take (k + 1) = st.con.inputBuffer.take k ++ [x] := by
      obtain ⟨b', out, e, hl, hb⟩ := caseDefault_line
        { st with
          timeoutCounter := 0
          con := { st.con with
            serial := { st.con.serial with
              now := max st.con.serial.now t
              rx := typed ++ (tE, ENTER) :: rest } } }
        0 k k x hh hlen
        (by show k + 1 < st.con.inputBuffer.length
            simp only [hbuf, INPUT_BUFFER_SIZE, List.length_cons] at hk ⊢; omega)
        hc (le_refl k)
      refine ⟨_, e, hh, by show (k : Int) + 1 = _; omega, ?_, hfin, hex, rfl, hl.trans hbuf,
        rfl, rfl, ?_⟩
      · show (st.con.inputEnds.set 0 ((k : Int) + 1))[0]? = _
        simp [hl0]
      · have := hb
        simpa using this
    obtain ⟨st3, e, g1, g2, g3, g4, g5, g6, g7, g8, g9, g10⟩ := key
    obtain ⟨f, r, hr, hf, h1, h2, h3, h4, h5, h6, h7⟩ := ih st3 (k + 1) g1 g2 g3 g4 g5 g6 g7 g8
      (by simp only [List.length_cons] at hk; omega)
      (fun q hq => hp q (List.mem_cons_of_mem _ hq)) (by rw [g9]; exact harr.2)
    have h0 := loop_next_byte a st f t x (typed ++ (tE, ENTER) :: rest) k hrx harr.1 hT hrd
      hk' hfin
    rw [switch_default a _ x hx, e] at h0
    refine ⟨_, r, h0.trans hr, ?_, h1, h2, ?_, h4, ?_, h6, ?_⟩
    · have := harr.1
      simp only [CONSOLE_CONTROL_TIMEOUT_MS, List.length_cons] at this hf ⊢
      omega
    · rw [h3]; simp only [List.length_cons]; congr 2; omega
    · have e1 : k + ((t, x) :: typed).length = k + 1 + typed.length := by
        simp only [List.length_cons]; omega
      rw [e1, h5, g10]
      simp
    · rw [h7, g9]
      rfl


theorem take_set_of_le {α : Type} (l : List α) (n m : Nat) (a : α) (h : m ≤ n) :
    (l.set n a).take m = l.take m := by
  apply List.ext_getElem?
  intro i
  simp only [List.getElem?_take, List.getElem?_set]
  split_ifs <;> first | rfl | (exfalso; omega)

/-- Claim C1: when `n <= INPUT_BUFFER_SIZE-2` printable bytes and then an
ENTER byte arrive, with no silence longer than the timeout, `getSerialInput`
called with `historyIndex` 0 returns false, leaves `historyIndex` 0, and
leaves in `inputBuffer` those `n` bytes in order followed by a NUL at index
`n`. -/
theorem typed_line_is_returned (c : Console) (allowHistory timeout : Bool)
    (typed rest : List (Nat × Nat)) (tE : Nat)
    (hs : c.Sized)
    (hrx : c.serial.rx = typed ++ (tE, ENTER) :: rest)
    (hn : typed.length ≤ INPUT_BUFFER_SIZE - 2)
    (hp : ∀ p ∈ typed, Printable p.2)
    (ht : ArrivesInTime c.serial.now (typed ++ [(tE, ENTER)])) :
    ∃ c', getSerialInput c 0 allowHistory timeout = .ok (c', 0, false) ∧
      c'.inputBuffer.take typed.length = typed.map Prod.snd ∧
      c'.inputBuffer[typed.length]? = some 0 := by
  obtain ⟨s1, s2, s3, s4, s5⟩ := hs
  have hl0 : 0 < c.inputEnds.length := by omega
  have w0 : wr c.inputEnds 0 0 = .ok (c.inputEnds.set 0 0) := wr_ok _ 0 _ hl0
  obtain ⟨f, r, hr, hf, h1, h2, h3, h4, h5, _, _⟩ := typing_loop allowHistory tE rest typed
    { con := { c with inputEnds := c.inputEnds.set 0 0 }, historyIndex := 0, inputIndex := 0,
      finished := false, exit := false, timeoutCounter := 0 } 0 rfl rfl
    (by show (c.inputEnds.set 0 0)[0]? = _; simp [hl0]) rfl rfl rfl s5 hrx
    (by omega) hp ht
  have hfb : f ≤ getSerialInput.bound c := by
    simp only [getSerialInput.bound, hrx, List.length_append, List.length_cons,
      CONSOLE_CONTROL_TIMEOUT_MS] at hf ⊢
    omega
  have hr' := loop_mono allowHistory f _ _ r hr hfb
  have hlen : typed.length < r.con.inputBuffer.length := by
    simp only [h4, INPUT_BUFFER_SIZE] at hn ⊢; omega
  have e3 : rd r.con.inputEnds 0 = .ok (typed.length : Int) :=
    rd_of_getElem? _ 0 _ (by simpa using h3)
  refine ⟨{ r.con with inputBuffer := r.con.inputBuffer.set typed.length 0 }, ?_, ?_, ?_⟩
  · simp only [getSerialInput, getSerialInput.init, w0, bind, Except.bind, pure, Except.pure,
      hr', h2, e3, wr_ok _ _ _ hlen, h1]
  · show (r.con.inputBuffer.set typed.length 0).take typed.length = _
    rw [take_set_of_le _ _ _ _ (le_refl _)]
    simpa using h5
  · show (r.con.inputBuffer.set typed.length 0)[typed.length]? = _
    simp [hlen]

theorem typed_line_is_returned_witness :
    ∃ c', getSerialInput exampleTyping 0 true true = .ok (c', 0, false) ∧
      c'.inputBuffer.take [(0, 104), (10, 105)].length = [(0, 104), (10, 105)].map Prod.snd ∧
      c'.inputBuffer[[(0, 104), (10, 105)].length]? = some 0 :=
  typed_line_is_returned exampleTyping true true [(0, 104), (10, 105)] [] 20
    (by decide) (by decide) (by decide) (by decide) (by decide)

/-! ## Tokens -/

theorem modifyHead_nil_append (S : List (List Nat)) :
    S.modifyHead (fun x => [] ++ x) = S := by
  cases S <;> simp [List.modifyHead]

theorem runsFrom_eq (l cur : List Nat) :
    runsFrom l cur =
      ((l.splitOn DELIMITER0).modifyHead (fun x => cur ++ x)).filter (fun run => run ≠ []) := by
  induction l generalizing cur with
  | nil =>
    by_cases h : cur = [] <;> simp [runsFrom, h, List.modifyHead]
  | cons c cs ih =>
    simp only [runsFrom, List.splitOn, List.splitOnP_cons]
    by_cases hc : c = DELIMITER0
    · have h1 : (c == DELIMITER0) = true := by simpa using hc
      simp only [h1, if_true, hc]
      by_cases h : cur = []
      · subst h
        rw [if_pos rfl, ih, modifyHead_nil_append]
        simp [List.modifyHead, List.splitOn]
      · rw [if_neg h, ih, modifyHead_nil_append]
        simp [List.modifyHead, List.splitOn, h]
    · have h1 : (c == DELIMITER0) = false := by simpa using hc
      rw [if_neg hc, ih]
      simp only [h1, Bool.false_eq_true, if_false, List.splitOn, List.modifyHead_modifyHead]
      congr 2
      funext x
      simp

theorem tokens_eq_runsFrom (l : List Nat) : tokens l = runsFrom l [] := by
  rw [runsFrom_eq, tokens, modifyHead_nil_append]


theorem scan_spec (ln r : List Nat) (hno0 : ∀ b ∈ ln, b ≠ 0)
    (hL : ln.length ≤ INPUT_BUFFER_SIZE - 1) :
    ∀ (fuel i start tn : Nat) (cur run : List Nat),
      1 ≤ i → i ≤ ln.length → fuel + i = INPUT_BUFFER_SIZE - 1 →
      (ln[i - 1]? ≠ some DELIMITER0 → start < i ∧ cur = (ln.drop start).take (i - start)) →
      (ln[i - 1]? = some DELIMITER0 → cur = []) →
      (runsFrom (ln.drop i) cur)[tn]? = some run →
      ∃ i' start', getToken.scan (ln ++ 0 :: r) fuel i start (tn : Int) = .ok (i', start', 0) ∧
        start' ≤ i' ∧ i' ≤ ln.length ∧ (ln.drop start').take (i' - start') = run := by
  intro fuel
  induction fuel with
  | zero =>
    intro i start tn cur run h1 hi hf hA hB hR
    have hiL : i = ln.length := by omega
    rw [hiL, List.drop_length] at hR
    simp only [runsFrom] at hR
    by_cases hc : cur = []
    · simp [hc] at hR
    · rw [if_neg hc] at hR
      have htn : tn = 0 := by
        cases tn with
        | zero => rfl
        | succ m => simp at hR
      subst htn
      have hrun : cur = run := by simpa using hR
      have hp : ln[i - 1]? ≠ some DELIMITER0 := fun h => hc (hB h)
      obtain ⟨hs, hcur⟩ := hA hp
      exact ⟨i, start, rfl, by omega, by omega, by rw [← hrun, hcur]⟩
  | succ fuel ih =>
    intro i start tn cur run h1 hi hf hA hB hR
    by_cases hiL : i = ln.length
    · rw [hiL, List.drop_length] at hR
      simp only [runsFrom] at hR
      by_cases hc : cur = []
      · simp [hc] at hR
      · rw [if_neg hc] at hR
        have htn : tn = 0 := by
          cases tn with
          | zero => rfl
          | succ m => simp at hR
        subst htn
        have hrun : cur = run := by simpa using hR
        have hp : ln[i - 1]? ≠ some DELIMITER0 := fun h => hc (hB h)
        obtain ⟨hs, hcur⟩ := hA hp
        have h0 : (ln ++ 0 :: r)[i]? = some 0 := by
          rw [hiL, List.getElem?_append_right (le_refl _)]; simp
        refine ⟨i, start, ?_, by omega, by omega, by rw [← hrun, hcur]⟩
        simp [getToken.scan, rd_of_getElem? _ _ _ h0, bind, Except.bind, pure, Except.pure]
    · have hlt : i < ln.length := by omega
      have hc : (ln ++ 0 :: r)[i]? = some ln[i] := by
        rw [List.getElem?_append_left hlt, List.getElem?_eq_getElem hlt]
      have hlt1 : i - 1 < ln.length := by omega
      have hp : (ln ++ 0 :: r)[i - 1]? = some ln[i - 1] := by
        rw [List.getElem?_append_left hlt1, List.getElem?_eq_getElem hlt1]
      have hc0 : ln[i] ≠ 0 := hno0 _ (List.getElem_mem _)
      have e1 : ((i : Nat) : Int) - 1 = ((i - 1 : Nat) : Int) := by omega
      have hprev : ln[i - 1]? = some ln[i - 1] := List.getElem?_eq_getElem hlt1
      have hnext : ln[i + 1 - 1]? = some ln[i] := by
        simp only [Nat.add_sub_cancel]; exact List.getElem?_eq_getElem hlt
      rw [List.drop_eq_getElem_cons hlt] at hR
      unfold getToken.scan
      simp only [rd_of_getElem? _ _ _ hc, e1, rd_of_getElem? _ _ _ hp, bind, Except.bind, pure,
        Except.pure, if_neg hc0]
      by_cases hcD : ln[i] = DELIMITER0
      · by_cases hpD : ln[i - 1] = DELIMITER0
        · -- a delimiter after a delimiter
          have hcur : cur = [] := hB (by rw [hprev, hpD])
          rw [if_neg (by simp [hpD]), if_neg (by simp [hcD])]
          simp only [runsFrom, hcD, if_true, hcur] at hR
          exact ih (i + 1) start tn [] run (by omega) hlt (by omega)
            (fun h => absurd (by rw [hnext, hcD]) h) (fun _ => rfl) hR
        · -- the end of a run
          obtain ⟨hs, hcur⟩ := hA (by rw [hprev]; simpa using hpD)
          have hne : cur ≠ [] := by
            rw [hcur]
            intro h
            have := congrArg List.length h
            simp at this
            omega
          rw [if_pos ⟨hcD, hpD⟩]
          simp only [runsFrom, hcD, if_true, if_neg hne] at hR
          cases tn with
          | zero =>
            have hrun : cur = run := by simpa using hR
            refine ⟨i, start, by simp, by omega, by omega, by rw [← hrun, hcur]⟩
          | succ m =>
            have e2 : ((m + 1 : Nat) : Int) - 1 = (m : Int) := by omega
            rw [if_neg (by omega), e2]
            exact ih (i + 1) start m [] run (by omega) hlt (by omega)
              (fun h => absurd (by rw [hnext, hcD]) h) (fun _ => rfl) (by simpa using hR)
      · rw [if_neg (by simp [hcD])]
        simp only [runsFrom, if_neg hcD] at hR
        by_cases hpD : ln[i - 1] = DELIMITER0
        · -- the start of a run
          have hcur : cur = [] := hB (by rw [hprev, hpD])
          rw [if_pos ⟨hcD, hpD⟩]
          refine ih (i + 1) i tn (cur ++ [ln[i]]) run (by omega) hlt (by omega)
            (fun _ => ⟨by omega, ?_⟩) (fun h => ?_) hR
          · have e5 : i + 1 - i = 1 := by omega
            rw [hcur, e5, List.drop_eq_getElem_cons hlt]
            rfl
          · rw [hnext] at h
            exact absurd (Option.some.inj h) hcD
        · -- inside a run
          obtain ⟨hs, hcur⟩ := hA (by rw [hprev]; simpa using hpD)
          rw [if_neg (by simp [hpD])]
          refine ih (i + 1) start tn (cur ++ [ln[i]]) run (by omega) hlt (by omega)
            (fun _ => ⟨by omega, ?_⟩) (fun h => ?_) hR
          · have e3 : i + 1 - start = (i - start) + 1 := by omega
            rw [hcur, e3, List.take_succ, List.getElem?_drop]
            have e4 : start + (i - start) = i := by omega
            rw [e4, List.getElem?_eq_getElem hlt]
            rfl
          · rw [hnext] at h
            exact absurd (Option.some.inj h) hcD


theorem copy_spec (input : List Nat) (start : Nat) (n j : Nat) (token : List Nat)
    (h1 : j + n ≤ token.length) (h2 : start + j + n ≤ input.length) :
    ∃ token', getToken.copy input start n j token = .ok (j + n, token') ∧
      token'.length = token.length ∧
      ∀ x, token'[x]? = if j ≤ x ∧ x < j + n then input[start + x]? else token[x]? := by
  induction n generalizing j token with
  | zero =>
    refine ⟨token, rfl, rfl, fun x => ?_⟩
    rw [if_neg (by omega)]
  | succ n ih =>
    have hj : j < token.length := by omega
    have hs : j + start < input.length := by omega
    have e1 : (j : Int) + (start : Int) = ((j + start : Nat) : Int) := by omega
    obtain ⟨t', e, hl, hx⟩ := ih (j + 1) (token.set j input[j + start]) (by simp; omega)
      (by omega)
    refine ⟨t', ?_, by simpa using hl, fun x => ?_⟩
    · simp only [getToken.copy, e1, rd_ok _ _ hs, wr_ok _ _ _ hj, bind, Except.bind, e]
      congr 2
      omega
    · rw [hx]
      simp only [List.getElem?_set]
      split_ifs <;> first | rfl | (exfalso; omega) | (subst_vars; simp [hs, Nat.add_comm])

theorem dropWhile_cases (p : Nat → Bool) (l : List Nat) :
    l.dropWhile p = [] ∨ ∃ x r, l.dropWhile p = x :: r ∧ p x = false := by
  induction l with
  | nil => exact Or.inl rfl
  | cons a l ih =>
    by_cases h : p a = true
    · simpa [List.dropWhile, h] using ih
    · exact Or.inr ⟨a, l, by simp [List.dropWhile, h], by simpa using h⟩

theorem lineOf_spec (input : List Nat) (h : (lineOf input).length < input.length) :
    (∃ r, input = lineOf input ++ 0 :: r) ∧ ∀ b ∈ lineOf input, b ≠ 0 := by
  constructor
  · have hsplit := List.takeWhile_append_dropWhile (fun b => b != 0) input
    rcases dropWhile_cases (fun b => b != 0) input with h0 | ⟨x, r, h1, h2⟩
    · rw [h0, List.append_nil] at hsplit
      have := congrArg List.length hsplit
      simp only [lineOf] at h
      omega
    · have hx : x = 0 := by simpa using h2
      rw [h1, hx] at hsplit
      exact ⟨r, hsplit.symm⟩
  · intro b hb
    have := List.mem_takeWhile_imp hb
    simpa using this

theorem takeWhile_prefix (run rest : List Nat) (h : ∀ b ∈ run, b ≠ 0) :
    (run ++ 0 :: rest).takeWhile (fun b => b != 0) = run := by
  induction run with
  | nil => simp [List.takeWhile]
  | cons a t ih =>
    have ha : (a != 0) = true := by simpa using h a (List.mem_cons_self _ _)
    rw [List.cons_append, List.takeWhile_cons, ha, if_pos rfl,
      ih (fun b hb => h b (List.mem_cons_of_mem _ hb))]

theorem cstr_prefix (run rest : List Nat) (h : ∀ b ∈ run, b ≠ 0) :
    cstr (run ++ 0 :: rest) = .ok run := by
  have h1 : (run ++ 0 :: rest).contains 0 = true := by simp
  rw [cstr, if_pos h1, takeWhile_prefix run rest h]


theorem set_eq_prefix (token' run : List Nat) (m : Nat) (hm : m < token'.length)
    (hlen : run.length = m) (hx : ∀ x, x < m → token'[x]? = run[x]?) :
    token'.set m 0 = run ++ 0 :: token'.drop (m + 1) := by
  apply List.ext_getElem?
  intro x
  simp only [List.getElem?_set, List.getElem?_append, hlen]
  by_cases h1 : x < m
  · rw [if_neg (by omega), if_pos h1, hx x h1]
  · rw [if_neg h1]
    by_cases h2 : x = m
    · subst h2
      simp [hm]
    · obtain ⟨d, rfl⟩ : ∃ d, x = m + 1 + d := ⟨x - m - 1, by omega⟩
      have e : m + 1 + d - m = d + 1 := by omega
      rw [if_neg (by omega), e, List.getElem?_cons_succ, List.getElem?_drop]

/-- The scan and copy of `getToken` on a buffer holding the line `ln`. -/
theorem getToken_token (token ln r : List Nat) (k : Nat) (run : List Nat)
    (htok : token.length = MAX_PARAMETER_LENGTH)
    (hL : ln.length ≤ INPUT_BUFFER_SIZE - 1) (hno0 : ∀ b ∈ ln, b ≠ 0)
    (hrun : (tokens ln)[k]? = some run) (hshort : run.length < MAX_PARAMETER_LENGTH) :
    ∃ rest, getToken token (ln ++ 0 :: r) (k : Int) = .ok (run ++ 0 :: rest) ∧
      (run ++ 0 :: rest).length = token.length ∧ ∀ b ∈ run, b ≠ 0 := by
  rw [tokens_eq_runsFrom] at hrun
  cases ln with
  | nil => simp [runsFrom] at hrun
  | cons c0 tl =>
    have hc0 : c0 ≠ 0 := hno0 c0 (List.mem_cons_self _ _)
    have r0 : rd (c0 :: tl ++ 0 :: r) 0 = .ok c0 := by simp [rd]
    have hlen1 : 1 ≤ (c0 :: tl).length := by simp
    obtain ⟨i', start', es, h1, h2, h3⟩ := scan_spec (c0 :: tl) r hno0 hL
      (INPUT_BUFFER_SIZE - 1 - 1) 1 0 k (if c0 = DELIMITER0 then [] else [c0]) run
      (le_refl 1) hlen1 (by simp [INPUT_BUFFER_SIZE])
      (fun h => ⟨by omega, by
        have : c0 ≠ DELIMITER0 := by simpa using h
        simp [this]⟩)
      (fun h => by
        have : c0 = DELIMITER0 := by simpa using h
        simp [this])
      (by
        simp only [runsFrom] at hrun
        by_cases hd : c0 = DELIMITER0
        · simpa [hd] using hrun
        · simpa [hd] using hrun)
    have hm : run.length = i' - start' := by
      rw [← h3, List.length_take, List.length_drop]
      omega
    have hmin : min (i' - start') MAX_PARAMETER_LENGTH = run.length := by omega
    have hi50 : i' < (c0 :: tl ++ 0 :: r).length := by
      simp only [List.length_append, List.length_cons] at h2 ⊢
      omega
    obtain ⟨token', ec, hl, hx⟩ := copy_spec (c0 :: tl ++ 0 :: r) start' run.length 0 token
      (by omega) (by omega)
    have hk0 : ¬ ((k : Int) < 0) := by omega
    have hz : ¬ ((0 : Int) > 0) := by omega
    have hset : token'.set run.length 0 = run ++ 0 :: token'.drop (run.length + 1) := by
      apply set_eq_prefix token' run run.length (by omega) rfl
      intro x hxm
      rw [hx x, if_pos (by omega), ← h3, List.getElem?_take, if_pos (by omega),
        List.getElem?_drop, List.getElem?_append_left (by omega)]
    refine ⟨token'.drop (run.length + 1), ?_, ?_, ?_⟩
    rotate_left
    · rw [← hset]
      simpa using hl
    · intro b hb
      rw [← h3] at hb
      exact hno0 b (List.mem_of_mem_drop (List.mem_of_mem_take hb))
    · unfold getToken
      simp only [if_neg hk0, r0, bind, Except.bind, pure, Except.pure, if_neg hc0, es, if_neg hz,
        hmin, ec, Nat.zero_add, wr_ok token' run.length 0 (by omega), hset]

/-- Claim C5: for a NUL-terminated line of at most `INPUT_BUFFER_SIZE-1`
characters whose tokens (maximal runs of non-delimiter characters, so that
consecutive delimiters give no empty token) have a `k`-th member `run` shorter
than `MAX_PARAMETER_LENGTH`, `getToken(token, line, k)` stores `run`,
NUL-terminated, in `token`. -/
theorem getToken_stores_kth_token (token input : List Nat) (k : Nat) (run : List Nat)
    (htok : token.length = MAX_PARAMETER_LENGTH) (hin : input.length = INPUT_BUFFER_SIZE)
    (hterm : (lineOf input).length ≤ INPUT_BUFFER_SIZE - 1)
    (hrun : (tokens (lineOf input))[k]? = some run)
    (hshort : run.length < MAX_PARAMETER_LENGTH) :
    ∃ token', getToken token input (k : Int) = .ok token' ∧ cstr token' = .ok run := by
  obtain ⟨⟨r, hsplit⟩, hno0⟩ := lineOf_spec input (by
    simp only [hin, INPUT_BUFFER_SIZE] at hterm ⊢; omega)
  obtain ⟨rest, e, _, h0⟩ := getToken_token token (lineOf input) r k run htok hterm hno0 hrun
    hshort
  rw [← hsplit] at e
  exact ⟨_, e, cstr_prefix run rest h0⟩

theorem getToken_stores_kth_token_witness :
    (∃ token', getToken exampleToken (lineBuffer "a,b,,c") ((0 : Nat) : Int) = .ok token' ∧
      cstr token' = .ok (str "a")) ∧
    (∃ token', getToken exampleToken (lineBuffer "a,b,,c") ((1 : Nat) : Int) = .ok token' ∧
      cstr token' = .ok (str "b")) ∧
    (∃ token', getToken exampleToken (lineBuffer "a,b,,c") ((2 : Nat) : Int) = .ok token' ∧
      cstr token' = .ok (str "c")) :=
  ⟨getToken_stores_kth_token exampleToken (lineBuffer "a,b,,c") 0 (str "a")
      (by decide) (by decide) (by decide) (by decide) (by decide),
    getToken_stores_kth_token exampleToken (lineBuffer "a,b,,c") 1 (str "b")
      (by decide) (by decide) (by decide) (by decide) (by decide),
    getToken_stores_kth_token exampleToken (lineBuffer "a,b,,c") 2 (str "c")
      (by decide) (by decide) (by decide) (by decide) (by decide)⟩

/-- A call of `getSerialInput` on any input either returns, with the arrays
sized, the lengths in range and `historyIndex` in its range, or ends in the
fault `noReturn` of a call of `catchEscapeSequence`. No access falls outside
its array. -/
theorem getSerialInput_inv (c : Console) (h : Int) (a tmo : Bool) (hs : c.Sized)
    (he : c.EndsInRange) (hh : 0 ≤ h ∧ h ≤ COMMAND_HISTORY_LENGTH) :
    (∃ c' h' exit, getSerialInput c h a tmo = .ok (c', h', exit) ∧ c'.Sized ∧
      c'.EndsInRange ∧ 0 ≤ h' ∧ h' ≤ COMMAND_HISTORY_LENGTH ∧ c'.Frame c) ∨
    getSerialInput c h a tmo = .error .noReturn := by
  obtain ⟨st0, e0, hI0, hm, hst0⟩ := init_inv c h hs he hh
  rcases loop_total a _ st0 hI0 hm with ⟨st, e, hI, hfr⟩ | e
  swap
  · right
    simp only [getSerialInput, e0, e, bind, Except.bind]
  left
  obtain ⟨len, h1, _, h3⟩ := final_write_ok st hI
  have hI' := hI
  obtain ⟨⟨⟨s1, s2, s3, s4, s5⟩, he', hh0, hh5, _⟩, _⟩ := hI'
  refine ⟨{ st.con with inputBuffer := st.con.inputBuffer.set len 0 }, st.historyIndex, st.exit,
    by simp only [getSerialInput, e0, e, h1, h3, bind, Except.bind]; rfl,
    ⟨s1, s2, s3, s4, by simpa using s5⟩, he', hh0, hh5, ?_⟩
  rw [hst0] at hfr
  exact hfr

/-! ## Command lookup and history push -/

theorem incrementBufferHistory_loop_ok (k : Nat) (hb : List (List Nat)) (ie : List Int)
    (hk : k < hb.length) (hkl : hb.length = ie.length)
    (hrows : ∀ b ∈ hb, b.length = INPUT_BUFFER_SIZE) :
    ∃ hb' ie', incrementBufferHistory.loop k hb ie = .ok (hb', ie') ∧
      hb'.length = hb.length ∧ ie'.length = ie.length ∧
      ∀ b ∈ hb', b.length = INPUT_BUFFER_SIZE := by
  induction k generalizing hb ie with
  | zero => exact ⟨hb, ie, rfl, rfl, rfl, hrows⟩
  | succ k ih =>
    have h1 : k < hb.length := by omega
    have e1 : ((k + 1 : Nat) : Int) - 1 = (k : Int) := by omega
    have hd : hb[k + 1].length = INPUT_BUFFER_SIZE := hrows _ (List.getElem_mem _)
    have hsrc : hb[k].length = INPUT_BUFFER_SIZE := hrows _ (List.getElem_mem _)
    have h2 : k < ie.length := by omega
    obtain ⟨hb', ie', e, l1, l2, l3⟩ := ih (hb.set (k + 1) hb[k])
      (ie.set (k + 1) ie[k]) (by simpa using h1) (by simpa using hkl)
      (fun b hbm => by
        rcases List.mem_or_eq_of_mem_set hbm with h | h
        · exact hrows b h
        · rw [h]; exact hsrc)
    refine ⟨hb', ie', ?_, by simpa using l1, by simpa using l2, l3⟩
    simp only [incrementBufferHistory.loop, e1, rd_ok hb (k + 1) hk, rd_ok hb k h1,
      bufferCopy_ok _ _ hd hsrc, wr_ok hb (k + 1) _ hk, rd_ok ie k h2,
      wr_ok ie (k + 1) _ (by omega), bind, Except.bind]
    exact e

theorem incrementBufferHistory_ok (c : Console) (h : Int) (hs : c.Sized)
    (hh : 0 ≤ h ∧ h ≤ COMMAND_HISTORY_LENGTH) :
    ∃ hb ie, incrementBufferHistory c h =
        .ok { c with historyBuffers := hb, inputEnds := ie } ∧
      ({ c with historyBuffers := hb, inputEnds := ie } : Console).Sized := by
  obtain ⟨s1, s2, s3, s4, s5⟩ := hs
  obtain ⟨hn, rfl⟩ := Int.eq_ofNat_of_zero_le hh.1
  have hk : hn ≤ COMMAND_HISTORY_LENGTH := by exact_mod_cast hh.2
  have h0 : 0 < c.historyBuffers.length := by omega
  have hs0 : c.historyBuffers[0].length = INPUT_BUFFER_SIZE := s3 _ (List.getElem_mem _)
  have r0 : rd c.historyBuffers 0 = .ok c.historyBuffers[0] := rd_ok _ 0 h0
  have w0 : wr c.historyBuffers 0 c.inputBuffer = .ok (c.historyBuffers.set 0 c.inputBuffer) :=
    wr_ok _ 0 _ h0
  have h1 : hn < c.inputEnds.length := by omega
  have w1 : wr c.inputEnds 0 c.inputEnds[hn] = .ok (c.inputEnds.set 0 c.inputEnds[hn]) :=
    wr_ok _ 0 _ (by omega)
  obtain ⟨hb', ie', e, l1, l2, l3⟩ := incrementBufferHistory_loop_ok COMMAND_HISTORY_LENGTH
    (c.historyBuffers.set 0 c.inputBuffer) (c.inputEnds.set 0 c.inputEnds[hn])
    (by simp; omega) (by simp; omega)
    (fun b hbm => by
      rcases List.mem_or_eq_of_mem_set hbm with h | h
      · exact s3 b h
      · rw [h]; exact s5)
  refine ⟨hb', ie', ?_, s1, by simpa [s2] using l1, l3, by simpa [s4] using l2, s5⟩
  simp only [incrementBufferHistory, r0, bufferCopy_ok _ _ hs0 s5, w0, rd_ok c.inputEnds hn h1,
    w1, e, bind, Except.bind, pure, Except.pure]

theorem strcmpEq_spec (a name n : List Nat) (i : Nat) (h : cstr a = .ok name) :
    strcmpEq a n i = .ok (decide (n = name)) := by
  induction a generalizing name n i with
  | nil => simp [cstr] at h
  | cons b bs ih =>
    by_cases hb : b = 0
    · subst hb
      have hname : name = [] := by
        simp [cstr, List.takeWhile] at h
        exact h
      subst hname
      cases n with
      | nil => simp [strcmpEq]
      | cons x xs => simp [strcmpEq]
    · have hc : cstr bs = .ok (name.tail) ∧ name = b :: name.tail := by
        unfold cstr at h ⊢
        have hbne : (b != 0) = true := by simpa using hb
        have hb0 : (0 == b) = false := by
          simp only [beq_eq_false_iff_ne, ne_eq]; exact fun h => hb h.symm
        simp only [List.contains_cons, hb0, Bool.false_or, List.takeWhile_cons, hbne,
          if_true] at h
        split at h
        · rename_i hcont
          have := Except.ok.inj h
          subst this
          refine ⟨?_, rfl⟩
          rw [if_pos hcont]
          rfl
        · cases h
      cases n with
      | nil =>
        rw [hc.2]
        simp [strcmpEq, hb]
      | cons x xs =>
        rw [strcmpEq]
        by_cases hx : b = x
        · subst hx
          rw [if_pos ⟨rfl, hb⟩, ih name.tail xs (i + 1) hc.1]
          congr 1
          rw [hc.2]
          simp
        · rw [if_neg (by simp [hx])]
          congr 1
          rw [hc.2]
          simp [Ne.symm hx]


theorem find_loop_spec (commands : List Command) (command name : List Nat)
    (hc : cstr command = .ok name) (k idx : Nat) (hk : idx + k ≤ commands.length) :
    ∃ m : Nat, findAndCheckCommandIndex.loop commands command k (idx : Int) = .ok (m : Int) ∧
      idx ≤ m ∧ m ≤ idx + k ∧
      (∀ j, idx ≤ j → j < m → ∀ e, commands[j]? = some e → e.name ≠ name) ∧
      (m < idx + k → ∃ e, commands[m]? = some e ∧ e.name = name) := by
  induction k generalizing idx with
  | zero =>
    exact ⟨idx, rfl, le_refl _, le_refl _, fun j h1 h2 => by omega, fun h => by omega⟩
  | succ k ih =>
    have hi : idx < commands.length := by omega
    have e1 : (idx : Int) + 1 = ((idx + 1 : Nat) : Int) := by omega
    unfold findAndCheckCommandIndex.loop
    simp only [rd_ok commands idx hi, strcmpEq_spec command name _ 0 hc, bind, Except.bind,
      pure, Except.pure, e1]
    by_cases hn : commands[idx].name = name
    · refine ⟨idx, by simp [hn], le_refl _, by omega, fun j h1 h2 => by omega, fun _ =>
        ⟨commands[idx], List.getElem?_eq_getElem hi, hn⟩⟩
    · obtain ⟨m, e, h1, h2, h3, h4⟩ := ih (idx + 1) (by omega)
      have hd : decide (commands[idx].name = name) = false := by simpa using hn
      simp only [hd, Bool.false_eq_true, if_false]
      refine ⟨m, e, by omega, by omega, fun j g1 g2 e' he' => ?_, fun g => h4 (by omega)⟩
      by_cases hj : j = idx
      · subst hj
        rw [List.getElem?_eq_getElem hi] at he'
        cases he'
        exact hn
      · exact h3 j (by omega) g2 e' he'

theorem message_split :
    str "' is not a command. You can use the '@help' command to list all possible commands." =
      [39, 32] ++ str "is not a command" ++
        str ". You can use the '@help' command to list all possible commands." := by
  decide

theorem findAndCheckCommandIndex_unknown (c : Console) (command name : List Nat) (n : Nat)
    (hnum : c.commandNum = (n : Int)) (hn : n ≤ c.commands.length)
    (hc : cstr command = .ok name)
    (hunknown : ∀ e ∈ c.commands.take n, e.name ≠ name) :
    ∃ out, findAndCheckCommandIndex c command =
        .ok ({ c with serial := c.serial.print out }, c.commandNum) ∧
      str "is not a command" <:+: out := by
  obtain ⟨m, e, h1, h2, h3, h4⟩ := find_loop_spec c.commands command name hc n 0 (by omega)
  have hm : m = n := by
    by_contra hne
    obtain ⟨e', he', hname⟩ := h4 (by omega)
    have hmem : e' ∈ c.commands.take n := by
      have : (c.commands.take n)[m]? = some e' := by
        rw [List.getElem?_take, if_pos (by omega)]; exact he'
      exact List.getElem?_mem this
    exact hunknown e' hmem hname
  subst hm
  have z : ((0 : Nat) : Int) = 0 := rfl
  rw [z] at e
  refine ⟨[39] ++ name ++ (str
    "' is not a command. You can use the '@help' command to list all possible commands." ++
      [13, 10]), ?_, ?_⟩
  · simp only [findAndCheckCommandIndex, hnum, Int.toNat_ofNat, e, bind, Except.bind, if_true,
      hc, pure, Except.pure, Serial.println, Serial.print_print]
  · rw [message_split]
    exact ⟨[39] ++ name ++ [39, 32],
      str ". You can use the '@help' command to list all possible commands." ++ [13, 10],
      by simp⟩

theorem dispatch_unknown (c : Console) (h : Int) (command name : List Nat)
    (hs : c.Sized) (hh : 0 ≤ h ∧ h ≤ COMMAND_HISTORY_LENGTH)
    (hnum : 0 ≤ c.commandNum ∧ c.commandNum ≤ MAX_COMMANDS)
    (htok : getToken (uninit c.garbage MAX_PARAMETER_LENGTH) c.inputBuffer 0 = .ok command)
    (hname : cstr command = .ok name)
    (hunknown : ∀ e ∈ c.commands.take c.commandNum.toNat, e.name ≠ name) :
    ∃ c' out, runSerialCommands.dispatch c h = .ok c' ∧ c'.Frame c ∧
      c'.serial = c.serial.print out ∧ str "is not a command" <:+: out := by
  obtain ⟨n, hn⟩ := Int.eq_ofNat_of_zero_le hnum.1
  have hs' := hs
  obtain ⟨s1, s2, s3, s4, s5⟩ := hs'
  have hnl : n ≤ c.commands.length := by
    have := hnum.2
    rw [s1]; omega
  obtain ⟨out, e, hinf⟩ := findAndCheckCommandIndex_unknown c command name n hn hnl hname
    (by simpa [hn] using hunknown)
  obtain ⟨hb, ie, e2, _⟩ := incrementBufferHistory_ok { c with serial := c.serial.print out } h
    ⟨s1, s2, s3, s4, s5⟩ hh
  refine ⟨{ c with serial := c.serial.print out, historyBuffers := hb, inputEnds := ie }, out,
    ?_, ⟨rfl, rfl, rfl, rfl⟩, rfl, hinf⟩
  simp only [runSerialCommands.dispatch, htok, e, bind, Except.bind, ne_eq, not_true_eq_false,
    if_false]
  exact e2

/-- The report of an unknown command, for the lines from which `getToken`
extracts token 0 without a fault (a first run shorter than
`MAX_PARAMETER_LENGTH`): when the line read at the prompt is complete and
that token is the name of no registered command, the dispatcher writes output
containing `is not a command`, records no handler call, leaves `commandNum`
unchanged, and the loop of `runSerialCommands` goes on with its next
iteration (which prints the next prompt) instead of exiting. -/
theorem unknown_command_is_reported (c c1 : Console) (h : Int) (fuel : Nat)
    (command name : List Nat)
    (hs : c.Sized) (he : c.EndsInRange)
    (hnum : 0 ≤ c.commandNum ∧ c.commandNum ≤ MAX_COMMANDS)
    (hget : getSerialInput { c with serial := c.serial.print [ENTRY_PREFIX] } 0 true true =
      .ok (c1, h, false))
    (htok : getToken (uninit c1.garbage MAX_PARAMETER_LENGTH) c1.inputBuffer 0 = .ok command)
    (hname : cstr command = .ok name)
    (hunknown : ∀ e ∈ c.commands.take c.commandNum.toNat, e.name ≠ name) :
    ∃ c2, runSerialCommands.loop (fuel + 1) c = runSerialCommands.loop fuel c2 ∧
      runSerialCommands.dispatch { c1 with serial := c1.serial.println [] } h = .ok c2 ∧
      str "is not a command" <:+: c2.serial.tx ∧
      c2.calls = c.calls ∧ c2.commandNum = c.commandNum := by
  rcases getSerialInput_inv
    { c with serial := c.serial.print [ENTRY_PREFIX] } 0 true true hs he
    ⟨le_refl _, by simp [COMMAND_HISTORY_LENGTH]⟩ with ⟨c1', h', ex, e, hs1, _, hh0, hh5, hfr⟩ | e
  swap
  · rw [hget] at e
    cases e
  rw [hget] at e
  cases e
  obtain ⟨f1, f2, f3, f4⟩ := hfr
  obtain ⟨c2, out, e2, hfr2, hser, hinf⟩ := dispatch_unknown
    { c1 with serial := c1.serial.println [] } h command name hs1 ⟨hh0, hh5⟩
    (by show 0 ≤ c1.commandNum ∧ c1.commandNum ≤ MAX_COMMANDS; rw [f2]; exact hnum)
    htok hname
    (by show ∀ e ∈ c1.commands.take c1.commandNum.toNat, e.name ≠ name
        rw [f1, f2]; exact hunknown)
  refine ⟨c2, ?_, e2, ?_, hfr2.2.2.1.trans f3, hfr2.2.1.trans f2⟩
  · rw [runSerialCommands.loop]
    simp only [hget, bind, Except.bind, pure, Except.pure, e2]
    rfl
  · rw [hser]
    obtain ⟨s, t, hst⟩ := hinf
    exact ⟨(c1.serial.println []).tx ++ s, t, by simp [Serial.print, ← hst]⟩

set_option maxRecDepth 100000 in
theorem unknown_command_is_reported_witness :
    ∃ c2, runSerialCommands.loop (1 + 1) exampleBogus = runSerialCommands.loop 1 c2 ∧
      runSerialCommands.dispatch
        { exampleBogusRead with serial := exampleBogusRead.serial.println [] } 0 = .ok c2 ∧
      str "is not a command" <:+: c2.serial.tx ∧
      c2.calls = exampleBogus.calls ∧ c2.commandNum = exampleBogus.commandNum :=
  unknown_command_is_reported exampleBogus exampleBogusRead 0 1
    (str "bogus" ++ 0 :: List.replicate 9 7) (str "bogus")
    (by decide) (by decide) (by decide) (by rfl) (by decide) (by decide) (by decide)

set_option maxRecDepth 1000000 in
/-- Claim C10 fails on a line whose token 0 has `MAX_PARAMETER_LENGTH`
characters or more. The line of twenty characters `a` has that one token,
which is the name of no registered command; the dispatcher extracts it with
`getToken` into the array `char command[MAX_PARAMETER_LENGTH]`, and `getToken`
writes the terminator at index `MAX_PARAMETER_LENGTH`, outside the array: the
dispatcher, and the session that reads the line at the prompt, end in the
fault of that write before anything is reported. -/
theorem long_unknown_name_overruns_command :
    tokens (lineOf (exampleDispatch "aaaaaaaaaaaaaaaaaaaa").inputBuffer) =
      [str "aaaaaaaaaaaaaaaaaaaa"] ∧
    (∀ e ∈ exampleConsole.commands, e.name ≠ str "aaaaaaaaaaaaaaaaaaaa") ∧
    (runSerialCommands.dispatch (exampleDispatch "aaaaaaaaaaaaaaaaaaaa") 0).map
        (fun c => c.serial.tx) = .error (.write 15) ∧
    (runSerialCommands exampleLongName).map (fun c => c.serial.tx) = .error (.write 15) := by
  refine ⟨?_, ?_, ?_, ?_⟩ <;> decide

/-- Claim C6, evaluated where the code departs from it: the line `a,` has one
token, yet `getToken(token, line, 1)` stores `a,` instead of the empty
token; the line `,` has no token, yet `getToken(token, line, 0)` stores `,`. -/
theorem getToken_after_trailing_delimiter :
    (tokens (lineOf (lineBuffer "a,"))).length = 1 ∧
    getToken exampleToken (lineBuffer "a,") 1 = .ok (str "a," ++ 0 :: List.replicate 12 7) ∧
    (tokens (lineOf (lineBuffer ","))).length = 0 ∧
    getToken exampleToken (lineBuffer ",") 0 = .ok (str "," ++ 0 :: List.replicate 13 7) := by
  decide

/-- Claim C7, evaluated where the code departs from it: for a run of
`MAX_PARAMETER_LENGTH` characters `getToken` copies all of them and then writes
the terminator at index `MAX_PARAMETER_LENGTH`, outside the token array. -/
theorem getToken_long_run_overruns_token :
    exampleToken.length = MAX_PARAMETER_LENGTH ∧
    getToken exampleToken (lineBuffer "aaaaaaaaaaaaaaa") 0 = .error (.write 15) := by
  decide

set_option maxRecDepth 100000 in
/-- Claim C8, evaluated where the code departs from it: `echo` requires one
parameter and the line `echo,` has no token after the name, yet
`getParametersFromInput` returns true with `echo,` as the parameter, and the
dispatcher calls the handler. -/
theorem too_few_parameters_accepted :
    tokens (lineOf (exampleDispatch "echo,").inputBuffer) = [str "echo"] ∧
    (getParametersFromInput (exampleDispatch "echo,")
      (List.replicate MAX_PARAMETERS exampleToken) 0).map (fun r => r.2) =
      .ok ((str "echo," ++ 0 :: List.replicate 9 7) :: List.replicate 5 exampleToken, true) ∧
    (runSerialCommands.dispatch (exampleDispatch "echo,") 0).map (fun c => c.calls) =
      .ok [(0, (str "echo," ++ 0 :: List.replicate 9 7) :: List.replicate 5 exampleToken)] := by
  decide

/-! ## Parameters -/

theorem scan_past (ln r : List Nat) (hno0 : ∀ b ∈ ln, b ≠ 0)
    (hL : ln.length ≤ INPUT_BUFFER_SIZE - 1) (hend : ln.getLast? ≠ some DELIMITER0) :
    ∀ (fuel i start tn : Nat) (cur : List Nat),
      1 ≤ i → i ≤ ln.length → fuel + i = INPUT_BUFFER_SIZE - 1 →
      (ln[i - 1]? ≠ some DELIMITER0 → cur ≠ []) →
      (ln[i - 1]? = some DELIMITER0 → cur = []) →
      (runsFrom (ln.drop i) cur).length ≤ tn →
      ∃ i' start' tn', getToken.scan (ln ++ 0 :: r) fuel i start (tn : Int) =
        .ok (i', start', tn') ∧ 0 < tn' := by
  have hlast : ∀ i, i = ln.length → 1 ≤ i → ln[i - 1]? ≠ some DELIMITER0 := by
    intro i hi h1
    rw [hi, ← List.getLast?_eq_getElem?]
    exact hend
  intro fuel
  induction fuel with
  | zero =>
    intro i start tn cur h1 hi hf hA hB hR
    have hiL : i = ln.length := by omega
    have hc := hA (hlast i hiL h1)
    rw [hiL, List.drop_length] at hR
    simp only [runsFrom, if_neg hc, List.length_singleton] at hR
    exact ⟨i, start, tn, rfl, by omega⟩
  | succ fuel ih =>
    intro i start tn cur h1 hi hf hA hB hR
    by_cases hiL : i = ln.length
    · have hc := hA (hlast i hiL h1)
      rw [hiL, List.drop_length] at hR
      simp only [runsFrom, if_neg hc, List.length_singleton] at hR
      have h0 : (ln ++ 0 :: r)[i]? = some 0 := by
        rw [hiL, List.getElem?_append_right (le_refl _)]; simp
      refine ⟨i, start, tn, ?_, by omega⟩
      simp [getToken.scan, rd_of_getElem? _ _ _ h0, bind, Except.bind, pure, Except.pure]
    · have hlt : i < ln.length := by omega
      have hc : (ln ++ 0 :: r)[i]? = some ln[i] := by
        rw [List.getElem?_append_left hlt, List.getElem?_eq_getElem hlt]
      have hlt1 : i - 1 < ln.length := by omega
      have hp : (ln ++ 0 :: r)[i - 1]? = some ln[i - 1] := by
        rw [List.getElem?_append_left hlt1, List.getElem?_eq_getElem hlt1]
      have hc0 : ln[i] ≠ 0 := hno0 _ (List.getElem_mem _)
      have e1 : ((i : Nat) : Int) - 1 = ((i - 1 : Nat) : Int) := by omega
      have hprev : ln[i - 1]? = some ln[i - 1] := List.getElem?_eq_getElem hlt1
      have hnext : ln[i + 1 - 1]? = some ln[i] := by
        simp only [Nat.add_sub_cancel]; exact List.getElem?_eq_getElem hlt
      rw [List.drop_eq_getElem_cons hlt] at hR
      unfold getToken.scan
      simp only [rd_of_getElem? _ _ _ hc, e1, rd_of_getElem? _ _ _ hp, bind, Except.bind, pure,
        Except.pure, if_neg hc0]
      by_cases hcD : ln[i] = DELIMITER0
      · by_cases hpD : ln[i - 1] = DELIMITER0
        · have hcur : cur = [] := hB (by rw [hprev, hpD])
          rw [if_neg (by simp [hpD]), if_neg (by simp [hcD])]
          simp only [runsFrom, hcD, if_true, hcur] at hR
          exact ih (i + 1) start tn [] (by omega) hlt (by omega)
            (fun h => absurd (by rw [hnext, hcD]) h) (fun _ => rfl) hR
        · have hne : cur ≠ [] := hA (by rw [hprev]; simpa using hpD)
          rw [if_pos ⟨hcD, hpD⟩]
          simp only [runsFrom, hcD, if_true, if_neg hne, List.length_cons] at hR
          obtain ⟨m, rfl⟩ : ∃ m, tn = m + 1 := ⟨tn - 1, by omega⟩
          have e2 : ((m + 1 : Nat) : Int) - 1 = (m : Int) := by omega
          rw [if_neg (by omega), e2]
          exact ih (i + 1) start m [] (by omega) hlt (by omega)
            (fun h => absurd (by rw [hnext, hcD]) h) (fun _ => rfl) (by omega)
      · rw [if_neg (by simp [hcD])]
        simp only [runsFrom, if_neg hcD] at hR
        by_cases hpD : ln[i - 1] = DELIMITER0
        · rw [if_pos ⟨hcD, hpD⟩]
          exact ih (i + 1) i tn (cur ++ [ln[i]]) (by omega) hlt (by omega)
            (fun _ => by simp)
            (fun h => by rw [hnext] at h; exact absurd (Option.some.inj h) hcD) hR
        · rw [if_neg (by simp [hpD])]
          exact ih (i + 1) start tn (cur ++ [ln[i]]) (by omega) hlt (by omega)
            (fun _ => by simp)
            (fun h => by rw [hnext] at h; exact absurd (Option.some.inj h) hcD) hR

/-- The token `getToken` stores for an index past the last token of a line
that does not end with the delimiter is empty. -/
theorem getToken_past (token ln r : List Nat) (k : Nat)
    (htok : 0 < token.length)
    (hL : ln.length ≤ INPUT_BUFFER_SIZE - 1) (hno0 : ∀ b ∈ ln, b ≠ 0)
    (hend : ln.getLast? ≠ some DELIMITER0)
    (hk : (tokens ln).length ≤ k) :
    getToken token (ln ++ 0 :: r) (k : Int) = .ok (token.set 0 0) := by
  rw [tokens_eq_runsFrom] at hk
  have hk0 : ¬ ((k : Int) < 0) := by omega
  have w0 : wr token 0 0 = .ok (token.set 0 0) := wr_ok token 0 0 htok
  cases ln with
  | nil =>
    have r0 : rd ([] ++ 0 :: r) 0 = .ok 0 := by simp [rd]
    unfold getToken
    simp only [if_neg hk0, r0, bind, Except.bind, pure, Except.pure, if_true, w0]
  | cons c0 tl =>
    have hc0 : c0 ≠ 0 := hno0 c0 (List.mem_cons_self _ _)
    have r0 : rd (c0 :: tl ++ 0 :: r) 0 = .ok c0 := by simp [rd]
    obtain ⟨i', start', tn', es, hpos⟩ := scan_past (c0 :: tl) r hno0 hL hend
      (INPUT_BUFFER_SIZE - 1 - 1) 1 0 k (if c0 = DELIMITER0 then [] else [c0])
      (le_refl 1) (by simp) (by simp [INPUT_BUFFER_SIZE])
      (fun h => by
        have : c0 ≠ DELIMITER0 := by simpa using h
        simp [this])
      (fun h => by
        have : c0 = DELIMITER0 := by simpa using h
        simp [this])
      (by
        simp only [runsFrom] at hk
        by_cases hd : c0 = DELIMITER0
        · simpa [hd] using hk
        · simpa [hd] using hk)
    unfold getToken
    simp only [if_neg hk0, r0, bind, Except.bind, pure, Except.pure, if_neg hc0, es,
      if_pos hpos, w0]

theorem findAndCheckCommandIndex_found (c : Console) (command name : List Nat) (n m : Nat)
    (entry : Command)
    (hnum : c.commandNum = (n : Int)) (hn : n ≤ c.commands.length)
    (hc : cstr command = .ok name) (hm : m < n)
    (hentry : c.commands[m]? = some entry) (hname : entry.name = name)
    (hfirst : ∀ j < m, ∀ e, c.commands[j]? = some e → e.name ≠ name) :
    findAndCheckCommandIndex c command = .ok (c, (m : Int)) := by
  obtain ⟨m', e, h1, h2, h3, h4⟩ := find_loop_spec c.commands command name hc n 0 (by omega)
  have hmm : m' = m := by
    have hle : m' ≤ m := by
      by_contra hgt
      exact h3 m (Nat.zero_le _) (by omega) entry hentry hname
    by_contra hne
    obtain ⟨e', he', hn'⟩ := h4 (by omega)
    exact hfirst m' (by omega) e' he' hn'
  subst hmm
  have z : ((0 : Nat) : Int) = 0 := rfl
  rw [z] at e
  have hne : ¬ ((m' : Int) = (n : Int)) := by omega
  simp only [findAndCheckCommandIndex, hnum, Int.toNat_ofNat, e, bind, Except.bind, hne,
    if_false, pure, Except.pure]

theorem tokens_ne_nil (ln t : List Nat) (h : t ∈ tokens ln) : t ≠ [] := by
  have := (List.mem_filter.mp h).2
  simpa using this

theorem cstr_set_zero (row : List Nat) (h : 0 < row.length) : cstr (row.set 0 0) = .ok [] := by
  cases row with
  | nil => simp at h
  | cons a t => exact cstr_prefix [] t (fun b hb => by simp at hb)

/-- The loop of `getParametersFromInput` on a line whose tokens up to index
`maxParameters` are short and which has the required tokens. -/
theorem getParametersFromInput_loop_ok (c : Console) (m : Nat) (entry : Command)
    (ln r : List Nat)
    (hbuf : c.inputBuffer = ln ++ 0 :: r)
    (hL : ln.length ≤ INPUT_BUFFER_SIZE - 1) (hno0 : ∀ b ∈ ln, b ≠ 0)
    (hentry : c.commands[m]? = some entry)
    (hmax : entry.maxParameters ≤ MAX_PARAMETERS)
    (henough : entry.minParameters + 1 ≤ (tokens ln).length)
    (hshort : ∀ k ≤ entry.maxParameters, ∀ t, (tokens ln)[k]? = some t →
      t.length < MAX_PARAMETER_LENGTH)
    (hend : ln.getLast? ≠ some DELIMITER0 ∨ entry.maxParameters < (tokens ln).length) :
    ∀ (k p : Nat) (parameters : Parameters),
      p + k = entry.maxParameters → parameters.length = MAX_PARAMETERS →
      (∀ row ∈ parameters, row.length = MAX_PARAMETER_LENGTH) →
      ∃ parameters', getParametersFromInput.loop c (m : Int) k p parameters =
          .ok (c, parameters', true) ∧
        (∀ q, p ≤ q → q < entry.maxParameters → ∃ row, parameters'[q]? = some row ∧
          cstr row = .ok ((tokens ln)[q + 1]?.getD [])) ∧
        (∀ q, q < p → parameters'[q]? = parameters[q]?) := by
  intro k
  induction k with
  | zero =>
    intro p parameters hp _ _
    exact ⟨parameters, rfl, fun q h1 h2 => by omega, fun q _ => rfl⟩
  | succ k ih =>
    intro p parameters hp hlen hrows
    have hpl : p < parameters.length := by omega
    have hrow : parameters[p].length = MAX_PARAMETER_LENGTH := hrows _ (List.getElem_mem _)
    have e1 : (p : Int) + 1 = ((p + 1 : Nat) : Int) := by omega
    have key : ∃ row', getToken parameters[p] c.inputBuffer ((p + 1 : Nat) : Int) = .ok row' ∧
        row'.length = MAX_PARAMETER_LENGTH ∧
        cstr row' = .ok ((tokens ln)[p + 1]?.getD []) ∧
        (row'[0]? = some 0 → entry.minParameters ≤ p) := by
      rw [hbuf]
      by_cases hex : p + 1 < (tokens ln).length
      · have ht : (tokens ln)[p + 1]? = some (tokens ln)[p + 1] := List.getElem?_eq_getElem hex
        obtain ⟨rest, e, hl, h0⟩ := getToken_token parameters[p] ln r (p + 1) _ hrow hL hno0 ht
          (hshort (p + 1) (by omega) _ ht)
        refine ⟨_, e, by rw [hl, hrow], by rw [ht]; exact cstr_prefix _ rest h0, fun hz => ?_⟩
        have hne := tokens_ne_nil ln _ (List.getElem_mem hex)
        cases hrun : (tokens ln)[p + 1] with
        | nil => exact absurd hrun hne
        | cons a t =>
          rw [hrun] at hz h0
          simp only [List.cons_append, List.getElem?_cons_zero, Option.some.injEq] at hz
          exact absurd hz (h0 a (List.mem_cons_self _ _))
      · have hend' : ln.getLast? ≠ some DELIMITER0 := by
          rcases hend with h | h
          · exact h
          · omega
        have hpos : 0 < parameters[p].length := by rw [hrow]; simp [MAX_PARAMETER_LENGTH]
        refine ⟨_, getToken_past parameters[p] ln r (p + 1) hpos hL hno0 hend' (by omega),
          by simpa using hrow, ?_, fun _ => by omega⟩
        rw [List.getElem?_eq_none (by omega)]
        exact cstr_set_zero _ hpos
    obtain ⟨row', eg, hl', hcs, hfirst⟩ := key
    have hr0 : 0 < row'.length := by rw [hl']; simp [MAX_PARAMETER_LENGTH]
    obtain ⟨ps, e, h1, h2⟩ := ih (p + 1) (parameters.set p row') (by omega)
      (by simpa using hlen)
      (fun row hrowm => by
        rcases List.mem_or_eq_of_mem_set hrowm with h | h
        · exact hrows row h
        · rw [h]; exact hl')
    have hget : (parameters.set p row')[p]? = some row' := by simp [hpl]
    have hcond : ¬ (row'[0] = 0 ∧ p < entry.minParameters) := by
      rintro ⟨hz, hlt⟩
      have := hfirst (by rw [List.getElem?_eq_getElem hr0, hz])
      omega
    have r00 : rd row' 0 = .ok row'[0] := rd_ok row' 0 hr0
    refine ⟨ps, ?_, fun q g1 g2 => ?_, fun q g => ?_⟩
    · unfold getParametersFromInput.loop
      simp only [rd_ok parameters p hpl, e1, eg, wr_ok parameters p row' hpl,
        rd_of_getElem? _ _ _ hget, r00, rd_of_getElem? _ _ _ hentry, bind,
        Except.bind, if_neg hcond]
      exact e
    · by_cases hq : q = p
      · subst hq
        exact ⟨row', by rw [h2 q (by omega)]; exact hget, hcs⟩
      · exact h1 q (by omega) g2
    · rw [h2 q (by omega), List.getElem?_set_ne (by omega)]

/-- Claim C9, amended: for a registered command with
`minParameters <= maxParameters <= MAX_PARAMETERS` and a finalized line whose
token 0 is the command's name, which has at least `minParameters` tokens after
the name, whose tokens up to index `maxParameters` are shorter than
`MAX_PARAMETER_LENGTH`, and which does not end with the delimiter unless it
has at least `maxParameters` tokens after the name, the dispatcher calls the
handler of the first command with that name exactly once, with `parameters[p]`
holding token `p+1` of the line for every `p < maxParameters` (the empty
string where the line has no such token), and leaves `commandNum` unchanged. -/
theorem handler_invoked_with_tokens (c : Console) (h : Int) (m : Nat) (entry : Command)
    (hs : c.Sized) (hh : 0 ≤ h ∧ h ≤ COMMAND_HISTORY_LENGTH)
    (hnum : (m : Int) < c.commandNum ∧ c.commandNum ≤ MAX_COMMANDS)
    (hterm : (lineOf c.inputBuffer).length ≤ INPUT_BUFFER_SIZE - 1)
    (hentry : c.commands[m]? = some entry)
    (hfirst : ∀ j < m, ∀ e, c.commands[j]? = some e → e.name ≠ entry.name)
    (harity : entry.minParameters ≤ entry.maxParameters ∧
      entry.maxParameters ≤ MAX_PARAMETERS)
    (hname : (tokens (lineOf c.inputBuffer))[0]? = some entry.name)
    (henough : entry.minParameters + 1 ≤ (tokens (lineOf c.inputBuffer)).length)
    (hshort : ∀ k ≤ entry.maxParameters,
      ((tokens (lineOf c.inputBuffer))[k]?.getD []).length < MAX_PARAMETER_LENGTH)
    (hend : (lineOf c.inputBuffer).getLast? ≠ some DELIMITER0 ∨
      entry.maxParameters < (tokens (lineOf c.inputBuffer)).length) :
    ∃ c' parameters, runSerialCommands.dispatch c h = .ok c' ∧
      c'.calls = c.calls ++ [((m : Int), parameters)] ∧
      (∀ p < entry.maxParameters, ∃ row, parameters[p]? = some row ∧
        cstr row = .ok ((tokens (lineOf c.inputBuffer))[p + 1]?.getD [])) ∧
      c'.serial = c.serial.print (entry.function parameters) ∧
      c'.commandNum = c.commandNum := by
  have hs' := hs
  obtain ⟨s1, s2, s3, s4, s5⟩ := hs'
  obtain ⟨⟨r, hsplit⟩, hno0⟩ := lineOf_spec c.inputBuffer (by
    simp only [s5, INPUT_BUFFER_SIZE] at hterm ⊢; omega)
  have hshort' : ∀ k ≤ entry.maxParameters, ∀ t, (tokens (lineOf c.inputBuffer))[k]? = some t →
      t.length < MAX_PARAMETER_LENGTH := by
    intro k hk t ht
    have := hshort k hk
    rwa [ht] at this
  -- the command name
  obtain ⟨rest, e0, _, h0⟩ := getToken_token (uninit c.garbage MAX_PARAMETER_LENGTH)
    (lineOf c.inputBuffer) r 0 entry.name (by simp [uninit]) hterm hno0 hname
    (hshort' 0 (Nat.zero_le _) _ hname)
  rw [← hsplit] at e0
  have etok : getToken (uninit c.garbage MAX_PARAMETER_LENGTH) c.inputBuffer 0 =
      .ok (entry.name ++ 0 :: rest) := e0
  have hcs : cstr (entry.name ++ 0 :: rest) = .ok entry.name := cstr_prefix _ rest h0
  -- the lookup
  have hn0 : 0 ≤ c.commandNum := by omega
  obtain ⟨n, hn⟩ := Int.eq_ofNat_of_zero_le hn0
  have hnl : n ≤ c.commands.length := by
    have := hnum.2
    rw [s1]; omega
  have efind := findAndCheckCommandIndex_found c (entry.name ++ 0 :: rest) entry.name n m entry
    hn hnl hcs (by omega) hentry rfl hfirst
  -- the history
  obtain ⟨hb, ie, ehist, _⟩ := incrementBufferHistory_ok c h hs hh
  -- the parameters
  obtain ⟨ps, eloop, hps, _⟩ := getParametersFromInput_loop_ok
    { c with historyBuffers := hb, inputEnds := ie } m entry (lineOf c.inputBuffer) r hsplit
    hterm hno0 hentry harity.2 henough hshort' hend entry.maxParameters 0
    (List.replicate MAX_PARAMETERS (uninit c.garbage MAX_PARAMETER_LENGTH)) (Nat.zero_add _)
    (by simp) (fun row hrow => by
      rw [List.eq_of_mem_replicate hrow]; simp [uninit])
  have hne : ¬ ((m : Int) = c.commandNum) := by omega
  have rentry : rd ({ c with historyBuffers := hb, inputEnds := ie } : Console).commands (m : Int)
      = .ok entry := rd_of_getElem? _ _ _ hentry
  refine ⟨{ c with
      historyBuffers := hb
      inputEnds := ie
      serial := c.serial.print (entry.function ps)
      calls := c.calls ++ [((m : Int), ps)] }, ps, ?_, rfl, fun p hp => hps p (Nat.zero_le _) hp,
    rfl, rfl⟩
  simp only [runSerialCommands.dispatch, etok, efind, bind, Except.bind, ne_eq, hne,
    not_false_eq_true, if_true, ehist, getParametersFromInput, rentry, eloop, pure, Except.pure]

theorem handler_invoked_with_tokens_witness :
    ∃ c' parameters, runSerialCommands.dispatch (exampleDispatch "echo,hi") 0 = .ok c' ∧
      c'.calls = (exampleDispatch "echo,hi").calls ++ [(((0 : Nat) : Int), parameters)] ∧
      (∀ p < echoCommand.maxParameters, ∃ row, parameters[p]? = some row ∧
        cstr row =
          .ok ((tokens (lineOf (exampleDispatch "echo,hi").inputBuffer))[p + 1]?.getD [])) ∧
      c'.serial = (exampleDispatch "echo,hi").serial.print (echoCommand.function parameters) ∧
      c'.commandNum = (exampleDispatch "echo,hi").commandNum :=
  handler_invoked_with_tokens (exampleDispatch "echo,hi") 0 0 echoCommand
    (by decide) (by decide) (by decide) (by decide) rfl
    (fun j hj => absurd hj (Nat.not_lt_zero j)) (by decide) (by decide) (by decide) (by decide)
    (by decide)

set_option maxRecDepth 100000 in
/-- Claim C9 as stated fails. The line `pair,hi,` has the name and one token
after it, and `pair` takes up to two parameters: the handler is called with
`parameters[1]` holding `hi,` where the line has no token 2. The line
`echo,aaaaaaaaaaaaaaaa` has a token of 16 characters: `parameters[0]` cannot
hold it, and the write of its terminator falls outside the array. -/
theorem parameters_differ_from_tokens :
    (tokens (lineOf examplePair.inputBuffer) = [str "pair", str "hi"] ∧
      (runSerialCommands.dispatch examplePair 0).map (fun c => c.calls) =
        .ok [(0, (str "hi" ++ 0 :: List.replicate 12 7) ::
          (str "hi," ++ 0 :: List.replicate 11 7) :: List.replicate 4 exampleToken)] ∧
      cstr (str "hi," ++ 0 :: List.replicate 11 7) = .ok (str "hi,")) ∧
    (tokens (lineOf (exampleDispatch "echo,aaaaaaaaaaaaaaaa").inputBuffer) =
        [str "echo", str "aaaaaaaaaaaaaaaa"] ∧
      (runSerialCommands.dispatch (exampleDispatch "echo,aaaaaaaaaaaaaaaa") 0).map
        (fun c => c.calls) = .error (.write 15)) := by
  decide

/-! ## The first command of a given name -/

/-- Claim C19: for a command table with `commandNum <= MAX_COMMANDS` and a
name given in a terminated `char` array, `findAndCheckCommandIndex` returns an
index `m <= commandNum`; when `m < commandNum` the command at `m` has exactly
that name and no command before it has; and `m` is `commandNum` if and only if
no registered command has that name. -/
theorem find_returns_smallest_match (c : Console) (command name : List Nat) (n : Nat)
    (hnum : c.commandNum = (n : Int)) (hn : n ≤ MAX_COMMANDS)
    (hlen : c.commands.length = MAX_COMMANDS)
    (hc : cstr command = .ok name) :
    ∃ (c' : Console) (m : Nat), findAndCheckCommandIndex c command = .ok (c', (m : Int)) ∧
      m ≤ n ∧
      (m < n → (∃ e, c.commands[m]? = some e ∧ e.name = name) ∧
        ∀ j < m, ∀ e, c.commands[j]? = some e → e.name ≠ name) ∧
      ((m : Int) = c.commandNum ↔ ∀ j < n, ∀ e, c.commands[j]? = some e → e.name ≠ name) := by
  obtain ⟨m, e, h1, h2, h3, h4⟩ := find_loop_spec c.commands command name hc n 0 (by omega)
  have hloop : findAndCheckCommandIndex.loop c.commands command c.commandNum.toNat 0 =
      .ok (m : Int) := by
    rw [hnum]; exact e
  have hiff : (m : Int) = c.commandNum ↔
      ∀ j < n, ∀ e, c.commands[j]? = some e → e.name ≠ name := by
    rw [hnum]
    constructor
    · intro hm j hj e' he'
      exact h3 j (Nat.zero_le _) (by omega) e' he'
    · intro hall
      by_contra hne
      have hlt : m < 0 + n := by omega
      obtain ⟨e', he', hname⟩ := h4 hlt
      exact hall m (by omega) e' he' hname
  have hfirst : m < n → (∃ e, c.commands[m]? = some e ∧ e.name = name) ∧
      ∀ j < m, ∀ e, c.commands[j]? = some e → e.name ≠ name :=
    fun hlt => ⟨h4 (by omega), fun j hj e' he' => h3 j (Nat.zero_le _) hj e' he'⟩
  have hres : ∃ c', findAndCheckCommandIndex c command = .ok (c', (m : Int)) := by
    unfold findAndCheckCommandIndex
    simp only [hloop, hc, bind, Except.bind, pure, Except.pure]
    split_ifs
    · exact ⟨_, rfl⟩
    · exact ⟨_, rfl⟩
  obtain ⟨c', hc'⟩ := hres
  exact ⟨c', m, hc', by omega, hfirst, hiff⟩

theorem find_returns_smallest_match_witness :
    ∃ (c' : Console) (m : Nat),
      findAndCheckCommandIndex exampleConsole (str "echo" ++ 0 :: List.replicate 10 7) =
        .ok (c', (m : Int)) ∧
      m ≤ 1 ∧
      (m < 1 → (∃ e, exampleConsole.commands[m]? = some e ∧ e.name = str "echo") ∧
        ∀ j < m, ∀ e, exampleConsole.commands[j]? = some e → e.name ≠ str "echo") ∧
      ((m : Int) = exampleConsole.commandNum ↔
        ∀ j < 1, ∀ e, exampleConsole.commands[j]? = some e → e.name ≠ str "echo") :=
  find_returns_smallest_match exampleConsole (str "echo" ++ 0 :: List.replicate 10 7)
    (str "echo") 1 rfl (by decide) (by decide) (by decide)

/-! ## Escape sequences in the line editor -/

/-- The reading loop of `catchEscapeSequence` on a burst of two bytes or
more. -/
theorem readLoop_two (es : List Nat) (s : Serial) (t1 b1 t2 b2 : Nat) (rest : List (Nat × Nat))
    (hes : es.length = 2) (hrx : s.rx = (t1, b1) :: (t2, b2) :: rest)
    (h1 : t1 ≤ s.now) (h2 : t2 ≤ s.now + ESC_CODE_MS) :
    catchEscapeSequence.readLoop MAX_ESC_CODE_LENGTH 0 es s =
      .ok ([b1, b2], { s with now := s.now + ESC_CODE_MS + ESC_CODE_MS, rx := rest }) := by
  match es, hes with
  | [x, y], _ =>
    have a1 : s.available = true := Serial.available_cons s t1 b1 _ hrx h1
    have r1 : s.read = (b1, { s with rx := (t2, b2) :: rest }) := Serial.read_cons s t1 b1 _ hrx
    have a2 : (({ s with rx := (t2, b2) :: rest } : Serial).delay ESC_CODE_MS).available = true :=
      Serial.available_cons _ t2 b2 rest rfl h2
    have r2 : (({ s with rx := (t2, b2) :: rest } : Serial).delay ESC_CODE_MS).read =
        (b2, { s with now := s.now + ESC_CODE_MS, rx := rest }) := rfl
    simp only [MAX_ESC_CODE_LENGTH, catchEscapeSequence.readLoop, a1, r1, a2, r2, if_true, wr,
      bind, Except.bind]
    rfl

theorem parse_left_at_zero (c : Console) (h : Int) (a : Bool) :
    catchEscapeSequence.parse c [91, 68] h 0 a = .ok (c, h, 0) := by
  simp [catchEscapeSequence.parse, rd, bind, Except.bind, pure, Except.pure]

theorem parse_history_off (c : Console) (e1 : Nat) (h ci : Int) (he : e1 = 65 ∨ e1 = 66) :
    catchEscapeSequence.parse c [91, e1] h ci false = .ok (c, h, ci) := by
  rcases he with rfl | rfl <;>
    simp [catchEscapeSequence.parse, rd, bind, Except.bind, pure, Except.pure]

/-- The statements of `catchEscapeSequence` on a burst of two bytes or more:
the two bytes are parsed, and nothing is written before the parse. -/
theorem catchEscapeSequence_body_two (c : Console) (h ci : Int) (a : Bool)
    (t1 b1 t2 b2 : Nat) (rest : List (Nat × Nat))
    (hrx : c.serial.rx = (t1, b1) :: (t2, b2) :: rest)
    (h1 : t1 ≤ c.serial.now) (h2 : t2 ≤ c.serial.now + ESC_CODE_MS) :
    ∃ s, catchEscapeSequence.body c h ci a =
        catchEscapeSequence.parse { c with serial := s } [b1, b2] h ci a ∧
      s.tx = c.serial.tx := by
  have hread := readLoop_two (uninit c.garbage MAX_ESC_CODE_LENGTH) c.serial t1 b1 t2 b2 rest
    rfl hrx h1 h2
  refine ⟨catchEscapeSequence.drain rest.length
    { c.serial with now := c.serial.now + ESC_CODE_MS + ESC_CODE_MS, rx := rest }, ?_,
    (drain_ok _ _).1⟩
  simp only [catchEscapeSequence.body, hread, bind, Except.bind]

/-- The statements of `catchEscapeSequence` on the cursor-left sequence `[`
`D` with the cursor at 0: when control reaches the closing brace the console
is as it was but for the clock and the bytes consumed, and nothing has been
written. -/
theorem body_left_at_zero (c : Console) (h : Int) (a : Bool) (t1 t2 : Nat)
    (rest : List (Nat × Nat))
    (hrx : c.serial.rx = (t1, 91) :: (t2, 68) :: rest)
    (h1 : t1 ≤ c.serial.now) (h2 : t2 ≤ c.serial.now + ESC_CODE_MS) :
    ∃ s, catchEscapeSequence.body c h 0 a = .ok ({ c with serial := s }, h, 0) ∧
      s.tx = c.serial.tx := by
  obtain ⟨s, e, htx⟩ := catchEscapeSequence_body_two c h 0 a t1 91 t2 68 rest hrx h1 h2
  exact ⟨s, e.trans (parse_left_at_zero _ h a), htx⟩

/-- The statements of `catchEscapeSequence` on the sequences `[` `A` and `[`
`B` with `allowHistory` false: when control reaches the closing brace the
console, `historyIndex` and the cursor are as they were but for the clock and
the bytes consumed, and nothing has been written. -/
theorem body_history_off (c : Console) (h ci : Int) (t1 t2 e1 : Nat)
    (rest : List (Nat × Nat)) (he1 : e1 = 65 ∨ e1 = 66)
    (hrx : c.serial.rx = (t1, 91) :: (t2, e1) :: rest)
    (h1 : t1 ≤ c.serial.now) (h2 : t2 ≤ c.serial.now + ESC_CODE_MS) :
    ∃ s, catchEscapeSequence.body c h ci false = .ok ({ c with serial := s }, h, ci) ∧
      s.tx = c.serial.tx := by
  obtain ⟨s, e, htx⟩ := catchEscapeSequence_body_two c h ci false t1 91 t2 e1 rest hrx h1 h2
  exact ⟨s, e.trans (parse_history_off _ e1 h ci he1), htx⟩

/-- The switch of `getSerialInput` on an ESCAPE byte with a byte behind it, in
a state that satisfies the invariant of the loop: the statements of
`catchEscapeSequence` commit no fault and the call ends at the closing brace,
without returning. -/
theorem switch_escape_noReturn (a : Bool) (st : LoopState)
    (hI : st.con.EditOk st.historyIndex st.inputIndex)
    (hav : (st.con.serial.delay ESC_CODE_MS).available = true) :
    getSerialInput.switch a st ESCAPE = .error .noReturn := by
  have e := catchEscapeSequence_noReturn
    { st.con with serial := st.con.serial.delay ESC_CODE_MS } st.historyIndex st.inputIndex a
    (hI.serial _)
  unfold getSerialInput.switch
  simp only [if_true, hav, e, bind, Except.bind]

set_option maxRecDepth 1000000 in
/-- Claim C20 fails: the cursor-left sequence is handled by a call of
`catchEscapeSequence`, a function declared `bool` that holds no `return`
statement. In the example state the cursor is 0, the ESCAPE byte has been
read and `[` `D` arrive within `ESC_CODE_MS` of the read before them. The
statements of the call leave `inputBuffer`, the recorded lengths, the cursor
and `historyIndex` as they were and write nothing, but control then reaches
the closing brace of the function: the behaviour is undefined, the call does
not return to the switch of `getSerialInput`, and the state the claim speaks
of is not reached. -/
theorem cursor_left_ends_in_fault :
    (exampleAt 0 [(1, 91), (2, 68)]).inputIndex = 0 ∧
    (getSerialInput.switch true (exampleAt 0 [(1, 91), (2, 68)]) ESCAPE).map
        (fun st => st.inputIndex) = .error .noReturn ∧
    (catchEscapeSequence.body
        { (exampleAt 0 [(1, 91), (2, 68)]).con with
          serial := (exampleAt 0 [(1, 91), (2, 68)]).con.serial.delay ESC_CODE_MS } 0 0 true).map
        (fun r => (r.1.inputBuffer, r.1.inputEnds, r.1.serial.tx, r.2.1, r.2.2)) =
      .ok (exampleConsole.inputBuffer, exampleConsole.inputEnds, [], 0, 0) := by
  refine ⟨?_, ?_, ?_⟩ <;> decide

set_option maxRecDepth 1000000 in
/-- Claim C16 fails on every input that holds an escape sequence, the
sequences `[A` and `[B` with `allowHistory` false among them. The call of
`getSerialInput` on ESCAPE `[` `A` followed by further bytes ends in the
fault `noReturn`: `catchEscapeSequence` is declared `bool` and holds no
`return` statement, so `historyIndex` is not defined at the steps that
follow. With `allowHistory` false the statements of the call leave
`historyIndex`, `inputBuffer` and the cursor as they were, but the switch of
`getSerialInput` gets no state back. -/
theorem history_sequence_ends_in_fault :
    (getSerialInput exampleRecall 0 true true).map (fun r => r.2.1) = .error .noReturn ∧
    (getSerialInput.switch false (exampleAt 1 [(0, 91), (0, 65)]) ESCAPE).map
        (fun st => st.historyIndex) = .error .noReturn ∧
    (getSerialInput.switch false (exampleAt 1 [(0, 91), (0, 66)]) ESCAPE).map
        (fun st => st.historyIndex) = .error .noReturn ∧
    (catchEscapeSequence.body
        { exampleConsole with serial := ⟨2, [(0, 91), (0, 65)], []⟩ } 0 1 false).map
        (fun r => (r.1.inputBuffer, r.1.serial.tx, r.2.1, r.2.2)) =
      .ok (exampleConsole.inputBuffer, [], 0, 1) := by
  refine ⟨?_, ?_, ?_, ?_⟩ <;> decide

/-! ## The end of the read -/

theorem getSerialInput_eq_resume (c : Console) (h : Int) (a tmo : Bool) :
    getSerialInput c h a tmo =
      (getSerialInput.init c h).bind (getSerialInput.resume a (getSerialInput.bound c)) := rfl

theorem switch_lone_escape (a : Bool) (st : LoopState)
    (hnone : (st.con.serial.delay ESC_CODE_MS).available = false) :
    getSerialInput.switch a st ESCAPE =
      .ok { st with
        con := { st.con with serial := st.con.serial.delay ESC_CODE_MS }
        exit := true
        finished := true } := by
  unfold getSerialInput.switch
  simp only [if_true, hnone, Bool.false_eq_true, if_false, pure, Except.pure]

/-- Claim C14: in an edit state of length `n < INPUT_BUFFER_SIZE-1`, when the
loop of `getSerialInput` reads an ESCAPE byte and no byte is available after
the wait of `ESC_CODE_MS`, the call returns true with `historyIndex` as it
was; the characters of the line (positions below `n`) and every recorded
length are as before the ESCAPE byte, and the terminator is at index `n`. -/
theorem lone_escape_exits (allowHistory : Bool) (st : LoopState) (h n fuel : Nat)
    (hbuf : st.con.inputBuffer.length = INPUT_BUFFER_SIZE)
    (hh : st.historyIndex = h) (hlen : st.con.inputEnds[h]? = some (n : Int))
    (hn : n < INPUT_BUFFER_SIZE - 1) (hfin : st.finished = false)
    (hav : st.con.serial.available = true) (hesc : st.con.serial.read.1 = ESCAPE)
    (hnone : (st.con.serial.read.2.delay ESC_CODE_MS).available = false) :
    ∃ c', getSerialInput.resume allowHistory (fuel + 2) st = .ok (c', (h : Int), true) ∧
      c'.inputBuffer.take n = st.con.inputBuffer.take n ∧
      c'.inputBuffer[n]? = some 0 ∧
      c'.inputEnds = st.con.inputEnds := by
  have hrd : rd st.con.inputEnds st.historyIndex = .ok (n : Int) := by
    rw [hh]; exact rd_of_getElem? _ _ _ hlen
  have hlt : (n : Int) < (INPUT_BUFFER_SIZE : Int) - 1 := by
    have : n + 1 < INPUT_BUFFER_SIZE := by omega
    omega
  have hstep := step_available allowHistory st n hrd hlt hfin hav
  rw [hesc, switch_lone_escape allowHistory _ hnone] at hstep
  have hloop : getSerialInput.loop allowHistory (fuel + 2) st =
      .ok { st with
        timeoutCounter := 0
        con := { st.con with serial := st.con.serial.read.2.delay ESC_CODE_MS }
        exit := true
        finished := true } := by
    rw [getSerialInput.loop, hstep]
    simp only [Except.bind, bind, if_true]
    exact loop_finished allowHistory fuel _ n hrd rfl
  have hw : wr st.con.inputBuffer (n : Int) 0 = .ok (st.con.inputBuffer.set n 0) :=
    wr_ok _ _ _ (by omega)
  refine ⟨{ st.con with
    serial := st.con.serial.read.2.delay ESC_CODE_MS
    inputBuffer := st.con.inputBuffer.set n 0 }, ?_, ?_, ?_, rfl⟩
  · unfold getSerialInput.resume
    have hrd2 : rd st.con.inputEnds (h : Int) = .ok (n : Int) := rd_of_getElem? _ _ _ hlen
    simp only [hloop, hrd2, hw, bind, Except.bind, pure, Except.pure, hh]
  · exact take_set_of_le _ _ _ _ (le_refl _)
  · show (st.con.inputBuffer.set n 0)[n]? = some 0
    rw [List.getElem?_set_self (by omega)]

theorem lone_escape_exits_witness :
    ∃ c', getSerialInput.resume true (0 + 2) (exampleAt 1 [(0, 27)]) =
        .ok (c', ((0 : Nat) : Int), true) ∧
      c'.inputBuffer.take 3 = (exampleAt 1 [(0, 27)]).con.inputBuffer.take 3 ∧
      c'.inputBuffer[3]? = some 0 ∧
      c'.inputEnds = (exampleAt 1 [(0, 27)]).con.inputEnds :=
  lone_escape_exits true (exampleAt 1 [(0, 27)]) 0 3 0 (by decide) rfl (by decide) (by decide)
    rfl (by decide) (by decide) (by decide)

theorem step_full (a : Bool) (st : LoopState) (len : Int)
    (hrd : rd st.con.inputEnds st.historyIndex = .ok len)
    (hlen : (INPUT_BUFFER_SIZE : Int) - 1 ≤ len) :
    getSerialInput.step a st = .ok (st, false) := by
  unfold getSerialInput.step
  simp only [hrd, bind, Except.bind, pure, Except.pure]
  rw [if_neg (by omega)]

/-- Claim C18, amended: in a state whose line holds `INPUT_BUFFER_SIZE-1`
characters the condition of the loop of `getSerialInput` fails, so no further
byte is read and the state (line, length, cursor, transport) is as it was;
the call writes the terminator at index `INPUT_BUFFER_SIZE-1` and returns
`exit` as it stands, false when no exit was signalled, without an ENTER
byte. -/
theorem full_line_ends_the_read (a : Bool) (st : LoopState) (h fuel : Nat)
    (hbuf : st.con.inputBuffer.length = INPUT_BUFFER_SIZE)
    (hh : st.historyIndex = h)
    (hlen : st.con.inputEnds[h]? = some ((INPUT_BUFFER_SIZE : Int) - 1)) :
    getSerialInput.step a st = .ok (st, false) ∧
    getSerialInput.resume a (fuel + 1) st =
      .ok ({ st.con with inputBuffer := st.con.inputBuffer.set (INPUT_BUFFER_SIZE - 1) 0 },
        (h : Int), st.exit) := by
  have hrd2 : rd st.con.inputEnds (h : Int) = .ok ((INPUT_BUFFER_SIZE : Int) - 1) :=
    rd_of_getElem? _ _ _ hlen
  have hrd : rd st.con.inputEnds st.historyIndex = .ok ((INPUT_BUFFER_SIZE : Int) - 1) := by
    rw [hh]; exact hrd2
  have hstep := step_full a st _ hrd (le_refl _)
  have hw : wr st.con.inputBuffer ((INPUT_BUFFER_SIZE : Int) - 1) 0 =
      .ok (st.con.inputBuffer.set (INPUT_BUFFER_SIZE - 1) 0) :=
    wr_ok _ (INPUT_BUFFER_SIZE - 1) _ (by rw [hbuf]; decide)
  refine ⟨hstep, ?_⟩
  unfold getSerialInput.resume
  rw [getSerialInput.loop]
  simp only [hstep, hrd2, hw, bind, Except.bind, pure, Except.pure, Bool.false_eq_true, if_false,
    hh]

theorem full_line_ends_the_read_witness :
    getSerialInput.step true exampleLineFull = .ok (exampleLineFull, false) ∧
    getSerialInput.resume true (0 + 1) exampleLineFull =
      .ok ({ exampleLineFull.con with
          inputBuffer := exampleLineFull.con.inputBuffer.set (INPUT_BUFFER_SIZE - 1) 0 },
        ((0 : Nat) : Int), exampleLineFull.exit) :=
  full_line_ends_the_read true exampleLineFull 0 0 (by decide) rfl (by decide)

set_option maxRecDepth 1000000 in
/-- Claim C18 as stated fails. Fifty bytes `a` are waiting and no ENTER byte:
`getSerialInput` reads forty-nine of them, leaves the fiftieth unread, and
returns false with a line of 49 characters. -/
theorem full_line_returns_without_enter :
    (∀ p ∈ exampleFull.serial.rx, p.2 ≠ ENTER) ∧
    (getSerialInput exampleFull 0 true true).map
        (fun r => (r.2.2, r.1.serial.rx, r.1.inputEnds[0]?)) =
      .ok (false, [(0, 97)], some 49) := by
  decide

/-! ## Insertion undone by BACKSPACE -/

/-- Claim C13, amended: in an edit state with length `n < INPUT_BUFFER_SIZE-1`
and cursor `c <= n`, a printable byte `x` and then a BACKSPACE byte leave the
characters of the line (positions below `n`), every byte of `inputBuffer`
other than those at `n` and `n+1`, every recorded length, the cursor and
`historyIndex` as they were before the insertion. -/
theorem insert_then_backspace_restores_line (a : Bool) (st : LoopState) (h n c x : Nat)
    (hbuf : st.con.inputBuffer.length = INPUT_BUFFER_SIZE)
    (hh : st.historyIndex = h) (hlen : st.con.inputEnds[h]? = some (n : Int))
    (hn : n < INPUT_BUFFER_SIZE - 1) (hc : st.inputIndex = c) (hcn : c ≤ n)
    (hx : Printable x) :
    ∃ st1 st2, getSerialInput.switch a st x = .ok st1 ∧
      getSerialInput.switch a st1 BACKSPACE = .ok st2 ∧
      st2.con.inputBuffer.take n = st.con.inputBuffer.take n ∧
      (∀ i, i ≠ n → i ≠ n + 1 → st2.con.inputBuffer[i]? = st.con.inputBuffer[i]?) ∧
      st2.con.inputEnds = st.con.inputEnds ∧
      st2.inputIndex = (c : Int) ∧
      st2.historyIndex = h := by
  have hhl : h < st.con.inputEnds.length := by
    by_contra hcon
    rw [List.getElem?_eq_none (by omega)] at hlen
    cases hlen
  obtain ⟨b1, out1, e1, l1, g1⟩ := caseDefault_ok st h n c x hh hlen (by omega) hc hcn
  obtain ⟨b2, out2, e2, l2, g2⟩ := caseBackspace_ok
    { st with
      con := { st.con with
        inputBuffer := b1
        serial := st.con.serial.print out1
        inputEnds := st.con.inputEnds.set h ((n : Int) + 1) }
      inputIndex := (c : Int) + 1 } h (n + 1) (c + 1) hh
    (by show (st.con.inputEnds.set h ((n : Int) + 1))[h]? = _
        rw [List.getElem?_set_self hhl]; rfl)
    (by show n + 1 ≤ b1.length
        omega)
    (by show (c : Int) + 1 = _
        omega) (by omega) (by omega)
  have hbytes : ∀ i, i ≠ n → i ≠ n + 1 → b2[i]? = st.con.inputBuffer[i]? := by
    intro i hi1 hi2
    rw [g2 i]
    show (if c + 1 - 1 ≤ i ∧ i < n + 1 - 1 then b1[i + 1]? else b1[i]?) = _
    rw [g1 i, g1 (i + 1)]
    split_ifs <;> first | rfl | (exfalso; omega)
  refine ⟨_, _, (switch_default a st x hx).trans e1,
    (switch_backspace a _ BACKSPACE (Or.inl rfl)).trans e2, ?_, hbytes, ?_, ?_, hh⟩
  · show b2.take n = _
    apply List.ext_getElem?
    intro i
    simp only [List.getElem?_take]
    split_ifs with hi
    · exact hbytes i (by omega) (by omega)
    · rfl
  · show (st.con.inputEnds.set h ((n : Int) + 1)).set h (((n + 1 : Nat) : Int) - 1) = _
    rw [List.set_set]
    apply List.ext_getElem?
    intro i
    by_cases hi : h = i
    · subst hi
      rw [List.getElem?_set_self hhl, hlen]
      congr 1
      omega
    · rw [List.getElem?_set_ne hi]
  · show ((c + 1 : Nat) : Int) - 1 = _
    omega

theorem insert_then_backspace_restores_line_witness :
    ∃ st1 st2, getSerialInput.switch true exampleState 120 = .ok st1 ∧
      getSerialInput.switch true st1 BACKSPACE = .ok st2 ∧
      st2.con.inputBuffer.take 3 = exampleState.con.inputBuffer.take 3 ∧
      (∀ i, i ≠ 3 → i ≠ 3 + 1 → st2.con.inputBuffer[i]? = exampleState.con.inputBuffer[i]?) ∧
      st2.con.inputEnds = exampleState.con.inputEnds ∧
      st2.inputIndex = ((1 : Nat) : Int) ∧
      st2.historyIndex = (0 : Nat) :=
  insert_then_backspace_restores_line true exampleState 0 3 1 120 (by decide) rfl (by decide)
    (by decide) rfl (by decide) (by decide)

/-- Claim C13 as stated fails. The line is `abc` with the cursor after `a`:
the byte `x` and then BACKSPACE leave `inputBuffer` holding `abcc`, the byte
at index 3 being `c` where it was NUL before. -/
theorem insert_then_backspace_leaves_bytes :
    ((getSerialInput.switch true exampleState 120).bind
        (fun st => getSerialInput.switch true st BACKSPACE)).map
        (fun st => (st.con.inputBuffer, exampleState.con.inputBuffer)) =
      .ok (str "abcc" ++ List.replicate 46 0, str "abc" ++ List.replicate 47 0) := by
  decide

/-! ## A burst of one byte, and the lengths of recalled lines -/

theorem parse_unrecognised (c : Console) (b1 b2 : Nat) (h ci : Int) (a : Bool)
    (hno : ¬ (b1 = 91 ∧ (b2 = 65 ∨ b2 = 66 ∨ b2 = 67 ∨ b2 = 68))) :
    catchEscapeSequence.parse c [b1, b2] h ci a = .ok (c, h, ci) := by
  have r0 : rd [b1, b2] 0 = .ok b1 := by simp [rd]
  have r1 : rd [b1, b2] 1 = .ok b2 := by simp [rd]
  unfold catchEscapeSequence.parse
  simp only [r0, r1, bind, Except.bind, pure, Except.pure]
  by_cases h91 : b1 = 91
  · have h65 : b2 ≠ 65 := fun e => hno ⟨h91, Or.inl e⟩
    have h66 : b2 ≠ 66 := fun e => hno ⟨h91, Or.inr (Or.inl e)⟩
    have h67 : b2 ≠ 67 := fun e => hno ⟨h91, Or.inr (Or.inr (Or.inl e))⟩
    have h68 : b2 ≠ 68 := fun e => hno ⟨h91, Or.inr (Or.inr (Or.inr e))⟩
    simp only [h91, if_true, h67, if_false, Bool.false_eq_true]
    rw [if_neg (fun e => h68 e.1), if_neg (fun e => h65 e.1), if_neg (fun e => h66 e.1)]
  · simp only [h91, if_false]

/-- A burst of two bytes or more after ESCAPE that does not begin with one of
the four sequences: when control reaches the closing brace of
`catchEscapeSequence` the console, `historyIndex` and the cursor are as they
were but for the clock and the bytes consumed, and nothing has been
written. -/
theorem body_ignores_unrecognised_burst (c : Console) (h ci : Int) (a : Bool)
    (t1 b1 t2 b2 : Nat) (rest : List (Nat × Nat))
    (hrx : c.serial.rx = (t1, b1) :: (t2, b2) :: rest)
    (h1 : t1 ≤ c.serial.now) (h2 : t2 ≤ c.serial.now + ESC_CODE_MS)
    (hno : ¬ (b1 = 91 ∧ (b2 = 65 ∨ b2 = 66 ∨ b2 = 67 ∨ b2 = 68))) :
    ∃ s, catchEscapeSequence.body c h ci a = .ok ({ c with serial := s }, h, ci) ∧
      s.tx = c.serial.tx := by
  obtain ⟨s, e, htx⟩ := catchEscapeSequence_body_two c h ci a t1 b1 t2 b2 rest hrx h1 h2
  exact ⟨s, e.trans (parse_unrecognised _ b1 b2 h ci a hno), htx⟩

/-- Claim C15 fails on a burst of the single byte `[`. The array
`escapeSequence` is declared without initialiser and the burst fills its
first element only; the branch taken depends on what the second element
happens to hold. When it holds `D` (left there by a cursor-left sequence
handled before) and the cursor is 1, the statements of `catchEscapeSequence`
write the three bytes ESCAPE `[` `D` to the transport and move the cursor to
0; when it holds the byte 7 the same burst changes nothing. Control then
reaches the closing brace of the function, declared `bool`, without a
`return` statement: the call ends in the fault `noReturn`. -/
theorem stale_escape_byte_is_parsed :
    exampleStale.serial.rx = [(0, 91)] ∧
    (catchEscapeSequence.body exampleStale 0 1 true).map
        (fun r => (r.1.serial.tx, r.1.serial.rx, r.2.1, r.2.2)) =
      .ok ([27, 91, 68], [], 0, 0) ∧
    (catchEscapeSequence.body { exampleStale with garbage := fun _ => 7 } 0 1 true).map
        (fun r => (r.1.serial.tx, r.1.serial.rx, r.2.1, r.2.2)) =
      .ok ([], [], 0, 1) ∧
    (catchEscapeSequence exampleStale 0 1 true).map (fun r => r.2.1) = .error .noReturn := by
  decide

set_option maxRecDepth 1000000 in
/-- Claim C17 fails for the recorded lengths. History slot 1 holds `abc` with
recorded length 3; the bytes ESCAPE `[` `A`, then `x`, then ENTER are to
recall the line, append `x` and submit. The call of `getSerialInput` ends in
the fault `noReturn` at the closing brace of `catchEscapeSequence`, so it
does not return at all. Where the call of `catchEscapeSequence` does return
to its caller (the locals of `getSerialInput` set up, the ESCAPE byte read,
the wait, the statements of `catchEscapeSequence`, then the rest of the call
of `getSerialInput`), `historyBuffers[1]` still holds `abc` on return but
`inputEnds[1]` is 4: the editor keeps the length of the line being edited in
`inputEnds[historyIndex]`, the entry of the recalled slot. Once the
dispatcher has pushed the new line, slot 2 holds `abc` with recorded length
4. -/
theorem edited_recall_changes_recorded_length :
    (exampleRecall.historyBuffers[1]?, exampleRecall.inputEnds[1]?) =
      (some (lineBuffer "abc"), some 3) ∧
    (getSerialInput exampleRecall 0 true true).map (fun r => r.2.1) = .error .noReturn ∧
    ((getSerialInput.init exampleRecall 0).bind (fun st =>
      (catchEscapeSequence.body
        { st.con with serial := st.con.serial.read.2.delay ESC_CODE_MS }
        st.historyIndex st.inputIndex true).bind (fun r =>
      getSerialInput.resume true (getSerialInput.bound exampleRecall)
        { st with con := r.1, historyIndex := r.2.1, inputIndex := r.2.2 }))).map
        (fun r => (r.1.historyBuffers[1]?, r.1.inputEnds[1]?, r.2.1, r.2.2)) =
      .ok (some (lineBuffer "abc"), some 4, 1, false) ∧
    (((getSerialInput.init exampleRecall 0).bind (fun st =>
      (catchEscapeSequence.body
        { st.con with serial := st.con.serial.read.2.delay ESC_CODE_MS }
        st.historyIndex st.inputIndex true).bind (fun r =>
      getSerialInput.resume true (getSerialInput.bound exampleRecall)
        { st with con := r.1, historyIndex := r.2.1, inputIndex := r.2.2 }))).bind
        (fun r => runSerialCommands.dispatch r.1 r.2.1)).map
        (fun c => (c.historyBuffers[2]?, c.inputEnds[2]?)) =
      .ok (some (lineBuffer "abc"), some 4) := by
  refine ⟨?_, ?_, ?_, ?_⟩ <;> decide

/-! ## Pushes into the history -/

theorem incrementBufferHistory_loop_spec (k : Nat) (hb : List (List Nat)) (ie : List Int)
    (hk : k < hb.length) (hkl : hb.length = ie.length)
    (hrows : ∀ b ∈ hb, b.length = INPUT_BUFFER_SIZE) :
    ∃ hb' ie', incrementBufferHistory.loop k hb ie = .ok (hb', ie') ∧
      (∀ x, hb'[x]? = if 1 ≤ x ∧ x ≤ k then hb[x - 1]? else hb[x]?) ∧
      (∀ x, ie'[x]? = if 1 ≤ x ∧ x ≤ k then ie[x - 1]? else ie[x]?) := by
  induction k generalizing hb ie with
  | zero =>
    refine ⟨hb, ie, rfl, fun x => ?_, fun x => ?_⟩ <;> rw [if_neg (by omega)]
  | succ k ih =>
    have h1 : k < hb.length := by omega
    have e1 : ((k + 1 : Nat) : Int) - 1 = (k : Int) := by omega
    have hd : hb[k + 1].length = INPUT_BUFFER_SIZE := hrows _ (List.getElem_mem _)
    have hsrc : hb[k].length = INPUT_BUFFER_SIZE := hrows _ (List.getElem_mem _)
    have h2 : k < ie.length := by omega
    obtain ⟨hb', ie', e, g1, g2⟩ := ih (hb.set (k + 1) hb[k])
      (ie.set (k + 1) ie[k]) (by simpa using h1) (by simpa using hkl)
      (fun b hbm => by
        rcases List.mem_or_eq_of_mem_set hbm with h | h
        · exact hrows b h
        · rw [h]; exact hsrc)
    refine ⟨hb', ie', ?_, fun x => ?_, fun x => ?_⟩
    · simp only [incrementBufferHistory.loop, e1, rd_ok hb (k + 1) hk, rd_ok hb k h1,
        bufferCopy_ok _ _ hd hsrc, wr_ok hb (k + 1) _ hk, rd_ok ie k h2,
        wr_ok ie (k + 1) _ (by omega), bind, Except.bind]
      exact e
    · rw [g1 x]
      simp only [List.getElem?_set]
      have hkk : hb[k]? = some hb[k] := List.getElem?_eq_getElem h1
      split_ifs <;> first | rfl | (exfalso; omega) | (subst_vars; simp [hkk])
    · rw [g2 x]
      simp only [List.getElem?_set]
      have hkk : ie[k]? = some ie[k] := List.getElem?_eq_getElem h2
      split_ifs <;> first | rfl | (exfalso; omega) | (subst_vars; simp [hkk])

/-- What a push does: slots 0 and 1 receive the line and its length, every
other slot receives what the slot before it held. -/
theorem incrementBufferHistory_spec (c : Console) (h : Nat) (hs : c.Sized)
    (hh : h ≤ COMMAND_HISTORY_LENGTH) :
    ∃ hb ie, incrementBufferHistory c (h : Int) =
        .ok { c with historyBuffers := hb, inputEnds := ie } ∧
      ({ c with historyBuffers := hb, inputEnds := ie } : Console).Sized ∧
      hb[0]? = some c.inputBuffer ∧ hb[1]? = some c.inputBuffer ∧
      ie[0]? = c.inputEnds[h]? ∧ ie[1]? = c.inputEnds[h]? ∧
      ∀ x, 1 ≤ x → x < COMMAND_HISTORY_LENGTH →
        hb[x + 1]? = c.historyBuffers[x]? ∧ ie[x + 1]? = c.inputEnds[x]? := by
  obtain ⟨hb, ie, e, hsz⟩ := incrementBufferHistory_ok c (h : Int) hs
    ⟨by omega, by exact_mod_cast hh⟩
  obtain ⟨s1, s2, s3, s4, s5⟩ := hs
  have h0 : 0 < c.historyBuffers.length := by omega
  have hs0 : c.historyBuffers[0].length = INPUT_BUFFER_SIZE := s3 _ (List.getElem_mem _)
  have r0 : rd c.historyBuffers 0 = .ok c.historyBuffers[0] := rd_ok _ 0 h0
  have w0 : wr c.historyBuffers 0 c.inputBuffer = .ok (c.historyBuffers.set 0 c.inputBuffer) :=
    wr_ok _ 0 _ h0
  have h1 : h < c.inputEnds.length := by
    simp only [COMMAND_HISTORY_LENGTH] at hh s4; omega
  have w1 : wr c.inputEnds 0 c.inputEnds[h] = .ok (c.inputEnds.set 0 c.inputEnds[h]) :=
    wr_ok _ 0 _ (by omega)
  obtain ⟨hb', ie', e', g1, g2⟩ := incrementBufferHistory_loop_spec COMMAND_HISTORY_LENGTH
    (c.historyBuffers.set 0 c.inputBuffer) (c.inputEnds.set 0 c.inputEnds[h])
    (by simp; omega) (by simp; omega)
    (fun b hbm => by
      rcases List.mem_or_eq_of_mem_set hbm with hm | hm
      · exact s3 b hm
      · rw [hm]; exact s5)
  have e2 : incrementBufferHistory c (h : Int) =
      .ok { c with historyBuffers := hb', inputEnds := ie' } := by
    simp only [incrementBufferHistory, r0, bufferCopy_ok _ _ hs0 s5, w0, rd_ok c.inputEnds h h1,
      w1, e', bind, Except.bind, pure, Except.pure]
  have e3 := e.symm.trans e2
  have ehb : hb = hb' := by
    have := congrArg (fun r => r.toOption.map Console.historyBuffers) e3
    simpa [Except.toOption] using this
  have eie : ie = ie' := by
    have := congrArg (fun r => r.toOption.map Console.inputEnds) e3
    simpa [Except.toOption] using this
  subst ehb eie
  have hL : c.inputEnds[h]? = some c.inputEnds[h] := List.getElem?_eq_getElem h1
  refine ⟨hb, ie, e, hsz, ?_, ?_, ?_, ?_, fun x hx1 hx2 => ⟨?_, ?_⟩⟩
  · rw [g1 0, if_neg (by omega)]; simp [h0]
  · rw [g1 1, if_pos (by simp [COMMAND_HISTORY_LENGTH])]; simp [h0]
  · rw [g2 0, if_neg (by omega), hL]; exact List.getElem?_set_self (by omega)
  · rw [g2 1, if_pos (by simp [COMMAND_HISTORY_LENGTH]), hL]; exact List.getElem?_set_self (by omega)
  · rw [g1 (x + 1), if_pos ⟨by omega, by omega⟩]
    simp only [Nat.add_sub_cancel]
    rw [List.getElem?_set_ne (by omega)]
  · rw [g2 (x + 1), if_pos ⟨by omega, by omega⟩]
    simp only [Nat.add_sub_cancel]
    rw [List.getElem?_set_ne (by omega)]

theorem pushLines_moves (more : List (List Nat × Int)) :
    ∀ (c : Console) (p : Nat) (row : List Nat) (len : Int), c.Sized →
      (∀ q ∈ more, q.1.length = INPUT_BUFFER_SIZE ∧ 0 ≤ q.2 ∧ q.2 ≤ COMMAND_HISTORY_LENGTH) →
      1 ≤ p → p + more.length ≤ COMMAND_HISTORY_LENGTH →
      c.historyBuffers[p]? = some row → c.inputEnds[p]? = some len →
      ∃ c', pushLines more c = .ok c' ∧ c'.Sized ∧
        c'.historyBuffers[p + more.length]? = some row ∧
        c'.inputEnds[p + more.length]? = some len := by
  induction more with
  | nil =>
    intro c p row len hs _ _ _ h1 h2
    exact ⟨c, rfl, hs, h1, h2⟩
  | cons q more ih =>
    intro c p row len hs hq hp hpk h1 h2
    obtain ⟨ln, hi⟩ := q
    obtain ⟨q1, q2, q3⟩ := hq (ln, hi) (List.mem_cons_self _ _)
    simp only at q1 q2 q3
    obtain ⟨hn, rfl⟩ := Int.eq_ofNat_of_zero_le q2
    have hk : hn ≤ COMMAND_HISTORY_LENGTH := by exact_mod_cast q3
    simp only [List.length_cons] at hpk
    have hs1 : ({ c with inputBuffer := ln } : Console).Sized :=
      ⟨hs.1, hs.2.1, hs.2.2.1, hs.2.2.2.1, q1⟩
    obtain ⟨hb, ie, e, hsz, _, _, _, _, g⟩ :=
      incrementBufferHistory_spec { c with inputBuffer := ln } hn hs1 hk
    obtain ⟨g1, g2⟩ := g p hp (by omega)
    obtain ⟨c', e', hs', k1, k2⟩ := ih _ (p + 1) row len hsz
      (fun q hq' => hq q (List.mem_cons_of_mem _ hq')) (by omega) (by omega)
      (g1.trans h1) (g2.trans h2)
    refine ⟨c', ?_, hs', ?_, ?_⟩
    · simp only [pushLines, e, bind, Except.bind]
      exact e'
    · rw [← k1]; congr 1; simp only [List.length_cons]; omega
    · rw [← k2]; congr 1; simp only [List.length_cons]; omega

/-- Claim C11, amended: for every line and every `K` with
`K+1 <= COMMAND_HISTORY_LENGTH`, after `incrementBufferHistory` pushes the
line (`inputBuffer` holding it, `inputEnds[historyIndex]` its length) and `K`
further lines are pushed, history slot `K+1` holds the pushed `inputBuffer`
and its recorded length. -/
theorem pushed_line_moves_down (c : Console) (h : Nat) (more : List (List Nat × Int))
    (hs : c.Sized) (hh : h ≤ COMMAND_HISTORY_LENGTH)
    (hmore : ∀ q ∈ more,
      q.1.length = INPUT_BUFFER_SIZE ∧ 0 ≤ q.2 ∧ q.2 ≤ COMMAND_HISTORY_LENGTH)
    (hK : more.length + 1 ≤ COMMAND_HISTORY_LENGTH) :
    ∃ c1 c2, incrementBufferHistory c (h : Int) = .ok c1 ∧ pushLines more c1 = .ok c2 ∧
      c2.historyBuffers[more.length + 1]? = some c.inputBuffer ∧
      c2.inputEnds[more.length + 1]? = c.inputEnds[h]? := by
  obtain ⟨hb, ie, e, hsz, _, g1, _, g2, _⟩ := incrementBufferHistory_spec c h hs hh
  have hl : h < c.inputEnds.length := by
    have := hs.2.2.2.1
    omega
  obtain ⟨c2, e2, _, k1, k2⟩ := pushLines_moves more _ 1 c.inputBuffer c.inputEnds[h] hsz hmore
    (le_refl _) (by omega) g1 (g2.trans (List.getElem?_eq_getElem hl))
  refine ⟨_, c2, e, e2, ?_, ?_⟩
  · rw [← k1]; congr 1; omega
  · rw [List.getElem?_eq_getElem hl, ← k2]; congr 1; omega

theorem pushed_line_moves_down_witness :
    ∃ c1 c2, incrementBufferHistory exampleConsole ((0 : Nat) : Int) = .ok c1 ∧
      pushLines [(lineBuffer "xyz", 0), (lineBuffer "xyz", 0)] c1 = .ok c2 ∧
      c2.historyBuffers[[(lineBuffer "xyz", (0 : Int)), (lineBuffer "xyz", 0)].length + 1]? =
        some exampleConsole.inputBuffer ∧
      c2.inputEnds[[(lineBuffer "xyz", (0 : Int)), (lineBuffer "xyz", 0)].length + 1]? =
        exampleConsole.inputEnds[0]? :=
  pushed_line_moves_down exampleConsole 0 [(lineBuffer "xyz", 0), (lineBuffer "xyz", 0)]
    (by decide) (by decide) (by decide) (by decide)

/-- Claim C11 as stated fails for `K >= COMMAND_HISTORY_LENGTH`. The line
`abc` is pushed and then five lines `xyz`: slot `min(5+1, 5) = 5` holds `xyz`,
the line `abc` having been shifted out of the history. -/
theorem pushed_line_is_discarded :
    min (5 + 1) COMMAND_HISTORY_LENGTH = 5 ∧
    exampleConsole.inputBuffer = lineBuffer "abc" ∧
    ((incrementBufferHistory exampleConsole 0).bind
        (pushLines (List.replicate 5 (lineBuffer "xyz", 0)))).map
        (fun c => (c.historyBuffers[5]?, c.inputEnds[5]?)) =
      .ok (some (lineBuffer "xyz"), some 3) := by
  refine ⟨by decide, by decide, ?_⟩
  obtain ⟨hb, ie, e, hsz, _, _, g0, _, _⟩ :=
    incrementBufferHistory_spec exampleConsole 0 (by decide) (by decide)
  have hsz1 : ({ exampleConsole with
      historyBuffers := hb, inputEnds := ie, inputBuffer := lineBuffer "xyz" } : Console).Sized :=
    ⟨hsz.1, hsz.2.1, hsz.2.2.1, hsz.2.2.2.1,
      (by decide : (lineBuffer "xyz").length = INPUT_BUFFER_SIZE)⟩
  obtain ⟨hb2, ie2, e2, hsz2, _, k1, _, k2, _⟩ := incrementBufferHistory_spec
    { exampleConsole with
      historyBuffers := hb, inputEnds := ie, inputBuffer := lineBuffer "xyz" } 0 hsz1
    (by decide)
  obtain ⟨c', e3, _, m1, m2⟩ := pushLines_moves (List.replicate 4 (lineBuffer "xyz", 0))
    _ 1 (lineBuffer "xyz") 3 hsz2
    (fun q hq => by rw [List.eq_of_mem_replicate hq]; decide) (le_refl _) (by decide) k1
    (k2.trans g0)
  have e' : incrementBufferHistory exampleConsole 0 =
      .ok { exampleConsole with historyBuffers := hb, inputEnds := ie } := e
  have e2' : incrementBufferHistory
      { exampleConsole with
        historyBuffers := hb, inputEnds := ie, inputBuffer := lineBuffer "xyz" } 0 = _ := e2
  rw [e']
  show (pushLines ((lineBuffer "xyz", 0) :: List.replicate 4 (lineBuffer "xyz", 0))
    { exampleConsole with historyBuffers := hb, inputEnds := ie }).map _ = _
  rw [pushLines]
  simp only [e2', bind, Except.bind]
  rw [e3]
  show Except.ok (c'.historyBuffers[1 + (List.replicate 4 (lineBuffer "xyz", (0 : Int))).length]?,
    c'.inputEnds[1 + (List.replicate 4 (lineBuffer "xyz", (0 : Int))).length]?) = _
  rw [m1, m2]

/-! ## A session: a line typed and dispatched, then another prompt -/

theorem drain_idle (k : Nat) (s : Serial) (h : s.available = false) :
    catchEscapeSequence.drain k s = s := by
  cases k with
  | zero => rfl
  | succ k => simp [catchEscapeSequence.drain, h]

/-- The up arrow at `historyIndex` 0: the line being edited is saved in slot
0, slot 1 is printed and copied to `inputBuffer`, the cursor goes to its
end. -/
theorem parse_up_from_zero (c : Console) (ci : Int) (row : List Nat) (n : Nat)
    (hs : c.Sized) (hrow : c.historyBuffers[1]? = some row)
    (hlen : c.inputEnds[1]? = some (n : Int)) (hn : n ≤ INPUT_BUFFER_SIZE) :
    ∃ out, catchEscapeSequence.parse c [91, 65] 0 ci true =
      .ok ({ c with
        historyBuffers := c.historyBuffers.set 0 c.inputBuffer
        serial := c.serial.print out
        inputBuffer := row }, 1, (n : Int)) := by
  obtain ⟨s1, s2, s3, s4, s5⟩ := hs
  have h0 : 0 < c.historyBuffers.length := by omega
  have hs0 : c.historyBuffers[0].length = INPUT_BUFFER_SIZE := s3 _ (List.getElem_mem _)
  have hrl : row.length = INPUT_BUFFER_SIZE := s3 _ (List.getElem?_mem hrow)
  have r0 : rd c.historyBuffers 0 = .ok c.historyBuffers[0] := rd_ok _ 0 h0
  have w0 : wr c.historyBuffers 0 c.inputBuffer = .ok (c.historyBuffers.set 0 c.inputBuffer) :=
    wr_ok _ 0 _ h0
  have hrow' : (c.historyBuffers.set 0 c.inputBuffer)[1]? = some row := by
    rw [List.getElem?_set_ne (by omega)]; exact hrow
  have hp := printHistoryBuffer_ok
    { c with historyBuffers := c.historyBuffers.set 0 c.inputBuffer } 1 n row hrow' hlen
    (by omega)
  have r1 : rd (c.historyBuffers.set 0 c.inputBuffer) ((0 : Int) + 1) = .ok row :=
    rd_of_getElem? _ 1 _ hrow'
  have hp' : printHistoryBuffer
      { c with historyBuffers := c.historyBuffers.set 0 c.inputBuffer } ((0 : Int) + 1) = _ := hp
  have e0 : rd [91, 65] 0 = .ok 91 := by simp [rd]
  have e1 : rd [91, 65] 1 = .ok 65 := by simp [rd]
  have hb : bufferCopy c.inputBuffer row = .ok row := bufferCopy_ok _ _ s5 hrl
  refine ⟨[27, 91, 50, 75, 13, ENTRY_PREFIX] ++ row.take n, ?_⟩
  unfold catchEscapeSequence.parse
  simp only [e0, e1, bind, Except.bind, pure, Except.pure, if_true]
  rw [if_neg (show ¬ ((65 : Nat) = 67) by decide)]
  simp only [Bool.false_eq_true, if_false]
  rw [if_neg (fun h => absurd h.1 (by decide)), if_pos ⟨trivial, trivial, by decide⟩]
  simp only [r0, bufferCopy_ok _ _ hs0 s5, w0, hp', r1, hb]
  rfl

/-- A typed line at the prompt: the console `getSerialInput` returns. -/
theorem getSerialInput_typed (c : Console) (a tmo : Bool)
    (typed rest : List (Nat × Nat)) (tE : Nat)
    (hs : c.Sized) (he : c.EndsInRange)
    (hrx : c.serial.rx = typed ++ (tE, ENTER) :: rest)
    (hn : typed.length ≤ INPUT_BUFFER_SIZE - 2)
    (hp : ∀ p ∈ typed, Printable p.2)
    (ht : ArrivesInTime c.serial.now (typed ++ [(tE, ENTER)])) :
    ∃ c1, getSerialInput c 0 a tmo = .ok (c1, 0, false) ∧ c1.Sized ∧ c1.EndsInRange ∧
      c1.Frame c ∧
      c1.inputBuffer.take typed.length = typed.map Prod.snd ∧
      c1.inputBuffer[typed.length]? = some 0 ∧
      c1.inputEnds[0]? = some (typed.length : Int) ∧
      c1.serial.rx = rest ∧
      c1.serial.now = lastRead c.serial.now (typed ++ [(tE, ENTER)]) := by
  have hinv := getSerialInput_inv c 0 a tmo hs he ⟨le_refl _, by decide⟩
  obtain ⟨s1, s2, s3, s4, s5⟩ := hs
  have hl0 : 0 < c.inputEnds.length := by omega
  have w0 : wr c.inputEnds 0 0 = .ok (c.inputEnds.set 0 0) := wr_ok _ 0 _ hl0
  obtain ⟨f, r, hr, hf, h1, h2, h3, h4, h5, h6, h7⟩ := typing_loop a tE rest typed
    { con := { c with inputEnds := c.inputEnds.set 0 0 }, historyIndex := 0, inputIndex := 0,
      finished := false, exit := false, timeoutCounter := 0 } 0 rfl rfl
    (by show (c.inputEnds.set 0 0)[0]? = _; simp [hl0]) rfl rfl rfl s5 hrx
    (by omega) hp ht
  have hfb : f ≤ getSerialInput.bound c := by
    simp only [getSerialInput.bound, hrx, List.length_append, List.length_cons,
      CONSOLE_CONTROL_TIMEOUT_MS] at hf ⊢
    omega
  have hr' := loop_mono a f _ _ r hr hfb
  have hlen : typed.length < r.con.inputBuffer.length := by
    simp only [h4, INPUT_BUFFER_SIZE] at hn ⊢; omega
  have e3 : rd r.con.inputEnds 0 = .ok (typed.length : Int) :=
    rd_of_getElem? _ 0 _ (by simpa using h3)
  have e1 : getSerialInput c 0 a tmo =
      .ok ({ r.con with inputBuffer := r.con.inputBuffer.set typed.length 0 }, 0, false) := by
    simp only [getSerialInput, getSerialInput.init, w0, bind, Except.bind, pure, Except.pure,
      hr', h2, e3, wr_ok _ _ _ hlen, h1]
  rcases hinv with ⟨c', h', ex, e', hs', he', _, _, hfr⟩ | e'
  swap
  · rw [e1] at e'
    cases e'
  have e2 := e'.symm.trans e1
  have ec : c' = { r.con with inputBuffer := r.con.inputBuffer.set typed.length 0 } := by
    injection e2 with e2
    exact congrArg Prod.fst e2
  subst ec
  refine ⟨_, e1, hs', he', hfr, ?_, ?_, ?_, h6, h7⟩
  · show (r.con.inputBuffer.set typed.length 0).take typed.length = _
    rw [take_set_of_le _ _ _ _ (le_refl _)]
    simpa using h5
  · show (r.con.inputBuffer.set typed.length 0)[typed.length]? = _
    simp [hlen]
  · simpa using h3

theorem findAndCheckCommandIndex_console (c c' : Console) (command : List Nat) (m : Int)
    (h : findAndCheckCommandIndex c command = .ok (c', m)) :
    ∃ out, c' = { c with serial := c.serial.print out } := by
  unfold findAndCheckCommandIndex at h
  simp only [bind, Except.bind, pure, Except.pure] at h
  cases hl : findAndCheckCommandIndex.loop c.commands command c.commandNum.toNat 0 with
  | error e => rw [hl] at h; cases h
  | ok idx =>
    rw [hl] at h
    simp only at h
    split_ifs at h with hi
    · cases hc : cstr command with
      | error e => rw [hc] at h; cases h
      | ok name =>
        rw [hc] at h
        simp only [Except.ok.injEq, Prod.mk.injEq] at h
        refine ⟨[39] ++ name ++ (str
          "' is not a command. You can use the '@help' command to list all possible commands." ++
            [13, 10]), ?_⟩
        rw [← h.1]
        simp [Serial.println, Serial.print]
    · simp only [Except.ok.injEq, Prod.mk.injEq] at h
      exact ⟨[], by rw [← h.1, Serial.print_nil]⟩

theorem getParametersFromInput_loop_console (c : Console) (commandIndex : Int) (k : Nat) :
    ∀ (parameterIndex : Nat) (parameters ps : Parameters) (c' : Console) (b : Bool),
      getParametersFromInput.loop c commandIndex k parameterIndex parameters = .ok (c', ps, b) →
      ∃ out, c' = { c with serial := c.serial.print out } := by
  induction k with
  | zero =>
    intro pi parameters ps c' b h
    simp only [getParametersFromInput.loop, Except.ok.injEq, Prod.mk.injEq] at h
    exact ⟨[], by rw [← h.1, Serial.print_nil]⟩
  | succ k ih =>
    intro pi parameters ps c' b h
    simp only [getParametersFromInput.loop, bind, Except.bind, pure, Except.pure] at h
    split at h
    · cases h
    split at h
    · cases h
    split at h
    · cases h
    split at h
    · cases h
    split at h
    · cases h
    split at h
    · cases h
    split_ifs at h
    · simp only [Except.ok.injEq, Prod.mk.injEq] at h
      refine ⟨?out, ?_⟩
      case out => exact str "Too few parameters!" ++ [13, 10] ++ str "Correct format: " ++
        ((by assumption : Command).use ++ [13, 10])
      rw [← h.1]
      simp only [Serial.println, Serial.print_print]
    · exact ih _ _ _ _ _ h
theorem incrementBufferHistory_range (c c' : Console) (h : Nat) (hs : c.Sized)
    (hh : h ≤ COMMAND_HISTORY_LENGTH) (he : c.EndsInRange)
    (e : incrementBufferHistory c (h : Int) = .ok c') : c'.EndsInRange := by
  obtain ⟨hb, ie, e', hsz, _, _, g0, g1, g⟩ := incrementBufferHistory_spec c h hs hh
  rw [e] at e'
  cases e'
  intro v hv
  obtain ⟨i, hi, hiv⟩ := List.getElem_of_mem hv
  have hi' : i < COMMAND_HISTORY_LENGTH + 1 := by
    have := hsz.2.2.2.1
    exact this ▸ hi
  have hiv' : ie[i]? = some v := by rw [List.getElem?_eq_getElem hi, hiv]
  have hmem : v ∈ c.inputEnds := by
    rcases Nat.lt_or_ge i 2 with h2 | h2
    · have : ie[i]? = c.inputEnds[h]? := by
        interval_cases i
        · exact g0
        · exact g1
      rw [this] at hiv'
      exact List.getElem?_mem hiv'
    · obtain ⟨x, rfl⟩ : ∃ x, i = x + 1 := ⟨i - 1, by omega⟩
      rw [(g x (by omega) (by omega)).2] at hiv'
      exact List.getElem?_mem hiv'
  exact he v hmem

/-- What `runSerialCommands.dispatch` changes when it returns: the history,
by one push, and the transmitted bytes and the record of calls. -/
theorem dispatch_effect (c c2 : Console) (h : Nat) (hs : c.Sized)
    (hh : h ≤ COMMAND_HISTORY_LENGTH)
    (hd : runSerialCommands.dispatch c (h : Int) = .ok c2) :
    c2.Sized ∧ (c.EndsInRange → c2.EndsInRange) ∧
      c2.commands = c.commands ∧ c2.commandNum = c.commandNum ∧ c2.garbage = c.garbage ∧
      c2.inputBuffer = c.inputBuffer ∧
      c2.historyBuffers[1]? = some c.inputBuffer ∧ c2.inputEnds[1]? = c.inputEnds[h]? ∧
      c2.serial.rx = c.serial.rx ∧ c2.serial.now = c.serial.now := by
  unfold runSerialCommands.dispatch at hd
  simp only [bind, Except.bind, pure, Except.pure] at hd
  cases htok : getToken (uninit c.garbage MAX_PARAMETER_LENGTH) c.inputBuffer 0 with
  | error e => rw [htok] at hd; cases hd
  | ok command =>
    rw [htok] at hd
    simp only at hd
    cases hfind : findAndCheckCommandIndex c command with
    | error e => rw [hfind] at hd; cases hd
    | ok r =>
      obtain ⟨c', m⟩ := r
      rw [hfind] at hd
      simp only at hd
      obtain ⟨out, rfl⟩ := findAndCheckCommandIndex_console c _ command m hfind
      have hs1 : ({ c with serial := c.serial.print out } : Console).Sized := hs
      obtain ⟨hb, ie, e, hsz, _, g1, _, g2, _⟩ :=
        incrementBufferHistory_spec { c with serial := c.serial.print out } h hs1 hh
      have hr := fun he => incrementBufferHistory_range _ _ h hs1 hh he e
      rw [e] at hd
      simp only at hd
      split_ifs at hd with hm
      · cases hpar : getParametersFromInput
            { c with serial := c.serial.print out, historyBuffers := hb, inputEnds := ie }
            (List.replicate MAX_PARAMETERS (uninit c.garbage MAX_PARAMETER_LENGTH)) m with
        | error e => rw [hpar] at hd; cases hd
        | ok r =>
          obtain ⟨c3, ps, enough⟩ := r
          rw [hpar] at hd
          simp only at hd
          have hpar' := hpar
          unfold getParametersFromInput at hpar'
          simp only [bind, Except.bind] at hpar'
          split at hpar'
          · cases hpar'
          obtain ⟨out2, rfl⟩ := getParametersFromInput_loop_console _ _ _ _ _ _ _ _ hpar'
          cases enough
          · simp only [Bool.false_eq_true, if_false, Except.ok.injEq] at hd
            subst hd
            exact ⟨hsz, hr, rfl, rfl, rfl, rfl, g1, g2, rfl, rfl⟩
          · simp only [if_true] at hd
            split at hd
            · cases hd
            simp only [Except.ok.injEq] at hd
            subst hd
            exact ⟨hsz, hr, rfl, rfl, rfl, rfl, g1, g2, rfl, rfl⟩
      · simp only [Except.ok.injEq] at hd
        subst hd
        exact ⟨hsz, hr, rfl, rfl, rfl, rfl, g1, g2, rfl, rfl⟩

theorem loop_wait_empty (a : Bool) (d : Nat) (st : LoopState) (f : Nat) (len : Int)
    (hrx : st.con.serial.rx = [])
    (hT : st.timeoutCounter + d ≤ CONSOLE_CONTROL_TIMEOUT_MS)
    (hrd : rd st.con.inputEnds st.historyIndex = .ok len)
    (hlen : len < (INPUT_BUFFER_SIZE : Int) - 1) (hfin : st.finished = false) :
    getSerialInput.loop a (f + d) st = getSerialInput.loop a f (st.waited d) := by
  induction d generalizing st with
  | zero => rfl
  | succ d ih =>
    have hav : st.con.serial.available = false := by
      simp only [Serial.available, hrx]
    have hstep : getSerialInput.step a st = .ok (st.waited 1, true) := by
      unfold getSerialInput.step
      simp only [hrd, bind, Except.bind, pure, Except.pure]
      rw [if_pos ⟨hlen, hfin⟩, if_pos hav, if_pos (by omega)]
      rfl
    have e1 : f + (d + 1) = (f + d) + 1 := by omega
    rw [e1, getSerialInput.loop]
    simp only [hstep, bind, Except.bind, if_true]
    rw [ih (st.waited 1) hrx (by simp only [LoopState.waited]; omega) hrd hfin]
    congr 1
    simp only [LoopState.waited, Serial.delay]
    congr 1
    · congr 2
      omega
    · omega

/-- With nothing more to arrive the loop of `getSerialInput` counts the
timeout out and ends with `exit` set. -/
theorem loop_timeout (a : Bool) (st : LoopState) (f : Nat) (len : Int)
    (hrx : st.con.serial.rx = [])
    (hT : st.timeoutCounter ≤ CONSOLE_CONTROL_TIMEOUT_MS)
    (hrd : rd st.con.inputEnds st.historyIndex = .ok len)
    (hlen : len < (INPUT_BUFFER_SIZE : Int) - 1) (hfin : st.finished = false) :
    getSerialInput.loop a (f + 1 + (CONSOLE_CONTROL_TIMEOUT_MS - st.timeoutCounter)) st =
      .ok { st.waited (CONSOLE_CONTROL_TIMEOUT_MS - st.timeoutCounter) with exit := true } := by
  rw [loop_wait_empty a _ st (f + 1) len hrx (by omega) hrd hlen hfin]
  have hav : (st.waited (CONSOLE_CONTROL_TIMEOUT_MS - st.timeoutCounter)).con.serial.available =
      false := by
    simp only [Serial.available, LoopState.waited, Serial.delay, hrx]
  have hc : ¬ (st.waited (CONSOLE_CONTROL_TIMEOUT_MS - st.timeoutCounter)).timeoutCounter <
      CONSOLE_CONTROL_TIMEOUT_MS := by
    simp only [LoopState.waited]; omega
  have hstep : getSerialInput.step a (st.waited (CONSOLE_CONTROL_TIMEOUT_MS - st.timeoutCounter)) =
      .ok ({ st.waited (CONSOLE_CONTROL_TIMEOUT_MS - st.timeoutCounter) with exit := true },
        false) := by
    unfold getSerialInput.step
    have hrd' : rd (st.waited (CONSOLE_CONTROL_TIMEOUT_MS - st.timeoutCounter)).con.inputEnds
        (st.waited (CONSOLE_CONTROL_TIMEOUT_MS - st.timeoutCounter)).historyIndex = .ok len := hrd
    simp only [hrd', bind, Except.bind, pure, Except.pure]
    rw [if_pos ⟨hlen, hfin⟩, if_pos hav, if_neg hc]
  rw [getSerialInput.loop]
  simp only [hstep, bind, Except.bind, pure, Except.pure, Bool.false_eq_true, if_false]

theorem runSerialCommands_loop_step (fuel : Nat) (c c1 c2 : Console) (h : Int)
    (e1 : getSerialInput { c with serial := c.serial.print [ENTRY_PREFIX] } 0 true true =
      .ok (c1, h, false))
    (e2 : runSerialCommands.dispatch { c1 with serial := c1.serial.println [] } h = .ok c2) :
    runSerialCommands.loop (fuel + 1) c = runSerialCommands.loop fuel c2 := by
  rw [runSerialCommands.loop]
  simp only [e1, e2, bind, Except.bind, Bool.false_eq_true, if_false]

theorem runSerialCommands_loop_exit (fuel : Nat) (c c1 : Console) (h : Int)
    (e1 : getSerialInput { c with serial := c.serial.print [ENTRY_PREFIX] } 0 true true =
      .ok (c1, h, true)) :
    runSerialCommands.loop (fuel + 1) c = .ok { c1 with serial := c1.serial.println [] } := by
  rw [runSerialCommands.loop]
  simp only [e1, bind, Except.bind, if_true, pure, Except.pure]

set_option maxRecDepth 1000000 in
/-- Claim C12 fails: the recall is handled by a call of `catchEscapeSequence`,
a function declared `bool` that holds no `return` statement. In the example
session the line `echo,hi` is typed and submitted with ENTER; it is read and
dispatched, which leaves the console `exampleSessionDispatched`. At the next
prompt the bytes ESCAPE `[` `A` arrive and ENTER follows 100 milliseconds
later. The statements of `catchEscapeSequence` copy the line `echo,hi` from
slot 1 to `inputBuffer`, but control then reaches the closing brace of the
function: the behaviour is undefined, the call does not return to
`getSerialInput`, the ENTER byte is not read and the line is not dispatched
again; the session ends in the fault `noReturn`. When the ENTER byte arrives
in one burst with ESCAPE `[` `A`, the statements of `catchEscapeSequence`
discard it with the rest of the burst before the line is recalled. -/
theorem recall_ends_in_fault :
    (runSerialCommands exampleSession).map (fun c => c.calls) = .error .noReturn ∧
    ((getSerialInput { exampleSession with
          serial := exampleSession.serial.print [ENTRY_PREFIX] } 0 true true).bind
        (fun r =>
          runSerialCommands.dispatch { r.1 with serial := r.1.serial.println [] } r.2.1)).map
        (fun c => (c.historyBuffers, c.inputEnds, c.inputBuffer, c.serial)) =
      .ok (exampleSessionDispatched.historyBuffers, exampleSessionDispatched.inputEnds,
        exampleSessionDispatched.inputBuffer, exampleSessionDispatched.serial) ∧
    (getSerialInput { exampleSessionDispatched with
          serial := exampleSessionDispatched.serial.print [ENTRY_PREFIX] } 0 true true).map
        (fun r => r.2.2) = .error .noReturn ∧
    (catchEscapeSequence.body { exampleSessionDispatched with
          serial := ⟨102, [(100, 91), (101, 65), (200, 13)], []⟩ } 0 0 true).map
        (fun r => (lineOf r.1.inputBuffer, r.2.1, r.2.2, r.1.serial.rx)) =
      .ok (str "echo,hi", 1, 7, [(200, 13)]) ∧
    (catchEscapeSequence.body { exampleSessionDispatched with
          serial := ⟨102, [(100, 91), (100, 65), (100, 13)], []⟩ } 0 0 true).map
        (fun r => (lineOf r.1.inputBuffer, r.2.1, r.2.2, r.1.serial.rx)) =
      .ok (str "echo,hi", 1, 7, []) := by
  refine ⟨?_, ?_, ?_, ?_, ?_⟩ <;> decide

/-! ## The push into the history, slot by slot -/

/-- Claim C21: for arrays of the declared sizes and every `historyIndex` `h`
in `[0, COMMAND_HISTORY_LENGTH]`, `incrementBufferHistory(h)` returns; slot 1
then holds `inputBuffer` with recorded length the old `inputEnds[h]`; every
slot `i` with `2 <= i <= COMMAND_HISTORY_LENGTH` holds the characters and the
length of the old slot `i-1`; the slots are `inputBuffer` twice followed by
the old slots 1 to `COMMAND_HISTORY_LENGTH-1`, so the old last slot is in none
of them; and `inputBuffer` is as it was. -/
theorem incrementBufferHistory_shifts (c : Console) (h : Nat) (hs : c.Sized)
    (hh : h ≤ COMMAND_HISTORY_LENGTH) :
    ∃ c', incrementBufferHistory c (h : Int) = .ok c' ∧
      c'.historyBuffers[1]? = some c.inputBuffer ∧ c'.inputEnds[1]? = c.inputEnds[h]? ∧
      (∀ i, 2 ≤ i → i ≤ COMMAND_HISTORY_LENGTH →
        c'.historyBuffers[i]? = c.historyBuffers[i - 1]? ∧
        c'.inputEnds[i]? = c.inputEnds[i - 1]?) ∧
      c'.historyBuffers = c.inputBuffer :: c.inputBuffer ::
        (c.historyBuffers.take COMMAND_HISTORY_LENGTH).drop 1 ∧
      c'.inputEnds.length = COMMAND_HISTORY_LENGTH + 1 ∧
      c'.inputBuffer = c.inputBuffer := by
  obtain ⟨hb, ie, e, hsz, g0, g1, k0, k1, g⟩ := incrementBufferHistory_spec c h hs hh
  have hl : hb.length = COMMAND_HISTORY_LENGTH + 1 := hsz.2.1
  have hl0 : c.historyBuffers.length = COMMAND_HISTORY_LENGTH + 1 := hs.2.1
  refine ⟨_, e, g1, k1, fun i h2 h5 => ?_, ?_, hsz.2.2.2.1, rfl⟩
  · obtain ⟨x, rfl⟩ : ∃ x, i = x + 1 := ⟨i - 1, by omega⟩
    exact g x (by omega) (by omega)
  · show hb = _
    apply List.ext_getElem?
    intro j
    match j with
    | 0 => simpa using g0
    | 1 => simpa using g1
    | x + 2 =>
      simp only [List.getElem?_cons_succ, List.getElem?_drop, List.getElem?_take]
      by_cases hx : x + 1 < COMMAND_HISTORY_LENGTH
      · rw [(g (x + 1) (by omega) hx).1, if_pos (by omega)]
        congr 1
        omega
      · rw [if_neg (by omega), List.getElem?_eq_none (by omega)]

theorem incrementBufferHistory_shifts_witness :
    ∃ c', incrementBufferHistory exampleRecall ((1 : Nat) : Int) = .ok c' ∧
      c'.historyBuffers[1]? = some exampleRecall.inputBuffer ∧
      c'.inputEnds[1]? = exampleRecall.inputEnds[1]? ∧
      (∀ i, 2 ≤ i → i ≤ COMMAND_HISTORY_LENGTH →
        c'.historyBuffers[i]? = exampleRecall.historyBuffers[i - 1]? ∧
        c'.inputEnds[i]? = exampleRecall.inputEnds[i - 1]?) ∧
      c'.historyBuffers = exampleRecall.inputBuffer :: exampleRecall.inputBuffer ::
        (exampleRecall.historyBuffers.take COMMAND_HISTORY_LENGTH).drop 1 ∧
      c'.inputEnds.length = COMMAND_HISTORY_LENGTH + 1 ∧
      c'.inputBuffer = exampleRecall.inputBuffer :=
  incrementBufferHistory_shifts exampleRecall 1 (by decide) (by decide)

/-! ## Older, then newer -/

/-- The down arrow at `historyIndex` 1: slot 0 is printed and copied to
`inputBuffer`, the cursor goes to its end. -/
theorem parse_down_to_zero (c : Console) (ci : Int) (row : List Nat) (n : Nat)
    (hs : c.Sized) (hrow : c.historyBuffers[0]? = some row)
    (hlen : c.inputEnds[0]? = some (n : Int)) (hn : n ≤ INPUT_BUFFER_SIZE) :
    ∃ out, catchEscapeSequence.parse c [91, 66] 1 ci true =
      .ok ({ c with serial := c.serial.print out, inputBuffer := row }, 0, (n : Int)) := by
  obtain ⟨s1, s2, s3, s4, s5⟩ := hs
  have hrl : row.length = INPUT_BUFFER_SIZE := s3 _ (List.getElem?_mem hrow)
  have hp := printHistoryBuffer_ok c 0 n row hrow hlen (by omega)
  have hp' : printHistoryBuffer c ((1 : Int) - 1) = _ := hp
  have r1 : rd c.historyBuffers ((1 : Int) - 1) = .ok row := rd_of_getElem? _ 0 _ hrow
  have e0 : rd [91, 66] 0 = .ok 91 := by simp [rd]
  have e1 : rd [91, 66] 1 = .ok 66 := by simp [rd]
  have hb : bufferCopy c.inputBuffer row = .ok row := bufferCopy_ok _ _ s5 hrl
  refine ⟨[27, 91, 50, 75, 13, ENTRY_PREFIX] ++ row.take n, ?_⟩
  unfold catchEscapeSequence.parse
  simp only [e0, e1, bind, Except.bind, pure, Except.pure, if_true]
  rw [if_neg (show ¬ ((66 : Nat) = 67) by decide)]
  simp only [Bool.false_eq_true, if_false]
  rw [if_neg (fun h => absurd h.1 (by decide)), if_neg (fun h => absurd h.1 (by decide)),
    if_pos ⟨trivial, trivial, by decide⟩]
  simp only [hp', r1, hb]
  rfl

/-- The statements of two calls of `catchEscapeSequence` with `allowHistory`
set, arrays of the declared sizes and recorded lengths in range: on the burst
`[` `A` at `historyIndex` 0 control reaches the closing brace with
`historyIndex` 1, and on the burst `[` `B` from there it reaches the closing
brace with `historyIndex` 0, `inputBuffer` and every recorded length as they
were before the two sequences, and the cursor at `inputEnds[0]`. -/
theorem body_older_then_newer (c : Console) (ci : Int) (s2 : Serial)
    (t1 t2 u1 u2 : Nat) (rest1 rest2 : List (Nat × Nat))
    (hs : c.Sized) (he : c.EndsInRange)
    (hrx1 : c.serial.rx = (t1, 91) :: (t2, 65) :: rest1)
    (ht1 : t1 ≤ c.serial.now) (ht2 : t2 ≤ c.serial.now + ESC_CODE_MS)
    (hrx2 : s2.rx = (u1, 91) :: (u2, 66) :: rest2)
    (hu1 : u1 ≤ s2.now) (hu2 : u2 ≤ s2.now + ESC_CODE_MS) :
    ∃ c1 c2 n1 n0, catchEscapeSequence.body c 0 ci true = .ok (c1, 1, n1) ∧
      catchEscapeSequence.body { c1 with serial := s2 } 1 n1 true = .ok (c2, 0, n0) ∧
      c2.inputBuffer = c.inputBuffer ∧
      c2.inputEnds = c.inputEnds ∧
      c.inputEnds[0]? = some n0 := by
  obtain ⟨sa, ea, _⟩ := catchEscapeSequence_body_two c 0 ci true t1 91 t2 65 rest1 hrx1 ht1 ht2
  obtain ⟨row1, hrow1, _⟩ := hs.row (show 1 ≤ COMMAND_HISTORY_LENGTH by decide)
  obtain ⟨n1, hn1, hn1b⟩ := he.entry hs (show 1 ≤ COMMAND_HISTORY_LENGTH by decide)
  obtain ⟨n0, hn0, hn0b⟩ := he.entry hs (show 0 ≤ COMMAND_HISTORY_LENGTH by decide)
  obtain ⟨out1, e1⟩ := parse_up_from_zero { c with serial := sa } ci row1 n1 hs hrow1 hn1
    (by simp only [INPUT_BUFFER_SIZE] at hn1b ⊢; omega)
  have hs1 := hs
  obtain ⟨s1, s2', s3, s4, s5⟩ := hs1
  have hl0 : 0 < c.historyBuffers.length := by omega
  have hsz : ({ c with
      historyBuffers := c.historyBuffers.set 0 c.inputBuffer
      serial := s2
      inputBuffer := row1 } : Console).Sized := by
    refine ⟨s1, by simpa using s2', ?_, s4, s3 _ (List.getElem?_mem hrow1)⟩
    intro b hb
    rcases List.mem_or_eq_of_mem_set hb with hb | hb
    · exact s3 b hb
    · rw [hb]; exact s5
  obtain ⟨sb, eb, _⟩ := catchEscapeSequence_body_two
    { c with
      historyBuffers := c.historyBuffers.set 0 c.inputBuffer
      serial := s2
      inputBuffer := row1 } 1 n1 true u1 91 u2 66 rest2 hrx2 hu1 hu2
  obtain ⟨out2, e2⟩ := parse_down_to_zero
    { c with
      historyBuffers := c.historyBuffers.set 0 c.inputBuffer
      serial := sb
      inputBuffer := row1 } n1 c.inputBuffer n0 hsz
    (List.getElem?_set_self hl0) hn0 (by simp only [INPUT_BUFFER_SIZE] at hn0b ⊢; omega)
  exact ⟨_, _, n1, n0, ea.trans e1, eb.trans e2, rfl, rfl, hn0⟩

set_option maxRecDepth 1000000 in
/-- Claim C23 fails: `catchEscapeSequence` is declared `bool` and holds no
`return` statement. In the example the line `abc` is being edited at
`historyIndex` 0 with the cursor at its end, slot 1 of the history holds `xy`
and the burst `[` `A` has arrived. The statements of the call recall `xy`
(`historyIndex` 1, cursor 2), and the statements of a second call on the
burst `[` `B` would restore `inputBuffer`, the recorded lengths,
`historyIndex` 0 and the cursor 3; but control reaches the closing brace of
the function in the first call already: the behaviour is undefined, the call
does not return, and the second sequence is not processed. -/
theorem older_then_newer_ends_in_fault :
    (catchEscapeSequence exampleOlder 0 3 true).map (fun r => r.2.1) = .error .noReturn ∧
    (catchEscapeSequence.body exampleOlder 0 3 true).map
        (fun r => (lineOf r.1.inputBuffer, r.1.inputEnds, r.2.1, r.2.2)) =
      .ok (str "xy", [3, 2, 0, 0, 0, 0], 1, 2) ∧
    ((catchEscapeSequence.body exampleOlder 0 3 true).bind
        (fun r => catchEscapeSequence.body
          { r.1 with serial := ⟨10, [(10, 91), (10, 66)], []⟩ } r.2.1 r.2.2 true)).map
        (fun r => (r.1.inputBuffer, r.1.inputEnds, r.2.1, r.2.2)) =
      .ok (exampleOlder.inputBuffer, exampleOlder.inputEnds, 0, 3) := by
  refine ⟨?_, ?_, ?_⟩ <;> decide

/-! ## The terminal -/

theorem Terminal.feed_append (t : Terminal) (a b : List Nat) :
    t.feed (a ++ b) = (t.feed a).feed b := by
  simp [Terminal.feed, List.foldl_append]

/-- Bytes other than backspace and ESCAPE are written one after the other
from the column on. -/
theorem Terminal.feed_plain (s : List Nat) :
    ∀ (t : Terminal), t.mode = .ground → (∀ b ∈ s, b ≠ 8 ∧ b ≠ 27) →
      t.column ≤ t.row.length →
      t.feed s = { t with
        row := t.row.take t.column ++ s ++ t.row.drop (t.column + s.length)
        column := t.column + s.length } := by
  induction s with
  | nil =>
    intro t _ _ _
    simp [Terminal.feed]
  | cons b s ih =>
    intro t hm hs hc
    have hb := hs b (List.mem_cons_self _ _)
    have hstep : t.step b = t.put b := by
      simp only [Terminal.step, hm, if_neg hb.1, if_neg hb.2]
    have h0 : t.column - t.row.length = 0 := by omega
    have hfeed : t.feed (b :: s) = (t.put b).feed s := by
      simp only [Terminal.feed, List.foldl_cons, hstep]
    rw [hfeed, ih (t.put b) hm (fun q hq => hs q (List.mem_cons_of_mem _ hq))
      (by simp only [Terminal.put, h0]; simp; omega)]
    simp only [Terminal.put, h0, List.replicate_zero, List.append_nil, List.length_cons]
    congr 1
    · have hl : (List.take t.column t.row).length = t.column := by simp; omega
      rw [List.append_assoc (List.take t.column t.row) [b], List.take_append_eq_append_take,
        List.drop_append_eq_append_drop, hl]
      simp only [List.take_of_length_le (show (List.take t.column t.row).length ≤ t.column + 1 by
        omega), List.drop_of_length_le (show (List.take t.column t.row).length ≤
        t.column + 1 + s.length by omega), List.nil_append]
      rw [show t.column + 1 - t.column = 1 by omega,
        show t.column + 1 + s.length - t.column = 1 + s.length by omega]
      simp only [List.take_succ_cons, List.take_zero, List.singleton_append, List.cons_append,
        List.append_assoc, List.nil_append, List.append_cancel_left_eq, List.cons.injEq, true_and]
      rw [show 1 + s.length = s.length + 1 by omega, List.drop_succ_cons, List.drop_drop]
      congr 1
      omega
    · omega

/-- Decimal digits inside a cursor-left escape extend its count. -/
theorem Terminal.feed_digits (ds : List Nat) :
    ∀ (t : Terminal) (k : Nat), t.mode = .csi k → (∀ d ∈ ds, 48 ≤ d ∧ d ≤ 57) →
      t.feed ds = { t with mode := .csi (ds.foldl (fun a d => 10 * a + (d - 48)) k) } := by
  induction ds with
  | nil =>
    intro t k hm _
    simp [Terminal.feed, ← hm]
  | cons d ds ih =>
    intro t k hm hd
    have h1 := hd d (List.mem_cons_self _ _)
    have hstep : t.step d = { t with mode := .csi (10 * k + (d - 48)) } := by
      simp only [Terminal.step, hm, if_pos h1]
    have hfeed : t.feed (d :: ds) = (t.step d).feed ds := by
      simp only [Terminal.feed, List.foldl_cons]
    rw [hfeed, hstep, ih _ (10 * k + (d - 48)) rfl (fun q hq => hd q (List.mem_cons_of_mem _ hq))]
    rfl

/-- The escape ESCAPE `[` digits `D` moves the column left by the number the
digits stand for, and that number is recorded. -/
theorem Terminal.feed_left (t : Terminal) (ds : List Nat) (hm : t.mode = .ground)
    (hd : ∀ d ∈ ds, 48 ≤ d ∧ d ≤ 57) :
    t.feed ([27, 91] ++ ds ++ [68]) =
      { t with column := t.column - digitsValue ds, lefts := t.lefts ++ [digitsValue ds] } := by
  rw [Terminal.feed_append, Terminal.feed_append]
  have h1 : t.feed [27, 91] = { t with mode := .csi 0 } := by
    simp [Terminal.feed, Terminal.step, hm]
  rw [h1, Terminal.feed_digits ds _ 0 rfl hd]
  simp [Terminal.feed, Terminal.step, digitsValue, hm]

/-- What `Serial.print` writes for a count up to 50 is decimal digits that
stand for the count. -/
theorem decimal_digits : ∀ k < 51,
    (∀ d ∈ Serial.decimal ((k : Nat) : Int), 48 ≤ d ∧ d ≤ 57) ∧
      digitsValue (Serial.decimal ((k : Nat) : Int)) = k := by
  decide

/-- A row that shows a line is the line followed by blanks. -/
theorem Terminal.Shows.row_eq {t : Terminal} {L : List Nat} {c : Nat} (h : t.Shows L c) :
    t.row = L ++ t.row.drop L.length := by
  conv_lhs => rw [← List.take_append_drop L.length t.row, h.2.2.1]

/-- The terminal after the bytes echoed for an insertion. -/
theorem Terminal.shows_insert (t : Terminal) (L : List Nat) (c x : Nat)
    (hshow : t.Shows L c) (hc : c ≤ L.length) (hx : x ≠ 8 ∧ x ≠ 27)
    (hk : L.length - c < 51) :
    (t.feed ([x] ++ if c < L.length then L.drop c ++ [27, 91] ++
        Serial.decimal ((L.length - c : Nat) : Int) ++ [68] else [])).Shows
      (L.take c ++ [x] ++ L.drop c) (c + 1) ∧
    (t.feed ([x] ++ if c < L.length then L.drop c ++ [27, 91] ++
        Serial.decimal ((L.length - c : Nat) : Int) ++ [68] else [])).lefts =
      t.lefts ++ if c < L.length then [L.length - c] else [] := by
  have hR := hshow.row_eq
  obtain ⟨hm, hcol, hrow, hbl, hpl⟩ := hshow
  have hout : ([x] ++ if c < L.length then L.drop c ++ [27, 91] ++
        Serial.decimal ((L.length - c : Nat) : Int) ++ [68] else []) =
      (x :: L.drop c) ++ if c < L.length then [27, 91] ++
        Serial.decimal ((L.length - c : Nat) : Int) ++ [68] else [] := by
    split_ifs with h
    · simp
    · simp [List.drop_of_length_le (show L.length ≤ c by omega)]
  have hplain : ∀ b ∈ x :: L.drop c, b ≠ 8 ∧ b ≠ 27 := by
    intro b hb
    rcases List.mem_cons.1 hb with rfl | hb
    · exact hx
    · exact hpl b (List.mem_of_mem_drop hb)
  have hlen : L.length ≤ t.row.length := by
    rw [hR]; simp
  have h1 := Terminal.feed_plain (x :: L.drop c) t hm hplain (by omega)
  have hrow1 : t.row.take t.column ++ (x :: L.drop c) ++
      t.row.drop (t.column + (x :: L.drop c).length) =
      (L.take c ++ [x] ++ L.drop c) ++ (t.row.drop L.length).drop 1 := by
    rw [hcol]
    have e1 : t.row.take c = L.take c := by
      rw [hR, List.take_append_of_le_length hc]
    have e2 : t.row.drop (c + (x :: L.drop c).length) = (t.row.drop L.length).drop 1 := by
      rw [List.drop_drop]
      congr 1
      simp only [List.length_cons, List.length_drop]
      omega
    rw [e1, e2]
    simp
  have hnl : (L.take c ++ [x] ++ L.drop c).length = L.length + 1 := by
    simp only [List.length_append, List.length_take, List.length_drop, List.length_singleton]
    omega
  have hshows : ∀ (t' : Terminal), t'.mode = .ground → t'.column = c + 1 →
      t'.row = (L.take c ++ [x] ++ L.drop c) ++ (t.row.drop L.length).drop 1 →
      t'.Shows (L.take c ++ [x] ++ L.drop c) (c + 1) := by
    intro t' g1 g2 g3
    refine ⟨g1, g2, by rw [g3, List.take_left], ?_, ?_⟩
    · rw [g3, List.drop_left]
      intro b hb
      exact hbl b (List.mem_of_mem_drop hb)
    · intro b hb
      simp only [List.mem_append, List.mem_singleton] at hb
      rcases hb with (hb | rfl) | hb
      · exact hpl b (List.mem_of_mem_take hb)
      · exact hx
      · exact hpl b (List.mem_of_mem_drop hb)
  have m1 : (t.feed (x :: L.drop c)).mode = .ground := by rw [h1]; exact hm
  have c1 : (t.feed (x :: L.drop c)).column = L.length + 1 := by
    rw [h1]
    show t.column + (x :: L.drop c).length = _
    simp only [List.length_cons, List.length_drop, hcol]
    omega
  have r1 : (t.feed (x :: L.drop c)).row =
      (L.take c ++ [x] ++ L.drop c) ++ (t.row.drop L.length).drop 1 := by
    rw [h1]; exact hrow1
  have l1 : (t.feed (x :: L.drop c)).lefts = t.lefts := by rw [h1]
  rw [hout, Terminal.feed_append]
  by_cases hlt : c < L.length
  · obtain ⟨hd, hv⟩ := decimal_digits (L.length - c) hk
    rw [if_pos hlt, if_pos hlt, Terminal.feed_left (t.feed (x :: L.drop c)) _ m1 hd, hv]
    refine ⟨hshows _ m1 ?_ r1, ?_⟩
    · show (t.feed (x :: L.drop c)).column - (L.length - c) = c + 1
      rw [c1]; omega
    · show (t.feed (x :: L.drop c)).lefts ++ [L.length - c] = _
      rw [l1]
  · rw [if_neg hlt, if_neg hlt]
    refine ⟨hshows _ m1 ?_ r1, ?_⟩
    · show (t.feed (x :: L.drop c)).column = c + 1
      rw [c1]; omega
    · show (t.feed (x :: L.drop c)).lefts = _
      rw [l1]; simp

/-- The terminal after the bytes echoed for a BACKSPACE. -/
theorem Terminal.shows_backspace (t : Terminal) (L : List Nat) (c : Nat)
    (hshow : t.Shows L c) (hc0 : 0 < c) (hc : c ≤ L.length) (hk : L.length - c + 1 < 51) :
    (t.feed (if c = L.length then [8, 32, 8] else [8] ++ L.drop c ++ [32, 27, 91] ++
        Serial.decimal ((L.length - c + 1 : Nat) : Int) ++ [68])).Shows
      (L.take (c - 1) ++ L.drop c) (c - 1) ∧
    (t.feed (if c = L.length then [8, 32, 8] else [8] ++ L.drop c ++ [32, 27, 91] ++
        Serial.decimal ((L.length - c + 1 : Nat) : Int) ++ [68])).lefts =
      t.lefts ++ if c = L.length then [] else [L.length - c + 1] := by
  have hR := hshow.row_eq
  obtain ⟨hm, hcol, hrow, hbl, hpl⟩ := hshow
  have hout : (if c = L.length then [8, 32, 8] else [8] ++ L.drop c ++ [32, 27, 91] ++
        Serial.decimal ((L.length - c + 1 : Nat) : Int) ++ [68]) =
      [8] ++ ((L.drop c ++ [32]) ++ if c = L.length then [8] else [27, 91] ++
        Serial.decimal ((L.length - c + 1 : Nat) : Int) ++ [68]) := by
    split_ifs with h
    · simp [List.drop_of_length_le (show L.length ≤ c by omega)]
    · simp
  have hplain : ∀ b ∈ L.drop c ++ [32], b ≠ 8 ∧ b ≠ 27 := by
    intro b hb
    rcases List.mem_append.1 hb with hb | hb
    · exact hpl b (List.mem_of_mem_drop hb)
    · rw [List.mem_singleton.1 hb]; decide
  have hlen : L.length ≤ t.row.length := by
    rw [hR]; simp
  have h0 : t.feed [8] = { t with column := c - 1 } := by
    simp [Terminal.feed, Terminal.step, hm, hcol]
  have h1 := Terminal.feed_plain (L.drop c ++ [32]) { t with column := c - 1 } hm hplain
    (by show c - 1 ≤ t.row.length; omega)
  have hrow1 : t.row.take (c - 1) ++ (L.drop c ++ [32]) ++
      t.row.drop (c - 1 + (L.drop c ++ [32]).length) =
      (L.take (c - 1) ++ L.drop c) ++ ([32] ++ t.row.drop L.length) := by
    have e1 : t.row.take (c - 1) = L.take (c - 1) := by
      rw [hR, List.take_append_of_le_length (by omega)]
    have e2 : c - 1 + (L.drop c ++ [32]).length = L.length := by
      simp only [List.length_append, List.length_drop, List.length_singleton]
      omega
    rw [e1, e2]
    simp
  have hnl : (L.take (c - 1) ++ L.drop c).length = L.length - 1 := by
    simp only [List.length_append, List.length_take, List.length_drop]
    omega
  have hshows : ∀ (t' : Terminal), t'.mode = .ground → t'.column = c - 1 →
      t'.row = (L.take (c - 1) ++ L.drop c) ++ ([32] ++ t.row.drop L.length) →
      t'.Shows (L.take (c - 1) ++ L.drop c) (c - 1) := by
    intro t' g1 g2 g3
    refine ⟨g1, g2, by rw [g3, List.take_left], ?_, ?_⟩
    · rw [g3, List.drop_left]
      intro b hb
      rcases List.mem_append.1 hb with hb | hb
      · exact List.mem_singleton.1 hb
      · exact hbl b hb
    · intro b hb
      rcases List.mem_append.1 hb with hb | hb
      · exact hpl b (List.mem_of_mem_take hb)
      · exact hpl b (List.mem_of_mem_drop hb)
  rw [hout, Terminal.feed_append, h0, Terminal.feed_append]
  have hcolumn : c - 1 + (L.drop c ++ [32]).length = L.length := by
    simp only [List.length_append, List.length_drop, List.length_singleton]
    omega
  generalize hT : ({ t with column := c - 1 } : Terminal).feed (L.drop c ++ [32]) = T at h1 ⊢
  have m1 : T.mode = .ground := by rw [h1]; exact hm
  have c1 : T.column = L.length := by rw [h1]; exact hcolumn
  have r1 : T.row = (L.take (c - 1) ++ L.drop c) ++ ([32] ++ t.row.drop L.length) := by
    rw [h1]; exact hrow1
  have l1 : T.lefts = t.lefts := by rw [h1]
  by_cases heq : c = L.length
  · rw [if_pos heq, if_pos heq]
    have h8 : T.feed [8] = { T with column := T.column - 1 } := by
      simp [Terminal.feed, Terminal.step, m1]
    rw [h8]
    refine ⟨hshows _ m1 ?_ r1, ?_⟩
    · show T.column - 1 = c - 1
      rw [c1]; omega
    · show T.lefts = _
      rw [l1]; simp
  · obtain ⟨hd, hv⟩ := decimal_digits (L.length - c + 1) hk
    rw [if_neg heq, if_neg heq, Terminal.feed_left T _ m1 hd, hv]
    refine ⟨hshows _ m1 ?_ r1, ?_⟩
    · show T.column - (L.length - c + 1) = c - 1
      rw [c1]; omega
    · show T.lefts ++ [L.length - c + 1] = _
      rw [l1]

/-- The bytes the default case of the switch writes. -/
theorem caseDefault_echo (st : LoopState) (h n c x : Nat)
    (hh : st.historyIndex = h) (hlen : st.con.inputEnds[h]? = some (n : Int))
    (hn : n + 1 < st.con.inputBuffer.length) (hc : st.inputIndex = c) (hcn : c ≤ n) :
    ∃ st', getSerialInput.caseDefault st x = .ok st' ∧
      st'.con.serial.tx = st.con.serial.tx ++ ([x] ++
        if c < n then (st.con.inputBuffer.drop c).take (n - c) ++ [27, 91] ++
          Serial.decimal ((n - c : Nat) : Int) ++ [68]
        else []) := by
  have hhl : h < st.con.inputEnds.length := by
    by_contra hcon
    rw [List.getElem?_eq_none (by omega)] at hlen
    cases hlen
  have e1 : (st.con.inputEnds.set h ((n : Int) + 1))[h]? = some ((n : Int) + 1) := by
    simp [hhl]
  have hcl : c < st.con.inputBuffer.length := by omega
  unfold getSerialInput.caseDefault
  simp only [hh, hc, rd_of_getElem? _ _ _ hlen, wr_ok _ _ _ hhl, bind, Except.bind,
    rd_of_getElem? _ _ _ e1, pure, Except.pure]
  by_cases hlt : c < n
  · have c1 : (c : Int) < (n : Int) + 1 - 1 := by omega
    have t1 : ((n : Int) + 1 - (c : Int)).toNat = n + 1 - c := by omega
    have t2 : ((n : Int) + 1 - ((c : Int) + 1)).toNat = n - c := by omega
    have t3 : (n : Int) + 1 = ((n + 1 : Nat) : Int) := by omega
    have t4 : (c : Int) + 1 = ((c + 1 : Nat) : Int) := by omega
    have t5 : ((n + 1 : Nat) : Int) - (c : Int) - 1 = ((n - c : Nat) : Int) := by omega
    obtain ⟨b1, eb, hl1, hx1⟩ := shiftRight_ok (n + 1 - c) (n + 1) st.con.inputBuffer
      (by omega) hn
    have hsuf : (b1.drop (c + 1)).take (n - c) = (st.con.inputBuffer.drop c).take (n - c) := by
      apply List.ext_getElem?
      intro i
      simp only [List.getElem?_take, List.getElem?_drop]
      split_ifs with hi
      · rw [hx1, if_pos (by omega)]
        congr 1
        omega
      · rfl
    rw [if_pos c1, t1, t2]
    simp only [t3, eb, t4]
    rw [echo_ok b1 (n - c) (c + 1) _ (by omega)]
    simp only [wr_ok b1 c x (by omega), Serial.printInt, Serial.print_print, t5, hsuf]
    refine ⟨_, rfl, ?_⟩
    simp only [Serial.print, if_pos hlt, List.append_assoc]
  · have c1 : ¬ ((c : Int) < (n : Int) + 1 - 1) := by omega
    rw [if_neg c1]
    simp only [wr_ok _ c x hcl]
    refine ⟨_, rfl, ?_⟩
    simp only [Serial.print, if_neg hlt, List.append_nil]

/-- The bytes the BACKSPACE case of the switch writes. -/
theorem caseBackspace_echo (st : LoopState) (h n c : Nat)
    (hh : st.historyIndex = h) (hlen : st.con.inputEnds[h]? = some (n : Int))
    (hn : n ≤ st.con.inputBuffer.length) (hc : st.inputIndex = c) (hc0 : 0 < c) (hcn : c ≤ n) :
    ∃ st', getSerialInput.caseBackspace st = .ok st' ∧
      st'.con.serial.tx = st.con.serial.tx ++
        if c = n then [8, 32, 8]
        else [8] ++ (st.con.inputBuffer.drop c).take (n - c) ++ [32, 27, 91] ++
          Serial.decimal ((n - c + 1 : Nat) : Int) ++ [68] := by
  have hhl : h < st.con.inputEnds.length := by
    by_contra hcon
    rw [List.getElem?_eq_none (by omega)] at hlen
    cases hlen
  have hpos : (c : Int) > 0 := by omega
  unfold getSerialInput.caseBackspace
  simp only [hh, hc, rd_of_getElem? _ _ _ hlen, wr_ok _ _ _ hhl, bind, Except.bind,
    pure, Except.pure, if_pos hpos]
  by_cases hlt : c = n
  · subst hlt
    rw [if_pos rfl]
    refine ⟨_, rfl, ?_⟩
    simp only [Serial.print, if_true]
  · have c1 : ¬ ((c : Int) = (n : Int)) := by omega
    have t1 : ((n : Int) - (c : Int)).toNat = n - c := by omega
    have t5 : (n : Int) - (c : Int) + 1 = ((n - c + 1 : Nat) : Int) := by omega
    obtain ⟨b1, eb, hl1, hx1⟩ := shiftLeft_ok (n - c) c st.con.inputBuffer
      (st.con.serial.print [8]) hc0 (by omega)
    rw [if_neg c1, t1]
    simp only [eb, Serial.printInt, Serial.print_print, t5]
    refine ⟨_, rfl, ?_⟩
    simp only [Serial.print, if_neg hlt, List.append_assoc]

/-- The line after BACKSPACE or DELETE with the cursor past column 0: the
byte left of the cursor is gone. -/
theorem caseBackspace_line (st : LoopState) (h n c : Nat)
    (hh : st.historyIndex = h) (hlen : st.con.inputEnds[h]? = some (n : Int))
    (hn : n ≤ st.con.inputBuffer.length) (hc : st.inputIndex = c) (hc0 : 0 < c) (hcn : c ≤ n) :
    ∃ b' out, getSerialInput.caseBackspace st = .ok { st with
        con := { st.con with
          inputBuffer := b'
          serial := st.con.serial.print out
          inputEnds := st.con.inputEnds.set h ((n : Int) - 1) }
        inputIndex := (c : Int) - 1 } ∧
      b'.take (n - 1) =
        st.con.inputBuffer.take (c - 1) ++ (st.con.inputBuffer.drop c).take (n - c) := by
  obtain ⟨b', out, e, hl, hb⟩ := caseBackspace_ok st h n c hh hlen hn hc hc0 hcn
  refine ⟨b', out, e, ?_⟩
  apply List.ext_getElem?
  intro i
  simp only [List.getElem?_take, List.getElem?_append, List.length_take, List.getElem?_drop, hb]
  have hm : min (c - 1) st.con.inputBuffer.length = c - 1 := by omega
  simp only [hm]
  by_cases h1 : i < c - 1
  · simp [h1, show i < n - 1 by omega, show ¬ (c - 1 ≤ i) by omega]
  · by_cases h3 : i < n - 1
    · have e1 : c + (i - (c - 1)) = i + 1 := by omega
      simp [h1, h3, show c - 1 ≤ i by omega, show i - (c - 1) < n - c by omega, e1]
    · simp [h1, h3, show ¬ (i - (c - 1) < n - c) by omega]

/-- Claim C22: a terminal shows the line of an edit state, blank after it,
with its column at the cursor. After the bytes the switch of `getSerialInput`
writes for a printable byte (the line shorter than `INPUT_BUFFER_SIZE-1`) or
for BACKSPACE or DELETE, at any cursor position, the terminal shows the line
of the new state with its column at the new cursor, and every cursor-left
escape it has obeyed for these bytes has a count other than 0. -/
theorem echo_keeps_terminal_consistent (a : Bool) (st : LoopState) (t : Terminal)
    (h n c x : Nat)
    (hbuf : st.con.inputBuffer.length = INPUT_BUFFER_SIZE)
    (hh : st.historyIndex = h) (hlen : st.con.inputEnds[h]? = some (n : Int))
    (hc : st.inputIndex = c) (hcn : c ≤ n)
    (hkey : (Printable x ∧ n < INPUT_BUFFER_SIZE - 1) ∨
      ((x = BACKSPACE ∨ x = DELETE) ∧ n ≤ INPUT_BUFFER_SIZE - 1))
    (hshow : t.Shows (st.con.inputBuffer.take n) c) :
    ∃ (st' : LoopState) (out : List Nat) (n' c' : Nat),
      getSerialInput.switch a st x = .ok st' ∧
      st'.con.serial.tx = st.con.serial.tx ++ out ∧
      st'.con.inputEnds[h]? = some (n' : Int) ∧ st'.inputIndex = (c' : Int) ∧
      (t.feed out).Shows (st'.con.inputBuffer.take n') c' ∧
      ∃ ks, (t.feed out).lefts = t.lefts ++ ks ∧ ∀ k ∈ ks, k ≠ 0 := by
  have hhl : h < st.con.inputEnds.length := by
    by_contra hcon
    rw [List.getElem?_eq_none (by omega)] at hlen
    cases hlen
  have hB : st.con.inputBuffer.length = 50 := hbuf
  have hLlen : (st.con.inputBuffer.take n).length = n := by
    have : n ≤ 50 := by
      rcases hkey with ⟨_, h1⟩ | ⟨_, h1⟩ <;> simp only [INPUT_BUFFER_SIZE] at h1 <;> omega
    simp only [List.length_take]; omega
  have hLdrop : (st.con.inputBuffer.take n).drop c = (st.con.inputBuffer.drop c).take (n - c) :=
    List.drop_take _ _ _
  have hLtake : ∀ m, m ≤ n → (st.con.inputBuffer.take n).take m = st.con.inputBuffer.take m := by
    intro m hm
    rw [List.take_take, Nat.min_eq_left hm]
  rcases hkey with ⟨hx, hn⟩ | ⟨hx, hn⟩
  · have hn1 : n + 1 < st.con.inputBuffer.length := by
      simp only [INPUT_BUFFER_SIZE] at hn; omega
    obtain ⟨b', out0, e1, hl, hline⟩ := caseDefault_line st h n c x hh hlen hn1 hc hcn
    obtain ⟨st2, e2, htx⟩ := caseDefault_echo st h n c x hh hlen hn1 hc hcn
    have hS : st2 = _ := Except.ok.inj (e2.symm.trans e1)
    obtain ⟨hs1, hs2⟩ := Terminal.shows_insert t (st.con.inputBuffer.take n) c x hshow
      (by omega) ⟨hx.2.2.2.1, hx.1⟩ (by omega)
    rw [hLlen, hLdrop, hLtake c hcn] at hs1
    rw [hLlen, hLdrop] at hs2
    refine ⟨st2, _, n + 1, c + 1, (switch_default a st x hx).trans e2, htx, ?_, ?_, ?_, _, hs2, ?_⟩
    · rw [hS]
      show (st.con.inputEnds.set h ((n : Int) + 1))[h]? = _
      rw [List.getElem?_set_self hhl]; rfl
    · rw [hS]
      show (c : Int) + 1 = _
      omega
    · rw [hS]
      show Terminal.Shows _ (b'.take (n + 1)) (c + 1)
      rw [hline]
      exact hs1
    · intro k hk
      split_ifs at hk with hlt
      · rw [List.mem_singleton.1 hk]; omega
      · cases hk
  · rw [switch_backspace a st x hx]
    rcases Nat.eq_zero_or_pos c with h0 | h0
    · subst h0
      refine ⟨st, [], n, 0, caseBackspace_zero st (by simpa using hc), by simp, hlen,
        by simpa using hc, hshow, [], by simp [Terminal.feed], by simp⟩
    · have hn' : n ≤ st.con.inputBuffer.length := by
        simp only [INPUT_BUFFER_SIZE] at hn; omega
      obtain ⟨b', out0, e1, hline⟩ := caseBackspace_line st h n c hh hlen hn' hc h0 hcn
      obtain ⟨st2, e2, htx⟩ := caseBackspace_echo st h n c hh hlen hn' hc h0 hcn
      have hS : st2 = _ := Except.ok.inj (e2.symm.trans e1)
      obtain ⟨hs1, hs2⟩ := Terminal.shows_backspace t (st.con.inputBuffer.take n) c hshow h0
        (by omega) (by simp only [INPUT_BUFFER_SIZE] at hn; omega)
      rw [hLlen, hLdrop, hLtake (c - 1) (by omega)] at hs1
      rw [hLlen, hLdrop] at hs2
      refine ⟨st2, _, n - 1, c - 1, e2, htx, ?_, ?_, ?_, _, hs2, ?_⟩
      · rw [hS]
        show (st.con.inputEnds.set h ((n : Int) - 1))[h]? = _
        rw [List.getElem?_set_self hhl]
        congr 1
        omega
      · rw [hS]
        show (c : Int) - 1 = _
        omega
      · rw [hS]
        show Terminal.Shows _ (b'.take (n - 1)) (c - 1)
        rw [hline]
        exact hs1
      · intro k hk
        split_ifs at hk with heq
        · cases hk
        · rw [List.mem_singleton.1 hk]; omega

theorem echo_keeps_terminal_consistent_witness :
    ∃ (st' : LoopState) (out : List Nat) (n' c' : Nat),
      getSerialInput.switch true exampleState 120 = .ok st' ∧
      st'.con.serial.tx = exampleState.con.serial.tx ++ out ∧
      st'.con.inputEnds[0]? = some (n' : Int) ∧ st'.inputIndex = (c' : Int) ∧
      (exampleTerminal.feed out).Shows (st'.con.inputBuffer.take n') c' ∧
      ∃ ks, (exampleTerminal.feed out).lefts = exampleTerminal.lefts ++ ks ∧ ∀ k ∈ ks, k ≠ 0 :=
  echo_keeps_terminal_consistent true exampleState exampleTerminal 0 3 1 120 (by decide) rfl
    (by decide) rfl (by decide) (Or.inl ⟨by decide, by decide⟩) (by decide)

end ConsoleControl
